import Mathlib

/-!
Verification of the version-sync tool (`scripts/version-check.ts` and
`scripts/version-update.ts` a.k.a. the update half of `scripts/index.ts`).

The development shallowly embeds the two TypeScript modules:

* file contents are `List Char`;
* the project tree is an explicit `FSState` (an association list from the
  fixed relative paths used by the tool to file data, plus the
  `.github/workflows` directory listing, the backups the updater leaves on
  disk, and a monotone clock standing in for `Date.now()`);
* the JavaScript regexes used by the tool are hand-compiled into
  deterministic scanners (every regex in the source is a literal/character
  class pattern with no nontrivial backtracking, as argued at each matcher);
* `JSON.parse` / `JSON.stringify` are embedded as an executable JSON
  reader and printer;
* exceptions are `Except`, and every catch block in the source becomes an
  explicit `match`; functions that can leak an exception to their caller
  return `Except`.

`String.replace` with a string replacement argument in JavaScript expands
the special patterns `$$`, `$&`, a backtick after `$`, `$'`, `$1`, ... in the
replacement string.  The tool builds the replacement for Dockerfile and
docker-compose rewrites by concatenating the captured suffix into the
replacement string, so this expansion is part of the embedded semantics
(`expandRepl` below); it is observable and is exercised by some theorems.
-/

set_option autoImplicit false

namespace VersionSync

/-! ## Characters and small string utilities -/

/-- Lower-case an ASCII letter; other characters are unchanged.  Stands for
the case folding performed by the `i` flag of the JavaScript regexes (all
pattern literals in the source are ASCII). -/
def lcChar (c : Char) : Char :=
  if 'A' ≤ c ∧ c ≤ 'Z' then Char.ofNat (c.toNat + 32) else c

/-- Case-insensitive character comparison (JS regex `i` flag). -/
def ciEq (a b : Char) : Bool :=
  lcChar a = lcChar b

/-- JavaScript regex `\d`. -/
def jsDigit (c : Char) : Bool :=
  '0' ≤ c ∧ c ≤ '9'

/-- JavaScript regex `\s` (ASCII part: space, tab, LF, VT, FF, CR). -/
def jsWS (c : Char) : Bool :=
  c = ' ' ∨ c = '\t' ∨ c = '\n' ∨ c = Char.ofNat 11 ∨ c = Char.ofNat 12 ∨ c = '\r'

/-- `String.prototype.trim()` on a character list. -/
def jsTrim (s : List Char) : List Char :=
  (((s.dropWhile (fun c => jsWS c)).reverse).dropWhile (fun c => jsWS c)).reverse

/-- Value of a decimal digit character. -/
def digitVal (c : Char) : Nat := c.toNat - 48

/-- `parseInt(ds, 10)` for a non-empty list of decimal digits. -/
def digitsToNat (ds : List Char) : Nat :=
  ds.foldl (fun a c => a * 10 + digitVal c) 0

/-- Decimal digits of a natural number, fuel-driven so that it reduces in
the kernel.  `natDigitsAux fuel n` is the digit list of `n` whenever
`n < 10 ^ fuel` (see `natDigitsAux_fuel`). -/
def natDigitsAux : Nat → Nat → List Char
  | 0, _ => []
  | fuel + 1, n =>
    if n < 10 then [Char.ofNat (48 + n)]
    else natDigitsAux fuel (n / 10) ++ [Char.ofNat (48 + n % 10)]

/-- Decimal digits of a natural number (the way `String(n)` renders it). -/
def natDigits (n : Nat) : List Char :=
  natDigitsAux (n + 1) n

/-- `String(n)` / template interpolation of a number. -/
def natStr (n : Nat) : String :=
  String.mk (natDigits n)

/-- Case-insensitively strip a literal pattern prefix, returning the rest. -/
def stripCI : List Char → List Char → Option (List Char)
  | [], s => some s
  | _ :: _, [] => none
  | p :: ps, c :: cs => if ciEq p c then stripCI ps cs else none

/-- Strip a case-sensitive literal prefix, returning the rest. -/
def stripLit : List Char → List Char → Option (List Char)
  | [], s => some s
  | _ :: _, [] => none
  | p :: ps, c :: cs => if p = c then stripLit ps cs else none

/-- Maximal non-empty digit run at the head of `s` (regex `(\d+)` applied at
the current position), with the rest of the input. -/
def takeDigits (s : List Char) : Option (List Char × List Char) :=
  let ds := s.takeWhile (fun c => jsDigit c)
  if ds.isEmpty then none else some (ds, s.drop ds.length)

/-- Regex `(\d+)` anywhere (first occurrence): digit run of the leftmost
digit.  Used by `extractMajorVersion` (`version.match(/(\d+)/)`). -/
def firstDigitRun : List Char → Option (List Char)
  | [] => none
  | c :: cs =>
    if jsDigit c then some ((c :: cs).takeWhile (fun d => jsDigit d))
    else firstDigitRun cs

/-- `extractMajorVersion` from `version-check.ts`: first integer run of the
string, `0` when there is none. -/
def extractMajorVersion (s : List Char) : Nat :=
  match firstDigitRun s with
  | some ds => digitsToNat ds
  | none => 0

/-- Regex `^v?(\d+)`: the digit group, if the (trimmed) content matches.
The `v` is case sensitive in the source pattern.  If a leading `v` is not
followed by a digit the alternative without `v` also fails, because `v`
itself is not a digit. -/
def matchLeadingV (s : List Char) : Option (List Char) :=
  match s with
  | [] => none
  | c :: rest =>
    if c = 'v' then (takeDigits rest).map (fun p => p.1)
    else (takeDigits (c :: rest)).map (fun p => p.1)

/-- Match `FROM\s+node:(\d+)([^\s]*)?` (flag `i`) at the head of `s`.
Returns `(matched length, digit group, suffix group)`.  The pattern is
deterministic: `\s+` is a maximal whitespace run (the following literal
starts with the non-whitespace `n`), `(\d+)` is the maximal digit run and
`([^\s]*)?` the maximal non-whitespace run after it. -/
def matchFromAt (s : List Char) : Option (Nat × List Char × List Char) :=
  match stripCI "from".data s with
  | none => none
  | some r1 =>
    let ws := r1.takeWhile (fun c => jsWS c)
    if ws.isEmpty then none
    else
      match stripCI "node:".data (r1.drop ws.length) with
      | none => none
      | some r3 =>
        match takeDigits r3 with
        | none => none
        | some (ds, r4) =>
          let sfx := r4.takeWhile (fun c => ¬ jsWS c)
          some (s.length - (r4.drop sfx.length).length, ds, sfx)

/-- Match `image:\s*node:(\d+)([^\s]*)?` (flag `i`) at the head of `s`. -/
def matchImageAt (s : List Char) : Option (Nat × List Char × List Char) :=
  match stripCI "image:".data s with
  | none => none
  | some r1 =>
    match stripCI "node:".data (r1.dropWhile (fun c => jsWS c)) with
    | none => none
    | some r3 =>
      match takeDigits r3 with
      | none => none
      | some (ds, r4) =>
        let sfx := r4.takeWhile (fun c => ¬ jsWS c)
        some (s.length - (r4.drop sfx.length).length, ds, sfx)

/-- Match `<key>\s*['"]?(\d+)['"]?` (flag `i`) at the head of `s`, where
`key` is the literal including the colon (`node-version:` or
`NODE_VERSION:`).  Returns `(matched length, digit group)`.  The optional
opening quote participates exactly when a digit follows it (if not, the
quoteless alternative needs a digit at the quote character and fails). -/
def matchKeyAt (key : List Char) (s : List Char) : Option (Nat × List Char) :=
  match stripCI key s with
  | none => none
  | some r1 =>
    let r2 := r1.dropWhile (fun c => jsWS c)
    let r3 := match r2 with
      | c :: cs =>
        if ((c = '\'' || c = '"') && (match cs with | d :: _ => jsDigit d | [] => false) : Bool)
        then cs else r2
      | [] => r2
    match takeDigits r3 with
    | none => none
    | some (ds, r4) =>
      let r5 := match r4 with
        | c :: cs => if c = '\'' ∨ c = '"' then cs else r4
        | [] => r4
      some (s.length - r5.length, ds)

/-- The two workflow version keys. -/
def keyNodeVersion : List Char := "node-version:".data

def keyNodeEnv : List Char := "NODE_VERSION:".data

/-- Match `nodejs\s+(\d+)` (case sensitive) at the head of `s`. -/
def matchNodejsAt (s : List Char) : Option (Nat × List Char) :=
  match stripLit "nodejs".data s with
  | none => none
  | some r1 =>
    let ws := r1.takeWhile (fun c => jsWS c)
    if ws.isEmpty then none
    else
      match takeDigits (r1.drop ws.length) with
      | none => none
      | some (ds, r4) => some (s.length - r4.length, ds)

/-- Leftmost match of an at-position matcher: the position of the first
match together with its payload (JavaScript `String.match` / non-global
`String.replace` semantics). -/
def findFirstAt {α : Type} (m : List Char → Option α) : List Char → Option (Nat × α)
  | [] => (m []).map (fun a => (0, a))
  | c :: cs =>
    match m (c :: cs) with
    | some a => some (0, a)
    | none => (findFirstAt m cs).map (fun p => (p.1 + 1, p.2))

theorem stripCI_length {p s r : List Char} (h : stripCI p s = some r) :
    r.length + p.length = s.length := by
  induction p generalizing s with
  | nil => simp [stripCI] at h; simp [h]
  | cons a ps ih =>
    match s with
    | [] => simp [stripCI] at h
    | c :: cs =>
      simp only [stripCI] at h
      split at h
      · have := ih h; simp at this ⊢; omega
      · exact absurd h (by simp)

theorem stripLit_length {p s r : List Char} (h : stripLit p s = some r) :
    r.length + p.length = s.length := by
  induction p generalizing s with
  | nil => simp [stripLit] at h; simp [h]
  | cons a ps ih =>
    match s with
    | [] => simp [stripLit] at h
    | c :: cs =>
      simp only [stripLit] at h
      split at h
      · have := ih h; simp at this ⊢; omega
      · exact absurd h (by simp)

/-! ## JSON (`JSON.parse` / `JSON.stringify`)

`package.json` handling in the source goes through `JSON.parse` and
`JSON.stringify(content, null, 2)`.  We embed a JSON tree whose numbers
keep their source lexeme (the tool never computes with them, and no
theorem inspects the serialized bytes of a number).  Objects collapse
duplicate keys the way `JSON.parse` does: the later value wins while the
key keeps its first position. -/

inductive JVal : Type where
  | jnull : JVal
  | jbool (b : Bool) : JVal
  | jnum (raw : List Char) : JVal
  | jstr (s : List Char) : JVal
  | jarr (xs : List JVal) : JVal
  | jobj (fs : List (List Char × JVal)) : JVal

/-- JSON whitespace (`JSON.parse` accepts exactly these four). -/
def jsonWS (c : Char) : Bool :=
  c = ' ' ∨ c = '\t' ∨ c = '\n' ∨ c = '\r'

def skipWS (s : List Char) : List Char :=
  s.dropWhile (fun c => jsonWS c)

def hexVal (c : Char) : Option Nat :=
  if '0' ≤ c ∧ c ≤ '9' then some (c.toNat - 48)
  else if 'a' ≤ c ∧ c ≤ 'f' then some (c.toNat - 87)
  else if 'A' ≤ c ∧ c ≤ 'F' then some (c.toNat - 55)
  else none

/-- Decoded character of a single-character JSON escape. -/
def jescChar (e : Char) : Option Char :=
  if e = '"' then some '"'
  else if e = '\\' then some '\\'
  else if e = '/' then some '/'
  else if e = 'b' then some (Char.ofNat 8)
  else if e = 'f' then some (Char.ofNat 12)
  else if e = 'n' then some '\n'
  else if e = 'r' then some '\r'
  else if e = 't' then some '\t'
  else none

/-- Lex a JSON string body (after the opening quote), decoding escapes. -/
def jlexStr : List Char → Option (List Char × List Char)
  | [] => none
  | '"' :: rest => some ([], rest)
  | '\\' :: 'u' :: h1 :: h2 :: h3 :: h4 :: r4 =>
    (match hexVal h1, hexVal h2, hexVal h3, hexVal h4 with
     | some a, some b, some c, some d =>
       (jlexStr r4).map (fun p =>
         (Char.ofNat (((a * 16 + b) * 16 + c) * 16 + d) :: p.1, p.2))
     | _, _, _, _ => none)
  | '\\' :: e :: r =>
    (match jescChar e with
     | some d => (jlexStr r).map (fun p => (d :: p.1, p.2))
     | none => none)
  | c :: rest =>
    if c.toNat < 32 then none
    else (jlexStr rest).map (fun p => (c :: p.1, p.2))

/-- Lex a JSON number lexeme: `-?(0|[1-9][0-9]*)(\.[0-9]+)?([eE][+-]?[0-9]+)?`. -/
def jlexNum (s : List Char) : Option (List Char × List Char) :=
  let (sgn, s1) : List Char × List Char :=
    match s with
    | '-' :: r => (['-'], r)
    | _ => ([], s)
  match s1 with
  | [] => none
  | c :: _ =>
    if ¬ jsDigit c then none
    else
      let ip := if c = '0' then ['0'] else s1.takeWhile (fun d => jsDigit d)
      let r2 := s1.drop ip.length
      let (fp, r3) : List Char × List Char :=
        match r2 with
        | '.' :: r =>
          let ds := r.takeWhile (fun d => jsDigit d)
          if ds.isEmpty then ([], '.' :: r)
          else ('.' :: ds, r.drop ds.length)
        | _ => ([], r2)
      if (match r2 with | '.' :: _ => fp.isEmpty | _ => false) then none
      else
        let (ep, r5) : List Char × List Char :=
          match r3 with
          | e :: r =>
            if e = 'e' ∨ e = 'E' then
              let (es, r') : List Char × List Char :=
                match r with
                | '+' :: rr => (['+'], rr)
                | '-' :: rr => (['-'], rr)
                | _ => ([], r)
              let ds := r'.takeWhile (fun d => jsDigit d)
              if ds.isEmpty then ([], r3)
              else (e :: (es ++ ds), r'.drop ds.length)
            else ([], r3)
          | [] => ([], r3)
        if (match r3 with
            | e :: _ => (e = 'e' || e = 'E') && ep.isEmpty
            | [] => false) then none
        else some (sgn ++ ip ++ fp ++ ep, r5)

/-- `JSON.parse` object-member accumulation: a duplicate key keeps its
original position but takes the new value. -/
def jsonSet (fs : List (List Char × JVal)) (k : List Char) (v : JVal) :
    List (List Char × JVal) :=
  if fs.any (fun p => p.1 = k)
  then fs.map (fun p => if p.1 = k then (p.1, v) else p)
  else fs ++ [(k, v)]

mutual

/-- Parse one JSON value at the head of `s` (no leading whitespace). -/
def jparseVal : Nat → List Char → Option (JVal × List Char)
  | 0, _ => none
  | fuel + 1, s =>
    match s with
    | [] => none
    | c :: cs =>
      if c = '"' then (jlexStr cs).map (fun p => (JVal.jstr p.1, p.2))
      else if c = '\x7b' then jparseMembers fuel (skipWS cs) [] true
      else if c = '[' then jparseItems fuel (skipWS cs) [] true
      else
        match stripLit "true".data s with
        | some r => some (JVal.jbool true, r)
        | none =>
          match stripLit "false".data s with
          | some r => some (JVal.jbool false, r)
          | none =>
            match stripLit "null".data s with
            | some r => some (JVal.jnull, r)
            | none => (jlexNum s).map (fun p => (JVal.jnum p.1, p.2))

/-- Parse object members after `{` (whitespace already skipped). -/
def jparseMembers : Nat → List Char → List (List Char × JVal) → Bool →
    Option (JVal × List Char)
  | 0, _, _, _ => none
  | fuel + 1, s, acc, first =>
    match s with
    | '\x7d' :: r => if first then some (JVal.jobj acc, r) else none
    | '"' :: cs =>
      match jlexStr cs with
      | none => none
      | some (key, r1) =>
        match skipWS r1 with
        | ':' :: r2 =>
          match jparseVal fuel (skipWS r2) with
          | none => none
          | some (v, r3) =>
            match skipWS r3 with
            | ',' :: r4 => jparseMembers fuel (skipWS r4) (jsonSet acc key v) false
            | '\x7d' :: r4 => some (JVal.jobj (jsonSet acc key v), r4)
            | _ => none
        | _ => none
    | _ => none

/-- Parse array items after `[` (whitespace already skipped). -/
def jparseItems : Nat → List Char → List JVal → Bool → Option (JVal × List Char)
  | 0, _, _, _ => none
  | fuel + 1, s, acc, first =>
    match s with
    | ']' :: r => if first then some (JVal.jarr acc, r) else none
    | _ =>
      match jparseVal fuel s with
      | none => none
      | some (v, r1) =>
        match skipWS r1 with
        | ',' :: r2 => jparseItems fuel (skipWS r2) (acc ++ [v]) false
        | ']' :: r2 => some (JVal.jarr (acc ++ [v]), r2)
        | _ => none

end

/-- `JSON.parse`: whole-input parse.  `none` models a thrown `SyntaxError`. -/
def jparse (s : List Char) : Option JVal :=
  match jparseVal (s.length + 1) (skipWS s) with
  | some (v, rest) => if (skipWS rest).isEmpty then some v else none
  | none => none

/-- Escape a string body the way `JSON.stringify` does. -/
def jescape (s : List Char) : List Char :=
  s.flatMap (fun c =>
    if c = '"' then ['\\', '"']
    else if c = '\\' then ['\\', '\\']
    else if c = '\n' then ['\\', 'n']
    else if c = '\r' then ['\\', 'r']
    else if c = '\t' then ['\\', 't']
    else if c = Char.ofNat 8 then ['\\', 'b']
    else if c = Char.ofNat 12 then ['\\', 'f']
    else if c.toNat < 32 then
      '\\' :: 'u' :: '0' :: '0' ::
        [(if c.toNat / 16 < 10 then Char.ofNat (48 + c.toNat / 16)
          else Char.ofNat (87 + c.toNat / 16)),
         (if c.toNat % 16 < 10 then Char.ofNat (48 + c.toNat % 16)
          else Char.ofNat (87 + c.toNat % 16))]
    else [c])

def indentSp (n : Nat) : List Char := List.replicate n ' '

mutual

/-- `JSON.stringify(v, null, 2)` at indentation level `ind`. -/
def jstringify (ind : Nat) : JVal → List Char
  | JVal.jnull => "null".data
  | JVal.jbool true => "true".data
  | JVal.jbool false => "false".data
  | JVal.jnum raw => raw
  | JVal.jstr s => '"' :: (jescape s ++ ['"'])
  | JVal.jarr [] => "[]".data
  | JVal.jarr (x :: xs) =>
    '[' :: '\n' ::
      (List.intercalate (',' :: ['\n'])
        (jstringifyArr (ind + 2) (x :: xs)) ++
       ('\n' :: (indentSp ind ++ [']'])))
  | JVal.jobj [] => "\x7b\x7d".data
  | JVal.jobj (f :: fs) =>
    '\x7b' :: '\n' ::
      (List.intercalate (',' :: ['\n'])
        (jstringifyObj (ind + 2) (f :: fs)) ++
       ('\n' :: (indentSp ind ++ ['\x7d'])))

def jstringifyArr (ind : Nat) : List JVal → List (List Char)
  | [] => []
  | x :: xs => (indentSp ind ++ jstringify ind x) :: jstringifyArr ind xs

def jstringifyObj (ind : Nat) : List (List Char × JVal) → List (List Char)
  | [] => []
  | (k, v) :: fs =>
    (indentSp ind ++ ('"' :: (jescape k ++ ('"' :: ':' :: ' ' :: jstringify ind v)))) ::
      jstringifyObj ind fs

end

/-- Field lookup on a parsed object (duplicate keys are already collapsed
by `jsonSet`, so first match is the JS member access). -/
def jget (v : JVal) (k : List Char) : Option JVal :=
  match v with
  | JVal.jobj fs => (fs.find? (fun p => p.1 = k)).map (fun p => p.2)
  | _ => none

/-- JavaScript truthiness of a parsed JSON value (`undefined` is `none` at
use sites). -/
def jtruthy (v : JVal) : Bool :=
  match v with
  | JVal.jnull => false
  | JVal.jbool b => b
  | JVal.jstr s => ¬ s.isEmpty
  | JVal.jnum raw => ¬ (raw.all (fun c => c = '0' ∨ c = '-' ∨ c = '.' ∨ c = 'e' ∨ c = 'E' ∨ c = '+'))
  | JVal.jarr _ => true
  | JVal.jobj _ => true

/-! ## Project state

The tool only ever touches a fixed set of project-relative paths:
`.nvmrc`, `package.json`, `Dockerfile`, `docker-compose.yml`,
`.node-version`, `.tool-versions` and the files of `.github/workflows/`.
We model the tree as an association list from such paths to file data.
Read/write/copy failures (`EACCES`-style errors thrown by `fs`) are static
per-file flags, matching the spec's single-writer assumption: nothing
mutates the tree concurrently during a run.  Backup files written by
`copyFileSync` land in a separate ledger (their names never collide with
any path the tool reads: they carry a `.backup.` infix, and the workflow
listing is fixed per run).  `now` stands for `Date.now()`. -/

structure FileData where
  content : List Char
  readErr : Bool
  writeErr : Bool
  copyErr : Bool
  deriving DecidableEq, Repr

structure FSState where
  files : List (String × FileData)
  wfDirExists : Bool
  wfNames : List String
  readdirErr : Bool
  backups : List (String × List Char)
  now : Nat
  deriving DecidableEq, Repr

def lookupFile (st : FSState) (p : String) : Option FileData :=
  (st.files.find? (fun q => q.1 = p)).map (fun q => q.2)

def setFileContent (st : FSState) (p : String) (c : List Char) : FSState :=
  { st with files := st.files.map (fun q => if q.1 = p then (q.1, { q.2 with content := c }) else q) }

def backupPath (p : String) (ts : Nat) : String :=
  p ++ ".backup." ++ natStr ts

/-- `backupFile` (the successful case): `copyFileSync(p, p + ".backup." + Date.now())`. -/
def addBackup (st : FSState) (p : String) (c : List Char) : FSState :=
  { st with backups := st.backups ++ [(backupPath p st.now, c)], now := st.now + 1 }

/-- One discovered version record (`VersionInfo` in `version-check.ts`).
The project root is elided: `file` holds the project-relative path, which
also serves as `relativePath` (the CLI runs with the root as cwd). -/
structure VersionInfo where
  file : String
  relativePath : String
  currentVersion : String
  fullVersion : String
  majorVersion : Nat
  fileType : String
  deriving DecidableEq, Repr

/-! ## Extractor (`version-check.ts`) -/

/-- `checkNvmrc`.  The `readFileSync` is not inside any `try`, so a read
failure on an existing `.nvmrc` escapes to the caller (`Except.error`). -/
def checkNvmrc (st : FSState) : Except String (Option VersionInfo) :=
  match lookupFile st ".nvmrc" with
  | none => .ok none
  | some fd =>
    if fd.readErr then .error "EACCES: permission denied, open .nvmrc"
    else
      let content := jsTrim fd.content
      match matchLeadingV content with
      | none => .ok none
      | some ds =>
        .ok (some ⟨".nvmrc", ".nvmrc", String.mk ds, String.mk content,
          digitsToNat ds, "nvmrc"⟩)

/-- `checkPackageJson`.  Everything after the existence test happens inside
`try { ... } catch { return null }`: read failures, JSON syntax errors and
the `TypeError` from calling `.match` on a non-string `engines.node` all
collapse to `none`.  A falsy `engines.node` (absent, `""`, `0`, `false`,
`null`) returns `none` via `if (!nodeVersion)`. -/
def checkPackageJson (st : FSState) : Option VersionInfo :=
  match lookupFile st "package.json" with
  | none => none
  | some fd =>
    if fd.readErr then none
    else
      match jparse fd.content with
      | none => none
      | some v =>
        match (jget v "engines".data).bind (fun e => jget e "node".data) with
        | some (JVal.jstr s) =>
          if s.isEmpty then none
          else
            some ⟨"package.json", "package.json", natStr (extractMajorVersion s),
              String.mk s, extractMajorVersion s, "package.json"⟩
        | _ => none

/-- `checkDockerfile` (read not guarded by `try`). -/
def checkDockerfile (st : FSState) : Except String (Option VersionInfo) :=
  match lookupFile st "Dockerfile" with
  | none => .ok none
  | some fd =>
    if fd.readErr then .error "EACCES: permission denied, open Dockerfile"
    else
      match findFirstAt matchFromAt fd.content with
      | none => .ok none
      | some (_, _, ds, sfx) =>
        .ok (some ⟨"Dockerfile", "Dockerfile", String.mk ds, String.mk (ds ++ sfx),
          digitsToNat ds, "dockerfile"⟩)

/-- `checkDockerCompose` (read not guarded by `try`). -/
def checkDockerCompose (st : FSState) : Except String (Option VersionInfo) :=
  match lookupFile st "docker-compose.yml" with
  | none => .ok none
  | some fd =>
    if fd.readErr then .error "EACCES: permission denied, open docker-compose.yml"
    else
      match findFirstAt matchImageAt fd.content with
      | none => .ok none
      | some (_, _, ds, sfx) =>
        .ok (some ⟨"docker-compose.yml", "docker-compose.yml", String.mk ds,
          String.mk (ds ++ sfx), digitsToNat ds, "docker-compose"⟩)

/-- `checkNodeVersion` (`.node-version`; read not guarded by `try`). -/
def checkNodeVersion (st : FSState) : Except String (Option VersionInfo) :=
  match lookupFile st ".node-version" with
  | none => .ok none
  | some fd =>
    if fd.readErr then .error "EACCES: permission denied, open .node-version"
    else
      let content := jsTrim fd.content
      match matchLeadingV content with
      | none => .ok none
      | some ds =>
        .ok (some ⟨".node-version", ".node-version", String.mk ds, String.mk content,
          digitsToNat ds, "node-version"⟩)

/-- `checkToolVersions` (`.tool-versions`; read not guarded by `try`). -/
def checkToolVersions (st : FSState) : Except String (Option VersionInfo) :=
  match lookupFile st ".tool-versions" with
  | none => .ok none
  | some fd =>
    if fd.readErr then .error "EACCES: permission denied, open .tool-versions"
    else
      match findFirstAt matchNodejsAt fd.content with
      | none => .ok none
      | some (_, _, ds) =>
        .ok (some ⟨".tool-versions", ".tool-versions", String.mk ds, String.mk ds,
          digitsToNat ds, "tool-versions"⟩)

def wfPrefix : String := ".github/workflows/"

/-- The extension filter applied to the directory listing
(`f.endsWith(".yml") || f.endsWith(".yaml")`). -/
def extOk (n : String) : Bool :=
  ".yml".data.isSuffixOf n.data || ".yaml".data.isSuffixOf n.data

/-- Body of the workflow loop for one file: try `node-version:` first and
short-circuit (`continue`), else try `NODE_VERSION:`. -/
def wfFileRecord (path : String) (content : List Char) : Option VersionInfo :=
  match findFirstAt (matchKeyAt keyNodeVersion) content with
  | some (_, _, ds) =>
    some ⟨path, path, String.mk ds, String.mk ds, digitsToNat ds, "github-workflow"⟩
  | none =>
    match findFirstAt (matchKeyAt keyNodeEnv) content with
    | some (_, _, ds) =>
      some ⟨path, path, String.mk ds, String.mk ds, digitsToNat ds, "github-workflow"⟩
    | none => none

/-- The `for` loop of `checkGitHubWorkflows`.  A throwing read (missing or
unreadable file) is caught by the single `try` wrapped around the whole
loop, which abandons the remaining files and returns what was collected. -/
def wfLoop (st : FSState) : List String → List VersionInfo → List VersionInfo
  | [], acc => acc
  | n :: ns, acc =>
    match lookupFile st (wfPrefix ++ n) with
    | none => acc
    | some fd =>
      if fd.readErr then acc
      else wfLoop st ns (acc ++ (wfFileRecord (wfPrefix ++ n) fd.content).toList)

/-- `checkGitHubWorkflows`: never raises (its `try` also covers
`readdirSync`). -/
def checkGitHubWorkflows (st : FSState) : List VersionInfo :=
  if ¬ st.wfDirExists then []
  else if st.readdirErr then []
  else wfLoop st (st.wfNames.filter extOk) []

/-- `scanVersions`: the checks run in the fixed source order; the first
escaping exception aborts the scan. -/
def scanVersions (st : FSState) : Except String (List VersionInfo) :=
  match checkNvmrc st with
  | .error e => .error e
  | .ok o1 =>
    let o2 := checkPackageJson st
    match checkDockerfile st with
    | .error e => .error e
    | .ok o3 =>
      match checkDockerCompose st with
      | .error e => .error e
      | .ok o4 =>
        match checkNodeVersion st with
        | .error e => .error e
        | .ok o5 =>
          match checkToolVersions st with
          | .error e => .error e
          | .ok o6 =>
            .ok (o1.toList ++ o2.toList ++ o3.toList ++ o4.toList ++ o5.toList ++
              o6.toList ++ checkGitHubWorkflows st)

/-! ## Reconciler (`generateReport`) -/

structure VersionReport where
  versions : List VersionInfo
  hasMismatch : Bool
  targetVersion : Option Nat
  deriving DecidableEq, Repr

/-- Insertion-ordered deduplication (`new Set(...)` keys / first-seen order). -/
def dedupFS (ms : List Nat) : List Nat :=
  ms.foldl (fun a v => if v ∈ a then a else a ++ [v]) []

/-- The `versionCounts` map: `Map.set` keeps the first-insertion position of
a key and bumps its count. -/
def versionCounts (ms : List Nat) : List (Nat × Nat) :=
  ms.foldl (fun acc v =>
    if acc.any (fun p => p.1 = v)
    then acc.map (fun p => if p.1 = v then (p.1, p.2 + 1) else p)
    else acc ++ [(v, 1)]) []

/-- The selection loop: `if (count > maxCount) { maxCount = count;
resolvedTarget = ver; }` starting from `maxCount = 0`. -/
def pickMax (l : List (Nat × Nat)) (init : Option Nat) : Option Nat :=
  (l.foldl (fun s p => if p.2 > s.1 then (p.2, some p.1) else s) ((0 : Nat), init)).2

/-- JavaScript truthiness of `resolvedTarget` (`Option Nat`): `null` and
`0` are falsy. -/
def optFalsy (o : Option Nat) : Bool :=
  o = none ∨ o = some 0

/-- `generateReport` (the Reconciler). -/
def generateReport (st : FSState) (targetVersion : Option Nat) :
    Except String VersionReport :=
  match scanVersions st with
  | .error e => .error e
  | .ok versions =>
    let majors := versions.map (fun v => v.majorVersion)
    let hasMismatch : Bool := (dedupFS majors).length > 1
    let resolved :=
      if optFalsy targetVersion ∧ versions.length > 0
      then pickMax (versionCounts majors) targetVersion
      else targetVersion
    .ok ⟨versions, hasMismatch, resolved⟩

/-! ## Updater (`version-update.ts`) -/

structure UpdateResult where
  file : String
  relativePath : String
  oldVersion : String
  newVersion : String
  success : Bool
  error : Option String
  backedUp : Bool
  deriving DecidableEq, Repr

/-- The options record after merging with `DEFAULT_OPTIONS`. -/
structure UpdateOptions where
  dryRun : Bool
  backup : Bool
  deriving DecidableEq, Repr

/-- Expansion of the special `$` patterns in a string passed as the second
argument of `String.prototype.replace` (ES GetSubstitution, for a regex
with two capture groups, no named groups): `$$`, `$&` (the match), a
backtick after `$` (text before the match), `$'` (text after the match),
`$1`/`$2`/`$01`/`$02` (groups); anything else stays literal. -/
def expandRepl (matched before after g1 g2 : List Char) : List Char → List Char
  | [] => []
  | ['$'] => ['$']
  | '$' :: '$' :: r => '$' :: expandRepl matched before after g1 g2 r
  | '$' :: '&' :: r => matched ++ expandRepl matched before after g1 g2 r
  | '$' :: '\'' :: r => after ++ expandRepl matched before after g1 g2 r
  | ['$', c] =>
    if c = Char.ofNat 96 then before
    else if jsDigit c ∧ 1 ≤ digitVal c ∧ digitVal c ≤ 2 then
      (if digitVal c = 1 then g1 else g2)
    else ['$', c]
  | '$' :: c :: d :: r2 =>
    if c = Char.ofNat 96 then before ++ expandRepl matched before after g1 g2 (d :: r2)
    else if jsDigit c then
      if jsDigit d ∧ 1 ≤ digitVal c * 10 + digitVal d ∧ digitVal c * 10 + digitVal d ≤ 2 then
        (if digitVal c * 10 + digitVal d = 1 then g1 else g2) ++
          expandRepl matched before after g1 g2 r2
      else if 1 ≤ digitVal c ∧ digitVal c ≤ 2 then
        (if digitVal c = 1 then g1 else g2) ++
          expandRepl matched before after g1 g2 (d :: r2)
      else '$' :: c :: expandRepl matched before after g1 g2 (d :: r2)
    else '$' :: c :: expandRepl matched before after g1 g2 (d :: r2)
  | c :: r => c :: expandRepl matched before after g1 g2 r

/-- Fuel-driven worker for the global replacement, so that it reduces in
the kernel; `fuel ≥ length` always suffices (`replaceAllKeyAux_fuel`). -/
def replaceAllKeyAux (key Q : List Char) : Nat → List Char → List Char
  | 0, s => s
  | fuel + 1, s =>
    match s with
    | [] => []
    | c :: cs =>
      match matchKeyAt key (c :: cs) with
      | some (len, _) => Q ++ replaceAllKeyAux key Q fuel (cs.drop (len - 1))
      | none => c :: replaceAllKeyAux key Q fuel cs

/-- Global (`g` flag) replacement of a workflow key pattern by the constant
replacement `Q` (the replacement strings for the workflow rewrites contain
no `$`).  Scanning restarts right after each match, as `replace` with a
`g` regex does.  A successful match always has length at least one, so
`cs.drop (len - 1)` equals `(c :: cs).drop len`. -/
def replaceAllKey (key Q : List Char) (s : List Char) : List Char :=
  replaceAllKeyAux key Q s.length s

/-- The shared `try { backupFile?; writeFileSync } catch` tail of every
updater.  Returns `((success, backedUp field, error field), state)`.  A
failed copy or write is caught: the result reports failure and the state
keeps whatever had already happened (a backup made before a failed write
stays on disk). -/
def writeStep (st : FSState) (path : String) (fd : FileData) (backup : Bool)
    (newContent : List Char) : (Bool × Bool × Option String) × FSState :=
  if backup then
    if fd.copyErr then ((false, false, some "Error: EACCES: copyFileSync"), st)
    else
      let st1 := addBackup st path fd.content
      if fd.writeErr then ((false, false, some "Error: EACCES: writeFileSync"), st1)
      else ((true, true, none), setFileContent st1 path newContent)
  else
    if fd.writeErr then ((false, false, some "Error: EACCES: writeFileSync"), st)
    else ((true, false, none), setFileContent st path newContent)

/-- `updateNvmrc`.  The read happens before the `try`, so a read failure
escapes (`Except.error`); that is unreachable from a scanned record. -/
def updateNvmrc (st : FSState) (filePath : String) (T : Nat) (o : UpdateOptions) :
    Except String UpdateResult × FSState :=
  match lookupFile st filePath with
  | none => (.error "ENOENT: no such file or directory", st)
  | some fd =>
    if fd.readErr then (.error "EACCES: permission denied", st)
    else
      let content := String.mk (jsTrim fd.content)
      if o.dryRun then
        (.ok ⟨filePath, filePath, content, natStr T, true, none, false⟩, st)
      else
        let p := writeStep st filePath fd o.backup (natDigits T ++ ['\n'])
        (.ok ⟨filePath, filePath, content, natStr T, p.1.1, p.1.2.2, p.1.2.1⟩, p.2)

/-- `updateNodeVersionFile` (`.node-version`): same body as `updateNvmrc`. -/
def updateNodeVersionFile (st : FSState) (filePath : String) (T : Nat)
    (o : UpdateOptions) : Except String UpdateResult × FSState :=
  match lookupFile st filePath with
  | none => (.error "ENOENT: no such file or directory", st)
  | some fd =>
    if fd.readErr then (.error "EACCES: permission denied", st)
    else
      let content := String.mk (jsTrim fd.content)
      if o.dryRun then
        (.ok ⟨filePath, filePath, content, natStr T, true, none, false⟩, st)
      else
        let p := writeStep st filePath fd o.backup (natDigits T ++ ['\n'])
        (.ok ⟨filePath, filePath, content, natStr T, p.1.1, p.1.2.2, p.1.2.1⟩, p.2)

/-- `content.engines.node = newVersion` after `if (!content.engines)
content.engines = {}`, on a parsed object.  `none` is the strict-mode
`TypeError` from assigning a property of a truthy primitive; an array
`engines` accepts the expando property but `JSON.stringify` ignores it. -/
def setEnginesNode (fs : List (List Char × JVal)) (nv : List Char) :
    Option (List (List Char × JVal)) :=
  match (fs.find? (fun p => p.1 = "engines".data)).map (fun p => p.2) with
  | some (JVal.jobj efs) =>
    some (jsonSet fs "engines".data (JVal.jobj (jsonSet efs "node".data (JVal.jstr nv))))
  | some (JVal.jarr _) => some fs
  | some other =>
    if jtruthy other then none
    else some (jsonSet fs "engines".data (JVal.jobj [("node".data, JVal.jstr nv)]))
  | none => some (jsonSet fs "engines".data (JVal.jobj [("node".data, JVal.jstr nv)]))

/-- `updatePackageJson`.  The whole body is inside `try`, so nothing
escapes: every failure (missing file, unreadable file, JSON syntax error,
`TypeError` from a non-object manifest) is caught and reported with
`oldVersion: ""` as in the source's catch branch. -/
def updatePackageJson (st : FSState) (filePath : String) (T : Nat)
    (o : UpdateOptions) : Except String UpdateResult × FSState :=
  let newVersion := ">=" ++ natStr T ++ ".0.0"
  match lookupFile st filePath with
  | none =>
    (.ok ⟨filePath, filePath, "", newVersion, false,
      some "Error: ENOENT: no such file or directory", false⟩, st)
  | some fd =>
    if fd.readErr then
      (.ok ⟨filePath, filePath, "", newVersion, false,
        some "Error: EACCES: permission denied", false⟩, st)
    else
      match jparse fd.content with
      | none =>
        (.ok ⟨filePath, filePath, "", newVersion, false,
          some "SyntaxError: Unexpected token in JSON", false⟩, st)
      | some v =>
        let oldVersion : String :=
          match (jget v "engines".data).bind (fun e => jget e "node".data) with
          | some (JVal.jstr s) => String.mk s
          | _ => ""
        if o.dryRun then
          (.ok ⟨filePath, filePath, oldVersion, newVersion, true, none, false⟩, st)
        else
          match v with
          | JVal.jobj fs =>
            match setEnginesNode fs newVersion.data with
            | none =>
              (.ok ⟨filePath, filePath, "", newVersion, false,
                some "TypeError: Cannot create property", false⟩, st)
            | some fs' =>
              let p := writeStep st filePath fd o.backup
                (jstringify 0 (JVal.jobj fs') ++ ['\n'])
              if p.1.1 then
                (.ok ⟨filePath, filePath, oldVersion, newVersion, true, none,
                  p.1.2.1⟩, p.2)
              else
                (.ok ⟨filePath, filePath, "", newVersion, false, p.1.2.2, false⟩, p.2)
          | _ =>
            (.ok ⟨filePath, filePath, "", newVersion, false,
              some "TypeError: Cannot create property", false⟩, st)

/-- `updateDockerfile`.  The read is before the `try`; the replacement
string is `"FROM node:" + targetVersion + suffix`, so the captured suffix
goes through `$`-expansion (`expandRepl`). -/
def updateDockerfile (st : FSState) (filePath : String) (T : Nat)
    (o : UpdateOptions) : Except String UpdateResult × FSState :=
  match lookupFile st filePath with
  | none => (.error "ENOENT: no such file or directory", st)
  | some fd =>
    if fd.readErr then (.error "EACCES: permission denied", st)
    else
      match findFirstAt matchFromAt fd.content with
      | none =>
        (.ok ⟨filePath, filePath, "", natStr T, false,
          some "No FROM node: line found", false⟩, st)
      | some (i, len, ds, sfx) =>
        let oldV := String.mk (ds ++ sfx)
        let newV := String.mk (natDigits T ++ sfx)
        let newContent :=
          fd.content.take i ++
            expandRepl ((fd.content.drop i).take len) (fd.content.take i)
              (fd.content.drop (i + len)) ds sfx
              ("FROM node:".data ++ natDigits T ++ sfx) ++
            fd.content.drop (i + len)
        if o.dryRun then
          (.ok ⟨filePath, filePath, oldV, newV, true, none, false⟩, st)
        else
          let p := writeStep st filePath fd o.backup newContent
          (.ok ⟨filePath, filePath, oldV, newV, p.1.1, p.1.2.2, p.1.2.1⟩, p.2)

/-- `updateDockerCompose`: as `updateDockerfile` with the `image:` pattern. -/
def updateDockerCompose (st : FSState) (filePath : String) (T : Nat)
    (o : UpdateOptions) : Except String UpdateResult × FSState :=
  match lookupFile st filePath with
  | none => (.error "ENOENT: no such file or directory", st)
  | some fd =>
    if fd.readErr then (.error "EACCES: permission denied", st)
    else
      match findFirstAt matchImageAt fd.content with
      | none =>
        (.ok ⟨filePath, filePath, "", natStr T, false,
          some "No image: node: line found", false⟩, st)
      | some (i, len, ds, sfx) =>
        let oldV := String.mk (ds ++ sfx)
        let newV := String.mk (natDigits T ++ sfx)
        let newContent :=
          fd.content.take i ++
            expandRepl ((fd.content.drop i).take len) (fd.content.take i)
              (fd.content.drop (i + len)) ds sfx
              ("image: node:".data ++ natDigits T ++ sfx) ++
            fd.content.drop (i + len)
        if o.dryRun then
          (.ok ⟨filePath, filePath, oldV, newV, true, none, false⟩, st)
        else
          let p := writeStep st filePath fd o.backup newContent
          (.ok ⟨filePath, filePath, oldV, newV, p.1.1, p.1.2.2, p.1.2.1⟩, p.2)

/-- `updateGitHubWorkflow`.  Both patterns are rewritten globally (flag
`gi`), the second match is taken on the content already rewritten for the
first pattern, and `oldVersion` prefers the first pattern's digits. -/
def updateGitHubWorkflow (st : FSState) (filePath : String) (T : Nat)
    (o : UpdateOptions) : Except String UpdateResult × FSState :=
  match lookupFile st filePath with
  | none => (.error "ENOENT: no such file or directory", st)
  | some fd =>
    if fd.readErr then (.error "EACCES: permission denied", st)
    else
      let m1 := findFirstAt (matchKeyAt keyNodeVersion) fd.content
      let c1 := match m1 with
        | some _ =>
          replaceAllKey keyNodeVersion
            ("node-version: '".data ++ natDigits T ++ ['\'']) fd.content
        | none => fd.content
      let m2 := findFirstAt (matchKeyAt keyNodeEnv) c1
      let c2 := match m2 with
        | some _ =>
          replaceAllKey keyNodeEnv
            ("NODE_VERSION: '".data ++ natDigits T ++ ['\'']) c1
        | none => c1
      let oldVersion : String := match m1 with
        | some (_, _, ds) => String.mk ds
        | none =>
          match m2 with
          | some (_, _, ds) => String.mk ds
          | none => ""
      if ¬ (m1.isSome || m2.isSome) then
        (.ok ⟨filePath, filePath, "", natStr T, false,
          some "No node version pattern found", false⟩, st)
      else if o.dryRun then
        (.ok ⟨filePath, filePath, oldVersion, natStr T, true, none, false⟩, st)
      else
        let p := writeStep st filePath fd o.backup c2
        (.ok ⟨filePath, filePath, oldVersion, natStr T, p.1.1, p.1.2.2, p.1.2.1⟩, p.2)

/-- `updateToolVersions` (`.tool-versions`): non-global first-match
replacement with the constant replacement `"nodejs " + targetVersion`. -/
def updateToolVersions (st : FSState) (filePath : String) (T : Nat)
    (o : UpdateOptions) : Except String UpdateResult × FSState :=
  match lookupFile st filePath with
  | none => (.error "ENOENT: no such file or directory", st)
  | some fd =>
    if fd.readErr then (.error "EACCES: permission denied", st)
    else
      match findFirstAt matchNodejsAt fd.content with
      | none =>
        (.ok ⟨filePath, filePath, "", natStr T, false,
          some "No nodejs line found", false⟩, st)
      | some (i, len, ds) =>
        let newContent :=
          fd.content.take i ++ ("nodejs ".data ++ natDigits T) ++
            fd.content.drop (i + len)
        if o.dryRun then
          (.ok ⟨filePath, filePath, String.mk ds, natStr T, true, none, false⟩, st)
        else
          let p := writeStep st filePath fd o.backup newContent
          (.ok ⟨filePath, filePath, String.mk ds, natStr T, p.1.1, p.1.2.2, p.1.2.1⟩,
            p.2)

/-- `updateVersionFile`: dispatch on `fileType`. -/
def updateVersionFile (st : FSState) (v : VersionInfo) (T : Nat)
    (o : UpdateOptions) : Except String UpdateResult × FSState :=
  if v.fileType = "nvmrc" then updateNvmrc st v.file T o
  else if v.fileType = "package.json" then updatePackageJson st v.file T o
  else if v.fileType = "dockerfile" then updateDockerfile st v.file T o
  else if v.fileType = "docker-compose" then updateDockerCompose st v.file T o
  else if v.fileType = "github-workflow" then updateGitHubWorkflow st v.file T o
  else if v.fileType = "node-version" then updateNodeVersionFile st v.file T o
  else if v.fileType = "tool-versions" then updateToolVersions st v.file T o
  else
    (.ok ⟨v.file, v.relativePath, v.fullVersion, natStr T, false,
      some ("Unknown file type: " ++ v.fileType), false⟩, st)

/-- The loop body of `updateAllVersions` for one record: skip if already at
the target, else dispatch. -/
def processOne (st : FSState) (T : Nat) (o : UpdateOptions) (v : VersionInfo) :
    Except String UpdateResult × FSState :=
  if v.majorVersion = T then
    (.ok ⟨v.file, v.relativePath, v.fullVersion, natStr T, true, none, false⟩, st)
  else updateVersionFile st v T o

/-- The `for` loop of `updateAllVersions`: an escaping exception (only
possible from an unguarded read) aborts the batch, keeping prior state
changes. -/
def updateLoop (T : Nat) (o : UpdateOptions) :
    List VersionInfo → FSState → Except String (List UpdateResult) × FSState
  | [], st => (.ok [], st)
  | v :: vs, st =>
    match processOne st T o v with
    | (.error e, st') => (.error e, st')
    | (.ok r, st') =>
      match updateLoop T o vs st' with
      | (.ok rs, st'') => (.ok (r :: rs), st'')
      | (.error e, st'') => (.error e, st'')

/-- `updateAllVersions`: fresh scan, then per-record processing. -/
def updateAllVersions (st : FSState) (T : Nat) (o : UpdateOptions) :
    Except String (List UpdateResult) × FSState :=
  match scanVersions st with
  | .error e => (.error e, st)
  | .ok versions => updateLoop T o versions st

/-! ## Statement-side definitions -/

/-- The spec's majority rule, stated from its words: the `rawMajor` value
with (weakly) maximal frequency among the records, the first seen in scan
order winning ties — i.e. the first element of the first-seen
deduplication whose count is maximal. -/
def specMajority (ms : List Nat) : Option Nat :=
  (dedupFS ms).find? (fun v => (dedupFS ms).all (fun w => ms.count w ≤ ms.count v))

/-- Every occurrence of the workflow key pattern in `u` carries the digit
value `T`. -/
def occAllT (key : List Char) (T : Nat) (u : List Char) : Prop :=
  ∀ i l ds, matchKeyAt key (u.drop i) = some (l, ds) → digitsToNat ds = T

/-- The workflow key pattern occurs somewhere in `u`. -/
def occSome (key : List Char) (u : List Char) : Prop :=
  ∃ i l ds, matchKeyAt key (u.drop i) = some (l, ds)

/-- The rewritten content `updateGitHubWorkflow` computes for a workflow
file (both patterns replaced globally, the second pass running on the
output of the first — the names mirror the source's successive
reassignments of `content`). -/
def updateWorkflowContent (T : Nat) (content : List Char) : List Char :=
  let c1 := match findFirstAt (matchKeyAt keyNodeVersion) content with
    | some _ =>
      replaceAllKey keyNodeVersion
        ("node-version: '".data ++ natDigits T ++ ['\'']) content
    | none => content
  match findFirstAt (matchKeyAt keyNodeEnv) c1 with
  | some _ =>
    replaceAllKey keyNodeEnv ("NODE_VERSION: '".data ++ natDigits T ++ ['\'']) c1
  | none => c1

/-- The `afterValue` the spec expects a dry-run `updated` record to report,
per format (for the Docker formats: target digits followed by the captured
suffix of the current first match). -/
def afterValueFor (st : FSState) (T : Nat) (v : VersionInfo) : String :=
  if v.fileType = "package.json" then ">=" ++ natStr T ++ ".0.0"
  else if v.fileType = "dockerfile" then
    match (lookupFile st v.file).bind (fun fd => findFirstAt matchFromAt fd.content) with
    | some (_, _, _, sfx) => String.mk (natDigits T ++ sfx)
    | none => natStr T
  else if v.fileType = "docker-compose" then
    match (lookupFile st v.file).bind (fun fd => findFirstAt matchImageAt fd.content) with
    | some (_, _, _, sfx) => String.mk (natDigits T ++ sfx)
    | none => natStr T
  else natStr T

/-- The workflow records contributed by the listed file names (used to
state which part of the listing survives an aborted workflow loop). -/
def wfRecordsOf (st : FSState) (ns : List String) : List VersionInfo :=
  ns.filterMap (fun n =>
    (lookupFile st (wfPrefix ++ n)).bind (fun fd => wfFileRecord (wfPrefix ++ n) fd.content))

/-! ## Concrete example states -/

/-- File data with the given content and no I/O faults. -/
def mkFD (s : String) : FileData :=
  ⟨s.data, false, false, false⟩

/-- A project with a single Dockerfile whose image suffix is the two
characters `$` + backtick — legal non-whitespace Dockerfile text that the
updater splices into a `String.replace` replacement string. -/
def stC1 : FSState :=
  ⟨[("Dockerfile", mkFD "5 FROM node:20$`")], false, [], false, [], 100⟩

def stC1run1 : FSState := (updateAllVersions stC1 22 ⟨false, true⟩).2

def stC1run2 : FSState := (updateAllVersions stC1run1 22 ⟨false, true⟩).2

/-- A project whose `package.json` declares `engines.node = "latest"`. -/
def stC3 : FSState :=
  ⟨[("package.json", mkFD "\x7b\"engines\":\x7b\"node\":\"latest\"\x7d\x7d")],
    false, [], false, [], 0⟩

/-- A project with majors `[20, 20, 22]` (scan order: `.nvmrc`,
`Dockerfile`, `docker-compose.yml`). -/
def stC5 : FSState :=
  ⟨[(".nvmrc", mkFD "20\n"), ("Dockerfile", mkFD "FROM node:20"),
    ("docker-compose.yml", mkFD "image: node:22")], false, [], false, [], 0⟩

/-- A project with an `.nvmrc` and a Dockerfile that cannot be written. -/
def stC6w : FSState :=
  ⟨[(".nvmrc", mkFD "18\n"), ("Dockerfile", ⟨"FROM node:18-slim".data, false, true, false⟩)],
    false, [], false, [], 7⟩

/-- A project whose `.nvmrc` exists but cannot be read. -/
def stC7 : FSState :=
  ⟨[(".nvmrc", ⟨"18".data, true, false, false⟩)], false, [], false, [], 0⟩

/-- A workflow file containing both version keys (with different values)
and a second `node-version` occurrence. -/
def wfBoth : List Char :=
  "jobs:\n  node-version: 20\n  env:\n    NODE_VERSION: '18'\n  more node-version: \"20\"\n".data

/-- Dockerfiles for the suffix-preservation examples. -/
def stC9slim : FSState :=
  ⟨[("Dockerfile", mkFD "FROM node:20-slim")], false, [], false, [], 0⟩

def stC9alpine : FSState :=
  ⟨[("docker-compose.yml", mkFD "image: node:18-alpine")], false, [], false, [], 0⟩

def stC9bad : FSState :=
  ⟨[("Dockerfile", mkFD "FROM node:20$&")], false, [], false, [], 0⟩

/-- Workflow listing whose middle file is unreadable: `a.yml` matches,
`b.yml` throws on read, `c.yml` also matches but is never reached. -/
def stC10 : FSState :=
  ⟨[(".github/workflows/a.yml", mkFD "node-version: 20"),
    (".github/workflows/b.yml", ⟨"node-version: 21".data, true, false, false⟩),
    (".github/workflows/c.yml", mkFD "node-version: 21")],
    true, ["a.yml", "b.yml", "c.yml"], false, [], 0⟩

/-! ## Claim C1 (idempotence) — refuted at a concrete tree

`updateDockerfile` builds the second argument of `String.replace` as
`"FROM node:" + targetVersion + suffix` with the captured suffix spliced
into the replacement string, where JavaScript expands `$`-patterns.  With
the Dockerfile `5 FROM node:20$\x60` (the suffix captured by `[^\s]*` is
`$` + backtick, which `replace` expands to the text before the match),
run 1 writes `5 FROM node:225 `, and run 2 — far from reporting
`unchanged` — matches major `225`, rewrites again, and leaves different
bytes (`5 FROM node:22 `).  A third run would finally be stable. -/

/-- Claim C1: applying the update twice with the same target is claimed to
yield `unchanged` with byte-identical content on the second run; at the
concrete tree `stC1` the second run instead succeeds as another rewrite
and changes the Dockerfile's bytes. -/
theorem c1_secondRunNotIdempotent :
    (updateAllVersions stC1 22 ⟨false, true⟩).1 =
      .ok [⟨"Dockerfile", "Dockerfile", "20$`", "22$`", true, none, true⟩] ∧
    (updateAllVersions stC1run1 22 ⟨false, true⟩).1 =
      .ok [⟨"Dockerfile", "Dockerfile", "225", "22", true, none, true⟩] ∧
    (lookupFile stC1run1 "Dockerfile").map (fun fd => fd.content) =
      some "5 FROM node:225 ".data ∧
    (lookupFile stC1run2 "Dockerfile").map (fun fd => fd.content) =
      some "5 FROM node:22 ".data ∧
    (lookupFile stC1run1 "Dockerfile").map (fun fd => fd.content) ≠
      (lookupFile stC1run2 "Dockerfile").map (fun fd => fd.content) := by
  exact ⟨rfl, rfl, rfl, rfl, by decide⟩

/-- Claim C9: the two examples of the claim hold (`FROM node:20-slim` to
target 22 gives `FROM node:22-slim`; `image: node:18-alpine` to target 20
gives `image: node:20-alpine`), but the universal "suffix preserved
verbatim" part fails: a suffix containing a `$`-pattern is expanded by
`String.replace`, so `FROM node:20$&` updated to 22 yields
`FROM node:22FROM node:20$&` instead of `FROM node:22$&`. -/
theorem c9_suffixPreservation :
    (lookupFile (updateDockerfile stC9slim "Dockerfile" 22 ⟨false, false⟩).2
        "Dockerfile").map (fun fd => fd.content) = some "FROM node:22-slim".data ∧
    (lookupFile (updateDockerCompose stC9alpine "docker-compose.yml" 20
        ⟨false, false⟩).2 "docker-compose.yml").map (fun fd => fd.content) =
      some "image: node:20-alpine".data ∧
    (lookupFile (updateDockerfile stC9bad "Dockerfile" 22 ⟨false, false⟩).2
        "Dockerfile").map (fun fd => fd.content) =
      some "FROM node:22FROM node:20$&".data ∧
    (lookupFile (updateDockerfile stC9bad "Dockerfile" 22 ⟨false, false⟩).2
        "Dockerfile").map (fun fd => fd.content) ≠ some "FROM node:22$&".data := by
  exact ⟨rfl, rfl, rfl, by decide⟩

/-- Claim C3, counterexample: `checkPackageJson` happily builds a record
from `engines.node = "latest"`, whose version text contains no integer
(`extractMajorVersion` falls back to `0`), refuting "no record is ever
constructed for a file whose recognized version text contains no
integer". -/
theorem c3_counterexample :
    scanVersions stC3 =
      .ok [⟨"package.json", "package.json", "0", "latest", 0, "package.json"⟩] ∧
    firstDigitRun "latest".data = none := by
  exact ⟨rfl, rfl⟩

/-- Claim C7, counterexample: an existing but unreadable `.nvmrc` makes
`scanVersions` propagate the read error to its caller (the `readFileSync`
of `checkNvmrc` is outside every `try`), refuting "extraction never raises
an error to its caller". -/
theorem c7_counterexample :
    scanVersions stC7 = .error "EACCES: permission denied, open .nvmrc" := by
  exact rfl

/-! ## Digit and scanning utility lemmas -/

theorem digitVal_char {m : Nat} (h : m < 10) :
    digitVal (Char.ofNat (48 + m)) = m ∧ jsDigit (Char.ofNat (48 + m)) = true := by
  interval_cases m <;> exact ⟨rfl, rfl⟩

theorem digitsToNat_append (xs : List Char) (c : Char) :
    digitsToNat (xs ++ [c]) = 10 * digitsToNat xs + digitVal c := by
  simp [digitsToNat, List.foldl_append]; ring

theorem natDigitsAux_correct : ∀ fuel n, n < 10 ^ fuel →
    digitsToNat (natDigitsAux fuel n) = n := by
  intro fuel
  induction fuel with
  | zero => intro n h; simp at h; simp [h, natDigitsAux, digitsToNat]
  | succ fuel ih =>
    intro n h
    by_cases h10 : n < 10
    · simp [natDigitsAux, h10, digitsToNat, (digitVal_char h10).1]
    · have hdiv : n / 10 < 10 ^ fuel := by
        rw [Nat.div_lt_iff_lt_mul (by norm_num)]
        calc n < 10 ^ (fuel + 1) := h
        _ = 10 ^ fuel * 10 := by ring
      simp only [natDigitsAux, h10, if_false]
      rw [digitsToNat_append, ih _ hdiv, (digitVal_char (Nat.mod_lt _ (by norm_num))).1]
      omega

theorem digitsToNat_natDigits (n : Nat) : digitsToNat (natDigits n) = n :=
  natDigitsAux_correct _ _ (lt_of_lt_of_le (Nat.lt_pow_self (by norm_num) n)
    (Nat.pow_le_pow_right (by norm_num) (Nat.le_succ n)))

theorem natDigitsAux_digits : ∀ fuel n, ∀ c ∈ natDigitsAux fuel n, jsDigit c = true := by
  intro fuel
  induction fuel with
  | zero => intro n c hc; simp [natDigitsAux] at hc
  | succ fuel ih =>
    intro n c hc
    by_cases h10 : n < 10
    · simp [natDigitsAux, h10] at hc
      simpa [hc] using (digitVal_char h10).2
    · simp only [natDigitsAux, h10, if_false, List.mem_append, List.mem_singleton] at hc
      rcases hc with hc | hc
      · exact ih _ _ hc
      · simpa [hc] using (digitVal_char (Nat.mod_lt _ (by norm_num))).2

theorem natDigits_digits (n : Nat) : ∀ c ∈ natDigits n, jsDigit c = true :=
  natDigitsAux_digits _ n

theorem natDigits_ne_nil (n : Nat) : natDigits n ≠ [] := by
  unfold natDigits natDigitsAux
  split <;> simp

theorem takeDigits_some {s ds r : List Char} (h : takeDigits s = some (ds, r)) :
    ds = s.takeWhile (fun c => jsDigit c) ∧ ds ≠ [] ∧ r = s.drop ds.length := by
  simp only [takeDigits] at h
  split at h
  · exact absurd h (by simp)
  · next hne =>
    obtain ⟨h1, h2⟩ := Prod.mk.injEq .. ▸ Option.some.injEq .. ▸ h
    subst h1
    refine ⟨rfl, ?_, h2.symm⟩
    simpa [List.isEmpty_iff] using hne

theorem drop_takeWhile_length (p : Char → Bool) :
    ∀ l : List Char, l.drop (l.takeWhile p).length = l.dropWhile p := by
  intro l
  induction l with
  | nil => simp
  | cons c cs ih =>
    by_cases hp : p c
    · simpa [List.takeWhile_cons, List.dropWhile_cons, hp] using ih
    · simp [List.takeWhile_cons, List.dropWhile_cons, hp]

theorem head?_dropWhile_not (p : Char → Bool) :
    ∀ l : List Char, ∀ c, (l.dropWhile p).head? = some c → p c = false := by
  intro l
  induction l with
  | nil => intro c hc; simp at hc
  | cons a as ih =>
    intro c hc
    by_cases hp : p a
    · exact ih c (by simpa [List.dropWhile_cons, hp] using hc)
    · simp [List.dropWhile_cons, hp] at hc
      subst hc
      simpa using hp

theorem head?_takeWhile (p : Char → Bool) (l : List Char) {c : Char}
    (h : (l.takeWhile p).head? = some c) : l.head? = some c := by
  cases l with
  | nil => simp at h
  | cons a as =>
    by_cases hp : p a
    · simpa [List.takeWhile_cons, hp] using h
    · simp [List.takeWhile_cons, hp] at h

theorem takeWhile_digits_append {ds rest : List Char}
    (hd : ∀ c ∈ ds, jsDigit c = true)
    (hr : ∀ c, rest.head? = some c → jsDigit c = false) :
    (ds ++ rest).takeWhile (fun c => jsDigit c) = ds := by
  induction ds with
  | nil =>
    cases rest with
    | nil => simp
    | cons r rs => simp [List.takeWhile_cons, hr r (by simp)]
  | cons d ds ih =>
    simp only [List.cons_append, List.takeWhile_cons, hd d (by simp)]
    simp [ih (fun c hc => hd c (List.mem_cons_of_mem _ hc))]

theorem firstDigitRun_digits_append {ds rest : List Char} (hne : ds ≠ [])
    (hd : ∀ c ∈ ds, jsDigit c = true)
    (hr : ∀ c, rest.head? = some c → jsDigit c = false) :
    firstDigitRun (ds ++ rest) = some ds := by
  cases ds with
  | nil => exact absurd rfl hne
  | cons d ds =>
    simp only [List.cons_append, firstDigitRun, hd d (by simp), if_pos]
    rw [show d :: ds.append rest = (d :: ds) ++ rest from rfl,
      takeWhile_digits_append hd hr]

theorem extractMajorVersion_of_run {ds rest : List Char} (hne : ds ≠ [])
    (hd : ∀ c ∈ ds, jsDigit c = true)
    (hr : ∀ c, rest.head? = some c → jsDigit c = false) :
    extractMajorVersion (ds ++ rest) = digitsToNat ds := by
  simp [extractMajorVersion, firstDigitRun_digits_append hne hd hr]

theorem findFirstAt_some {α : Type} (m : List Char → Option α) :
    ∀ {s : List Char} {i : Nat} {a : α}, findFirstAt m s = some (i, a) →
    m (s.drop i) = some a := by
  intro s
  induction s with
  | nil =>
    intro i a h
    simp only [findFirstAt] at h
    cases hm : m [] with
    | none => simp [hm] at h
    | some b =>
      simp [hm] at h
      simpa [h.1.symm, hm] using h.2
  | cons c cs ih =>
    intro i a h
    simp only [findFirstAt] at h
    cases hm : m (c :: cs) with
    | some b => simp [hm] at h; simpa [h.1.symm, hm] using h.2
    | none =>
      simp only [hm] at h
      cases hf : findFirstAt m cs with
      | none => simp [hf] at h
      | some p =>
        simp [hf] at h
        obtain ⟨hi, ha⟩ := h
        subst hi
        simpa using ih (ha ▸ hf)

theorem takeDigits_extract {s ds r : List Char} (h : takeDigits s = some (ds, r)) :
    firstDigitRun s = some ds ∧ ds ≠ [] ∧ ∀ c ∈ ds, jsDigit c = true := by
  obtain ⟨hds, hne, hr⟩ := takeDigits_some h
  have hd : ∀ c ∈ ds, jsDigit c = true := by
    intro c hc
    subst hds
    exact List.mem_takeWhile_imp hc
  have hs : s = ds ++ s.dropWhile (fun c => jsDigit c) := by
    rw [hds]
    exact (List.takeWhile_append_dropWhile ..).symm
  refine ⟨?_, hne, hd⟩
  conv_lhs => rw [hs]
  exact firstDigitRun_digits_append hne hd (fun c hc => head?_dropWhile_not _ _ _ hc)

theorem extractMajorVersion_digits {ds : List Char} (hne : ds ≠ [])
    (hd : ∀ c ∈ ds, jsDigit c = true) :
    extractMajorVersion ds = digitsToNat ds := by
  have := @extractMajorVersion_of_run _ [] hne hd (by intro c hc; simp at hc)
  simpa using this

theorem matchLeadingV_extract {s ds : List Char} (h : matchLeadingV s = some ds) :
    firstDigitRun s = some ds ∧ extractMajorVersion s = digitsToNat ds ∧
    ds ≠ [] ∧ ∀ c ∈ ds, jsDigit c = true := by
  cases s with
  | nil => simp [matchLeadingV] at h
  | cons c rest =>
    simp only [matchLeadingV] at h
    by_cases hc : c = 'v'
    · subst hc
      simp only [if_pos rfl] at h
      cases ht : takeDigits rest with
      | none => simp [ht] at h
      | some p =>
        obtain ⟨ds', r'⟩ := p
        simp [ht] at h
        subst h
        obtain ⟨hfst, hne, hd⟩ := takeDigits_extract ht
        have hrun : firstDigitRun ('v' :: rest) = some ds' := by
          simp [firstDigitRun, show jsDigit 'v' = false from rfl, hfst]
        exact ⟨hrun, by simp [extractMajorVersion, hrun], hne, hd⟩
    · simp only [if_neg hc] at h
      cases ht : takeDigits (c :: rest) with
      | none => simp [ht] at h
      | some p =>
        obtain ⟨ds', r'⟩ := p
        simp [ht] at h
        subst h
        obtain ⟨hfst, hne, hd⟩ := takeDigits_extract ht
        exact ⟨hfst, by simp [extractMajorVersion, hfst], hne, hd⟩

theorem matchFromAt_parts {s : List Char} {len : Nat} {ds sfx : List Char}
    (h : matchFromAt s = some (len, ds, sfx)) :
    ds ≠ [] ∧ (∀ c ∈ ds, jsDigit c = true) ∧
    (∀ c, sfx.head? = some c → jsDigit c = false) := by
  unfold matchFromAt at h
  split at h
  · exact absurd h (by simp)
  · simp only [] at h
    split at h
    · exact absurd h (by simp)
    · split at h
      · exact absurd h (by simp)
      · split at h
        · exact absurd h (by simp)
        · next ds' r4 heq =>
          simp only [Option.some.injEq, Prod.mk.injEq] at h
          obtain ⟨-, hds, hsfx⟩ := h
          subst hds
          obtain ⟨-, hne, hd⟩ := takeDigits_extract heq
          obtain ⟨hds', -, hr4⟩ := takeDigits_some heq
          refine ⟨hne, hd, ?_⟩
          intro c hc
          rw [← hsfx] at hc
          have hh := head?_takeWhile _ _ hc
      -- r4 is the drop; rewrite it to a dropWhile
          rw [hr4, hds', drop_takeWhile_length] at hh
          exact head?_dropWhile_not _ _ _ hh

theorem matchImageAt_parts {s : List Char} {len : Nat} {ds sfx : List Char}
    (h : matchImageAt s = some (len, ds, sfx)) :
    ds ≠ [] ∧ (∀ c ∈ ds, jsDigit c = true) ∧
    (∀ c, sfx.head? = some c → jsDigit c = false) := by
  unfold matchImageAt at h
  split at h
  · exact absurd h (by simp)
  · split at h
    · exact absurd h (by simp)
    · split at h
      · exact absurd h (by simp)
      · next ds' r4 heq =>
        simp only [Option.some.injEq, Prod.mk.injEq] at h
        obtain ⟨-, hds, hsfx⟩ := h
        subst hds
        obtain ⟨-, hne, hd⟩ := takeDigits_extract heq
        obtain ⟨hds', -, hr4⟩ := takeDigits_some heq
        refine ⟨hne, hd, ?_⟩
        intro c hc
        rw [← hsfx] at hc
        have hh := head?_takeWhile _ _ hc
        rw [hr4, hds', drop_takeWhile_length] at hh
        exact head?_dropWhile_not _ _ _ hh

theorem matchKeyAt_parts {key s : List Char} {len : Nat} {ds : List Char}
    (h : matchKeyAt key s = some (len, ds)) :
    ds ≠ [] ∧ ∀ c ∈ ds, jsDigit c = true := by
  unfold matchKeyAt at h
  split at h
  · exact absurd h (by simp)
  · simp only [] at h
    split at h
    · exact absurd h (by simp)
    · next ds' r4 heq =>
      simp only [Option.some.injEq, Prod.mk.injEq] at h
      obtain ⟨-, hds⟩ := h
      subst hds
      obtain ⟨-, hne, hd⟩ := takeDigits_extract heq
      exact ⟨hne, hd⟩

theorem matchNodejsAt_parts {s : List Char} {len : Nat} {ds : List Char}
    (h : matchNodejsAt s = some (len, ds)) :
    ds ≠ [] ∧ ∀ c ∈ ds, jsDigit c = true := by
  unfold matchNodejsAt at h
  split at h
  · exact absurd h (by simp)
  · simp only [] at h
    split at h
    · exact absurd h (by simp)
    · split at h
      · exact absurd h (by simp)
      · next ds' r4 heq =>
        simp only [Option.some.injEq, Prod.mk.injEq] at h
        obtain ⟨-, hds⟩ := h
        subst hds
        obtain ⟨-, hne, hd⟩ := takeDigits_extract heq
        exact ⟨hne, hd⟩

/-! ## Record invariants of the per-format extractors -/

theorem checkNvmrc_inv {st : FSState} {v : VersionInfo}
    (h : checkNvmrc st = .ok (some v)) :
    v.majorVersion = extractMajorVersion v.fullVersion.data ∧
    ∃ ds, firstDigitRun v.fullVersion.data = some ds ∧ digitsToNat ds = v.majorVersion := by
  unfold checkNvmrc at h
  split at h
  · exact absurd h (by simp)
  · split at h
    · exact absurd h (by simp)
    · simp only [] at h
      split at h
      · exact absurd h (by simp)
      · next ds hm =>
        simp only [Except.ok.injEq, Option.some.injEq] at h
        subst h
        obtain ⟨hrun, hext, -, -⟩ := matchLeadingV_extract hm
        exact ⟨hext.symm, ds, hrun, hext ▸ rfl⟩

theorem checkNodeVersion_inv {st : FSState} {v : VersionInfo}
    (h : checkNodeVersion st = .ok (some v)) :
    v.majorVersion = extractMajorVersion v.fullVersion.data ∧
    ∃ ds, firstDigitRun v.fullVersion.data = some ds ∧ digitsToNat ds = v.majorVersion := by
  unfold checkNodeVersion at h
  split at h
  · exact absurd h (by simp)
  · split at h
    · exact absurd h (by simp)
    · simp only [] at h
      split at h
      · exact absurd h (by simp)
      · next ds hm =>
        simp only [Except.ok.injEq, Option.some.injEq] at h
        subst h
        obtain ⟨hrun, hext, -, -⟩ := matchLeadingV_extract hm
        exact ⟨hext.symm, ds, hrun, hext ▸ rfl⟩

theorem checkDockerfile_inv {st : FSState} {v : VersionInfo}
    (h : checkDockerfile st = .ok (some v)) :
    v.majorVersion = extractMajorVersion v.fullVersion.data ∧
    ∃ ds, firstDigitRun v.fullVersion.data = some ds ∧ digitsToNat ds = v.majorVersion := by
  unfold checkDockerfile at h
  split at h
  · exact absurd h (by simp)
  · split at h
    · exact absurd h (by simp)
    · split at h
      · exact absurd h (by simp)
      · next i len ds sfx heq =>
        simp only [Except.ok.injEq, Option.some.injEq] at h
        subst h
        have hm := findFirstAt_some _ heq
        obtain ⟨hne, hd, hsfx⟩ := matchFromAt_parts hm
        refine ⟨(extractMajorVersion_of_run hne hd hsfx).symm,
          ds, firstDigitRun_digits_append hne hd hsfx, ?_⟩
        simp [extractMajorVersion_of_run hne hd hsfx]

theorem checkDockerCompose_inv {st : FSState} {v : VersionInfo}
    (h : checkDockerCompose st = .ok (some v)) :
    v.majorVersion = extractMajorVersion v.fullVersion.data ∧
    ∃ ds, firstDigitRun v.fullVersion.data = some ds ∧ digitsToNat ds = v.majorVersion := by
  unfold checkDockerCompose at h
  split at h
  · exact absurd h (by simp)
  · split at h
    · exact absurd h (by simp)
    · split at h
      · exact absurd h (by simp)
      · next i len ds sfx heq =>
        simp only [Except.ok.injEq, Option.some.injEq] at h
        subst h
        have hm := findFirstAt_some _ heq
        obtain ⟨hne, hd, hsfx⟩ := matchImageAt_parts hm
        refine ⟨(extractMajorVersion_of_run hne hd hsfx).symm,
          ds, firstDigitRun_digits_append hne hd hsfx, ?_⟩
        simp [extractMajorVersion_of_run hne hd hsfx]

theorem checkToolVersions_inv {st : FSState} {v : VersionInfo}
    (h : checkToolVersions st = .ok (some v)) :
    v.majorVersion = extractMajorVersion v.fullVersion.data ∧
    ∃ ds, firstDigitRun v.fullVersion.data = some ds ∧ digitsToNat ds = v.majorVersion := by
  unfold checkToolVersions at h
  split at h
  · exact absurd h (by simp)
  · split at h
    · exact absurd h (by simp)
    · split at h
      · exact absurd h (by simp)
      · next i len ds heq =>
        simp only [Except.ok.injEq, Option.some.injEq] at h
        subst h
        have hm := findFirstAt_some _ heq
        obtain ⟨hne, hd⟩ := matchNodejsAt_parts hm
        have hrun : firstDigitRun ds = some ds := by
          simpa using @firstDigitRun_digits_append _ [] hne hd (by intro c hc; simp at hc)
        exact ⟨(extractMajorVersion_digits hne hd).symm, ds, hrun,
          by simp [extractMajorVersion_digits hne hd]⟩

theorem checkPackageJson_inv {st : FSState} {v : VersionInfo}
    (h : checkPackageJson st = some v) :
    v.majorVersion = extractMajorVersion v.fullVersion.data ∧ v.fileType = "package.json" := by
  unfold checkPackageJson at h
  split at h
  · exact absurd h (by simp)
  · split at h
    · exact absurd h (by simp)
    · split at h
      · exact absurd h (by simp)
      · split at h
        · split at h
          · exact absurd h (by simp)
          · next s _ =>
            simp only [Option.some.injEq] at h
            subst h
            exact ⟨rfl, rfl⟩
        · exact absurd h (by simp)

theorem wfFileRecord_inv {path : String} {c : List Char} {v : VersionInfo}
    (h : wfFileRecord path c = some v) :
    v.majorVersion = extractMajorVersion v.fullVersion.data ∧
    (∃ ds, firstDigitRun v.fullVersion.data = some ds ∧ digitsToNat ds = v.majorVersion) ∧
    v.fileType = "github-workflow" := by
  unfold wfFileRecord at h
  split at h
  · next i len ds heq =>
    simp only [Option.some.injEq] at h
    subst h
    obtain ⟨hne, hd⟩ := matchKeyAt_parts (findFirstAt_some _ heq)
    have hrun : firstDigitRun ds = some ds := by
      simpa using @firstDigitRun_digits_append _ [] hne hd (by intro c hc; simp at hc)
    exact ⟨(extractMajorVersion_digits hne hd).symm,
      ⟨ds, hrun, by simp [extractMajorVersion_digits hne hd]⟩, rfl⟩
  · split at h
    · next i len ds heq =>
      simp only [Option.some.injEq] at h
      subst h
      obtain ⟨hne, hd⟩ := matchKeyAt_parts (findFirstAt_some _ heq)
      have hrun : firstDigitRun ds = some ds := by
        simpa using @firstDigitRun_digits_append _ [] hne hd (by intro c hc; simp at hc)
      exact ⟨(extractMajorVersion_digits hne hd).symm,
        ⟨ds, hrun, by simp [extractMajorVersion_digits hne hd]⟩, rfl⟩
    · exact absurd h (by simp)

theorem wfLoop_mem {st : FSState} :
    ∀ {ns : List String} {acc : List VersionInfo} {v : VersionInfo},
    v ∈ wfLoop st ns acc → v ∈ acc ∨
      ∃ n fd, n ∈ ns ∧ lookupFile st (wfPrefix ++ n) = some fd ∧ fd.readErr = false ∧
        wfFileRecord (wfPrefix ++ n) fd.content = some v := by
  intro ns
  induction ns with
  | nil => intro acc v hv; exact Or.inl hv
  | cons n ns ih =>
    intro acc v hv
    simp only [wfLoop] at hv
    cases hl : lookupFile st (wfPrefix ++ n) with
    | none => simp only [hl] at hv; exact Or.inl hv
    | some fd =>
      simp only [hl] at hv
      by_cases hre : fd.readErr
      · simp only [hre, if_true] at hv; exact Or.inl hv
      · simp only [hre, if_false] at hv
        rcases ih hv with hacc | ⟨n', fd', hn', hl', hre', hr'⟩
        · rcases List.mem_append.mp hacc with hacc | hrec
          · exact Or.inl hacc
          · refine Or.inr ⟨n, fd, by simp, hl, by simpa using hre, ?_⟩
            cases hw : wfFileRecord (wfPrefix ++ n) fd.content with
            | none => simp [hw] at hrec
            | some w => simp [hw] at hrec ⊢; exact hrec.symm
        · exact Or.inr ⟨n', fd', List.mem_cons_of_mem _ hn', hl', hre', hr'⟩

theorem checkGitHubWorkflows_mem {st : FSState} {v : VersionInfo}
    (h : v ∈ checkGitHubWorkflows st) :
    ∃ n fd, n ∈ st.wfNames.filter extOk ∧ lookupFile st (wfPrefix ++ n) = some fd ∧
      fd.readErr = false ∧ wfFileRecord (wfPrefix ++ n) fd.content = some v := by
  unfold checkGitHubWorkflows at h
  split at h
  · simp at h
  · split at h
    · simp at h
    · rcases wfLoop_mem h with hacc | hrec
      · simp at hacc
      · exact hrec

/-- Decomposition of scan membership into the per-format extractors. -/
theorem scanVersions_mem {st : FSState} {rs : List VersionInfo}
    (h : scanVersions st = .ok rs) {v : VersionInfo} (hv : v ∈ rs) :
    checkNvmrc st = .ok (some v) ∨ checkPackageJson st = some v ∨
    checkDockerfile st = .ok (some v) ∨ checkDockerCompose st = .ok (some v) ∨
    checkNodeVersion st = .ok (some v) ∨ checkToolVersions st = .ok (some v) ∨
    v ∈ checkGitHubWorkflows st := by
  unfold scanVersions at h
  split at h
  · exact absurd h (by simp)
  · next o1 h1 =>
    split at h
    · exact absurd h (by simp)
    · next o3 h3 =>
      split at h
      · exact absurd h (by simp)
      · next o4 h4 =>
        split at h
        · exact absurd h (by simp)
        · next o5 h5 =>
          split at h
          · exact absurd h (by simp)
          · next o6 h6 =>
            simp only [Except.ok.injEq] at h
            subst h
            simp only [List.mem_append, Option.mem_toList, Option.mem_def] at hv
            rcases hv with ((((((hv | hv) | hv) | hv) | hv) | hv) | hv)
            · exact Or.inl (hv ▸ h1)
            · exact Or.inr (Or.inl hv)
            · exact Or.inr (Or.inr (Or.inl (hv ▸ h3)))
            · exact Or.inr (Or.inr (Or.inr (Or.inl (hv ▸ h4))))
            · exact Or.inr (Or.inr (Or.inr (Or.inr (Or.inl (hv ▸ h5)))))
            · exact Or.inr (Or.inr (Or.inr (Or.inr (Or.inr (Or.inl (hv ▸ h6))))))
            · exact Or.inr (Or.inr (Or.inr (Or.inr (Or.inr (Or.inr hv)))))

/-- Claim C3 (amended): for every record returned by a successful scan,
`rawMajor` equals `extractMajorVersion(displayValue)` — the first integer
run of the display value when one exists, `0` otherwise — and for every
format except `package.json` the display value always contains an integer
run whose value is `rawMajor`.  (The original claim fails only for
`package.json`, whose records may carry version text with no integer; see
`c3_counterexample`.) -/
theorem c3_amended (st : FSState) {rs : List VersionInfo}
    (h : scanVersions st = .ok rs) {v : VersionInfo} (hv : v ∈ rs) :
    v.majorVersion = extractMajorVersion v.fullVersion.data ∧
    (v.fileType ≠ "package.json" →
      ∃ ds, firstDigitRun v.fullVersion.data = some ds ∧ digitsToNat ds = v.majorVersion) := by
  rcases scanVersions_mem h hv with hc | hc | hc | hc | hc | hc | hc
  · obtain ⟨h1, h2⟩ := checkNvmrc_inv hc
    exact ⟨h1, fun _ => h2⟩
  · obtain ⟨h1, h2⟩ := checkPackageJson_inv hc
    exact ⟨h1, fun hne => absurd h2 hne⟩
  · obtain ⟨h1, h2⟩ := checkDockerfile_inv hc
    exact ⟨h1, fun _ => h2⟩
  · obtain ⟨h1, h2⟩ := checkDockerCompose_inv hc
    exact ⟨h1, fun _ => h2⟩
  · obtain ⟨h1, h2⟩ := checkNodeVersion_inv hc
    exact ⟨h1, fun _ => h2⟩
  · obtain ⟨h1, h2⟩ := checkToolVersions_inv hc
    exact ⟨h1, fun _ => h2⟩
  · obtain ⟨n, fd, -, -, -, hr⟩ := checkGitHubWorkflows_mem hc
    obtain ⟨h1, h2, -⟩ := wfFileRecord_inv hr
    exact ⟨h1, fun _ => h2⟩

/-- Witness for `c3_amended`: the `.nvmrc` record of the three-file project
`stC5`. -/
theorem c3_amended_witness :
    (20 : Nat) = extractMajorVersion "20".data ∧
    ("nvmrc" ≠ "package.json" →
      ∃ ds, firstDigitRun "20".data = some ds ∧ digitsToNat ds = 20) := by
  exact @c3_amended stC5 _ rfl
    ⟨".nvmrc", ".nvmrc", "20", "20", 20, "nvmrc"⟩ (by decide)

/-! ## C7: degradation-to-absence lemmas for the extractors -/

theorem checkNvmrc_ok (st : FSState)
    (h : ∀ fd, lookupFile st ".nvmrc" = some fd → fd.readErr = false) :
    ∃ o, checkNvmrc st = .ok o ∧
      (lookupFile st ".nvmrc" = none → o = none) ∧
      (∀ fd, lookupFile st ".nvmrc" = some fd →
        matchLeadingV (jsTrim fd.content) = none → o = none) := by
  unfold checkNvmrc
  cases hl : lookupFile st ".nvmrc" with
  | none => exact ⟨none, rfl, fun _ => rfl, by intro fd hfd; simp at hfd⟩
  | some fd =>
    simp only [h fd hl, Bool.false_eq_true, if_false]
    cases hm : matchLeadingV (jsTrim fd.content) with
    | none => exact ⟨none, rfl, by simp, fun _ _ _ => rfl⟩
    | some ds =>
      refine ⟨_, rfl, by simp, ?_⟩
      intro fd' hfd' hm'
      cases hfd'
      rw [hm] at hm'
      exact absurd hm' (by simp)

theorem checkNodeVersion_ok (st : FSState)
    (h : ∀ fd, lookupFile st ".node-version" = some fd → fd.readErr = false) :
    ∃ o, checkNodeVersion st = .ok o ∧
      (lookupFile st ".node-version" = none → o = none) ∧
      (∀ fd, lookupFile st ".node-version" = some fd →
        matchLeadingV (jsTrim fd.content) = none → o = none) := by
  unfold checkNodeVersion
  cases hl : lookupFile st ".node-version" with
  | none => exact ⟨none, rfl, fun _ => rfl, by intro fd hfd; simp at hfd⟩
  | some fd =>
    simp only [h fd hl, Bool.false_eq_true, if_false]
    cases hm : matchLeadingV (jsTrim fd.content) with
    | none => exact ⟨none, rfl, by simp, fun _ _ _ => rfl⟩
    | some ds =>
      refine ⟨_, rfl, by simp, ?_⟩
      intro fd' hfd' hm'
      cases hfd'
      rw [hm] at hm'
      exact absurd hm' (by simp)

theorem checkDockerfile_ok (st : FSState)
    (h : ∀ fd, lookupFile st "Dockerfile" = some fd → fd.readErr = false) :
    ∃ o, checkDockerfile st = .ok o ∧
      (lookupFile st "Dockerfile" = none → o = none) ∧
      (∀ fd, lookupFile st "Dockerfile" = some fd →
        findFirstAt matchFromAt fd.content = none → o = none) := by
  unfold checkDockerfile
  cases hl : lookupFile st "Dockerfile" with
  | none => exact ⟨none, rfl, fun _ => rfl, by intro fd hfd; simp at hfd⟩
  | some fd =>
    simp only [h fd hl, Bool.false_eq_true, if_false]
    cases hm : findFirstAt matchFromAt fd.content with
    | none => exact ⟨none, rfl, by simp, fun _ _ _ => rfl⟩
    | some p =>
      obtain ⟨i, len, ds, sfx⟩ := p
      refine ⟨_, rfl, by simp, ?_⟩
      intro fd' hfd' hm'
      cases hfd'
      rw [hm] at hm'
      exact absurd hm' (by simp)

theorem checkDockerCompose_ok (st : FSState)
    (h : ∀ fd, lookupFile st "docker-compose.yml" = some fd → fd.readErr = false) :
    ∃ o, checkDockerCompose st = .ok o ∧
      (lookupFile st "docker-compose.yml" = none → o = none) ∧
      (∀ fd, lookupFile st "docker-compose.yml" = some fd →
        findFirstAt matchImageAt fd.content = none → o = none) := by
  unfold checkDockerCompose
  cases hl : lookupFile st "docker-compose.yml" with
  | none => exact ⟨none, rfl, fun _ => rfl, by intro fd hfd; simp at hfd⟩
  | some fd =>
    simp only [h fd hl, Bool.false_eq_true, if_false]
    cases hm : findFirstAt matchImageAt fd.content with
    | none => exact ⟨none, rfl, by simp, fun _ _ _ => rfl⟩
    | some p =>
      obtain ⟨i, len, ds, sfx⟩ := p
      refine ⟨_, rfl, by simp, ?_⟩
      intro fd' hfd' hm'
      cases hfd'
      rw [hm] at hm'
      exact absurd hm' (by simp)

theorem checkToolVersions_ok (st : FSState)
    (h : ∀ fd, lookupFile st ".tool-versions" = some fd → fd.readErr = false) :
    ∃ o, checkToolVersions st = .ok o ∧
      (lookupFile st ".tool-versions" = none → o = none) ∧
      (∀ fd, lookupFile st ".tool-versions" = some fd →
        findFirstAt matchNodejsAt fd.content = none → o = none) := by
  unfold checkToolVersions
  cases hl : lookupFile st ".tool-versions" with
  | none => exact ⟨none, rfl, fun _ => rfl, by intro fd hfd; simp at hfd⟩
  | some fd =>
    simp only [h fd hl, Bool.false_eq_true, if_false]
    cases hm : findFirstAt matchNodejsAt fd.content with
    | none => exact ⟨none, rfl, by simp, fun _ _ _ => rfl⟩
    | some p =>
      obtain ⟨i, len, ds⟩ := p
      refine ⟨_, rfl, by simp, ?_⟩
      intro fd' hfd' hm'
      cases hfd'
      rw [hm] at hm'
      exact absurd hm' (by simp)

theorem checkPackageJson_absent (st : FSState) :
    (lookupFile st "package.json" = none → checkPackageJson st = none) ∧
    (∀ fd, lookupFile st "package.json" = some fd → fd.readErr = false →
      jparse fd.content = none → checkPackageJson st = none) := by
  constructor
  · intro hl
    unfold checkPackageJson
    rw [hl]
  · intro fd hl hre hp
    unfold checkPackageJson
    simp [hl, hre, hp]

theorem scanVersions_concat {st : FSState} {o1 o3 o4 o5 o6 : Option VersionInfo}
    (h1 : checkNvmrc st = .ok o1) (h3 : checkDockerfile st = .ok o3)
    (h4 : checkDockerCompose st = .ok o4) (h5 : checkNodeVersion st = .ok o5)
    (h6 : checkToolVersions st = .ok o6) :
    scanVersions st = .ok (o1.toList ++ (checkPackageJson st).toList ++ o3.toList ++
      o4.toList ++ o5.toList ++ o6.toList ++ checkGitHubWorkflows st) := by
  unfold scanVersions
  rw [h1, h3, h4, h5, h6]

/-- Claim C7 (amended): provided the files read outside any catch
(`.nvmrc`, `Dockerfile`, `docker-compose.yml`, `.node-version`,
`.tool-versions`) are readable when present, extraction raises no error;
a missing file, a file in which the recognition pattern does not match,
and an unparseable `package.json` each yield no record for that format; a
missing workflow directory yields no workflow records; and `scanVersions`
returns exactly the concatenation of the records of the formats that
succeeded, in the fixed probe order.  (Without the readability proviso
the original claim fails: see `c7_counterexample`.) -/
theorem c7_amended (st : FSState)
    (r1 : ∀ fd, lookupFile st ".nvmrc" = some fd → fd.readErr = false)
    (r3 : ∀ fd, lookupFile st "Dockerfile" = some fd → fd.readErr = false)
    (r4 : ∀ fd, lookupFile st "docker-compose.yml" = some fd → fd.readErr = false)
    (r5 : ∀ fd, lookupFile st ".node-version" = some fd → fd.readErr = false)
    (r6 : ∀ fd, lookupFile st ".tool-versions" = some fd → fd.readErr = false) :
    ∃ o1 o3 o4 o5 o6 : Option VersionInfo,
      checkNvmrc st = .ok o1 ∧ checkDockerfile st = .ok o3 ∧
      checkDockerCompose st = .ok o4 ∧ checkNodeVersion st = .ok o5 ∧
      checkToolVersions st = .ok o6 ∧
      scanVersions st = .ok (o1.toList ++ (checkPackageJson st).toList ++ o3.toList ++
        o4.toList ++ o5.toList ++ o6.toList ++ checkGitHubWorkflows st) ∧
      (lookupFile st ".nvmrc" = none → o1 = none) ∧
      (∀ fd, lookupFile st ".nvmrc" = some fd →
        matchLeadingV (jsTrim fd.content) = none → o1 = none) ∧
      (lookupFile st "package.json" = none → checkPackageJson st = none) ∧
      (∀ fd, lookupFile st "package.json" = some fd → fd.readErr = false →
        jparse fd.content = none → checkPackageJson st = none) ∧
      (lookupFile st "Dockerfile" = none → o3 = none) ∧
      (∀ fd, lookupFile st "Dockerfile" = some fd →
        findFirstAt matchFromAt fd.content = none → o3 = none) ∧
      (lookupFile st "docker-compose.yml" = none → o4 = none) ∧
      (∀ fd, lookupFile st "docker-compose.yml" = some fd →
        findFirstAt matchImageAt fd.content = none → o4 = none) ∧
      (lookupFile st ".node-version" = none → o5 = none) ∧
      (∀ fd, lookupFile st ".node-version" = some fd →
        matchLeadingV (jsTrim fd.content) = none → o5 = none) ∧
      (lookupFile st ".tool-versions" = none → o6 = none) ∧
      (∀ fd, lookupFile st ".tool-versions" = some fd →
        findFirstAt matchNodejsAt fd.content = none → o6 = none) ∧
      (st.wfDirExists = false → checkGitHubWorkflows st = []) := by
  obtain ⟨o1, ho1, m1, p1⟩ := checkNvmrc_ok st r1
  obtain ⟨o3, ho3, m3, p3⟩ := checkDockerfile_ok st r3
  obtain ⟨o4, ho4, m4, p4⟩ := checkDockerCompose_ok st r4
  obtain ⟨o5, ho5, m5, p5⟩ := checkNodeVersion_ok st r5
  obtain ⟨o6, ho6, m6, p6⟩ := checkToolVersions_ok st r6
  obtain ⟨pj1, pj2⟩ := checkPackageJson_absent st
  refine ⟨o1, o3, o4, o5, o6, ho1, ho3, ho4, ho5, ho6,
    scanVersions_concat ho1 ho3 ho4 ho5 ho6,
    m1, p1, pj1, pj2, m3, p3, m4, p4, m5, p5, m6, p6, ?_⟩
  intro hwf
  unfold checkGitHubWorkflows
  rw [hwf]
  simp

/-- Witness for `c7_amended`: the project `stC3` (only a `package.json`),
whose hypotheses hold trivially and whose five unguarded formats are
absent. -/
theorem c7_amended_witness :
    (∀ fd, lookupFile stC3 ".nvmrc" = some fd → fd.readErr = false) ∧
    ∃ o1 o3 o4 o5 o6 : Option VersionInfo,
      checkNvmrc stC3 = .ok o1 ∧ checkDockerfile stC3 = .ok o3 ∧
      checkDockerCompose stC3 = .ok o4 ∧ checkNodeVersion stC3 = .ok o5 ∧
      checkToolVersions stC3 = .ok o6 ∧
      scanVersions stC3 = .ok (o1.toList ++ (checkPackageJson stC3).toList ++
        o3.toList ++ o4.toList ++ o5.toList ++ o6.toList ++
        checkGitHubWorkflows stC3) ∧
      (lookupFile stC3 ".nvmrc" = none → o1 = none) ∧
      (∀ fd, lookupFile stC3 ".nvmrc" = some fd →
        matchLeadingV (jsTrim fd.content) = none → o1 = none) ∧
      (lookupFile stC3 "package.json" = none → checkPackageJson stC3 = none) ∧
      (∀ fd, lookupFile stC3 "package.json" = some fd → fd.readErr = false →
        jparse fd.content = none → checkPackageJson stC3 = none) ∧
      (lookupFile stC3 "Dockerfile" = none → o3 = none) ∧
      (∀ fd, lookupFile stC3 "Dockerfile" = some fd →
        findFirstAt matchFromAt fd.content = none → o3 = none) ∧
      (lookupFile stC3 "docker-compose.yml" = none → o4 = none) ∧
      (∀ fd, lookupFile stC3 "docker-compose.yml" = some fd →
        findFirstAt matchImageAt fd.content = none → o4 = none) ∧
      (lookupFile stC3 ".node-version" = none → o5 = none) ∧
      (∀ fd, lookupFile stC3 ".node-version" = some fd →
        matchLeadingV (jsTrim fd.content) = none → o5 = none) ∧
      (lookupFile stC3 ".tool-versions" = none → o6 = none) ∧
      (∀ fd, lookupFile stC3 ".tool-versions" = some fd →
        findFirstAt matchNodejsAt fd.content = none → o6 = none) ∧
      (stC3.wfDirExists = false → checkGitHubWorkflows stC3 = []) := by
  have a1 : ∀ fd, lookupFile stC3 ".nvmrc" = some fd → fd.readErr = false := by
    intro fd hfd
    rw [show lookupFile stC3 ".nvmrc" = none from rfl] at hfd
    cases hfd
  have a3 : ∀ fd, lookupFile stC3 "Dockerfile" = some fd → fd.readErr = false := by
    intro fd hfd
    rw [show lookupFile stC3 "Dockerfile" = none from rfl] at hfd
    cases hfd
  have a4 : ∀ fd, lookupFile stC3 "docker-compose.yml" = some fd → fd.readErr = false := by
    intro fd hfd
    rw [show lookupFile stC3 "docker-compose.yml" = none from rfl] at hfd
    cases hfd
  have a5 : ∀ fd, lookupFile stC3 ".node-version" = some fd → fd.readErr = false := by
    intro fd hfd
    rw [show lookupFile stC3 ".node-version" = none from rfl] at hfd
    cases hfd
  have a6 : ∀ fd, lookupFile stC3 ".tool-versions" = some fd → fd.readErr = false := by
    intro fd hfd
    rw [show lookupFile stC3 ".tool-versions" = none from rfl] at hfd
    cases hfd
  exact ⟨a1, c7_amended stC3 a1 a3 a4 a5 a6⟩

/-! ## Shape of the records each extractor can produce -/

theorem checkNvmrc_shape {st : FSState} {v : VersionInfo}
    (h : checkNvmrc st = .ok (some v)) :
    ∃ fd, lookupFile st ".nvmrc" = some fd ∧ fd.readErr = false ∧
      ∃ ds, matchLeadingV (jsTrim fd.content) = some ds ∧
        v = ⟨".nvmrc", ".nvmrc", String.mk ds, String.mk (jsTrim fd.content),
          digitsToNat ds, "nvmrc"⟩ := by
  unfold checkNvmrc at h
  split at h
  · exact absurd h (by simp)
  · next fd hl =>
    split at h
    · exact absurd h (by simp)
    · next hre =>
      simp only [] at h
      split at h
      · exact absurd h (by simp)
      · next ds hm =>
        simp only [Except.ok.injEq, Option.some.injEq] at h
        exact ⟨fd, hl, by simpa using hre, ds, hm, h.symm⟩

theorem checkNodeVersion_shape {st : FSState} {v : VersionInfo}
    (h : checkNodeVersion st = .ok (some v)) :
    ∃ fd, lookupFile st ".node-version" = some fd ∧ fd.readErr = false ∧
      ∃ ds, matchLeadingV (jsTrim fd.content) = some ds ∧
        v = ⟨".node-version", ".node-version", String.mk ds, String.mk (jsTrim fd.content),
          digitsToNat ds, "node-version"⟩ := by
  unfold checkNodeVersion at h
  split at h
  · exact absurd h (by simp)
  · next fd hl =>
    split at h
    · exact absurd h (by simp)
    · next hre =>
      simp only [] at h
      split at h
      · exact absurd h (by simp)
      · next ds hm =>
        simp only [Except.ok.injEq, Option.some.injEq] at h
        exact ⟨fd, hl, by simpa using hre, ds, hm, h.symm⟩

theorem checkDockerfile_shape {st : FSState} {v : VersionInfo}
    (h : checkDockerfile st = .ok (some v)) :
    ∃ fd, lookupFile st "Dockerfile" = some fd ∧ fd.readErr = false ∧
      ∃ i len ds sfx, findFirstAt matchFromAt fd.content = some (i, len, ds, sfx) ∧
        v = ⟨"Dockerfile", "Dockerfile", String.mk ds, String.mk (ds ++ sfx),
          digitsToNat ds, "dockerfile"⟩ := by
  unfold checkDockerfile at h
  split at h
  · exact absurd h (by simp)
  · next fd hl =>
    split at h
    · exact absurd h (by simp)
    · next hre =>
      split at h
      · exact absurd h (by simp)
      · next i len ds sfx hm =>
        simp only [Except.ok.injEq, Option.some.injEq] at h
        exact ⟨fd, hl, by simpa using hre, i, len, ds, sfx, hm, h.symm⟩

theorem checkDockerCompose_shape {st : FSState} {v : VersionInfo}
    (h : checkDockerCompose st = .ok (some v)) :
    ∃ fd, lookupFile st "docker-compose.yml" = some fd ∧ fd.readErr = false ∧
      ∃ i len ds sfx, findFirstAt matchImageAt fd.content = some (i, len, ds, sfx) ∧
        v = ⟨"docker-compose.yml", "docker-compose.yml", String.mk ds,
          String.mk (ds ++ sfx), digitsToNat ds, "docker-compose"⟩ := by
  unfold checkDockerCompose at h
  split at h
  · exact absurd h (by simp)
  · next fd hl =>
    split at h
    · exact absurd h (by simp)
    · next hre =>
      split at h
      · exact absurd h (by simp)
      · next i len ds sfx hm =>
        simp only [Except.ok.injEq, Option.some.injEq] at h
        exact ⟨fd, hl, by simpa using hre, i, len, ds, sfx, hm, h.symm⟩

theorem checkToolVersions_shape {st : FSState} {v : VersionInfo}
    (h : checkToolVersions st = .ok (some v)) :
    ∃ fd, lookupFile st ".tool-versions" = some fd ∧ fd.readErr = false ∧
      ∃ i len ds, findFirstAt matchNodejsAt fd.content = some (i, len, ds) ∧
        v = ⟨".tool-versions", ".tool-versions", String.mk ds, String.mk ds,
          digitsToNat ds, "tool-versions"⟩ := by
  unfold checkToolVersions at h
  split at h
  · exact absurd h (by simp)
  · next fd hl =>
    split at h
    · exact absurd h (by simp)
    · next hre =>
      split at h
      · exact absurd h (by simp)
      · next i len ds hm =>
        simp only [Except.ok.injEq, Option.some.injEq] at h
        exact ⟨fd, hl, by simpa using hre, i, len, ds, hm, h.symm⟩

theorem checkPackageJson_shape {st : FSState} {v : VersionInfo}
    (h : checkPackageJson st = some v) :
    ∃ fd, lookupFile st "package.json" = some fd ∧ fd.readErr = false ∧
      ∃ jv s, jparse fd.content = some jv ∧
        (jget jv "engines".data).bind (fun e => jget e "node".data) = some (JVal.jstr s) ∧
        s.isEmpty = false ∧
        v = ⟨"package.json", "package.json", natStr (extractMajorVersion s),
          String.mk s, extractMajorVersion s, "package.json"⟩ := by
  unfold checkPackageJson at h
  split at h
  · exact absurd h (by simp)
  · next fd hl =>
    split at h
    · exact absurd h (by simp)
    · next hre =>
      split at h
      · exact absurd h (by simp)
      · next jv hp =>
        split at h
        · next s hs =>
          split at h
          · exact absurd h (by simp)
          · next hemp =>
            simp only [Option.some.injEq] at h
            exact ⟨fd, hl, by simpa using hre, jv, s, hp, hs,
              by simpa using hemp, h.symm⟩
        · exact absurd h (by simp)

theorem wfFileRecord_shape {path : String} {c : List Char} {v : VersionInfo}
    (h : wfFileRecord path c = some v) :
    (findFirstAt (matchKeyAt keyNodeVersion) c).isSome ∨
    (findFirstAt (matchKeyAt keyNodeEnv) c).isSome := by
  unfold wfFileRecord at h
  split at h
  · next heq => exact Or.inl (by simp [heq])
  · split at h
    · next heq => exact Or.inr (by simp [heq])
    · exact absurd h (by simp)

/-! ## C10: the workflow loop's single catch abandons the rest of the listing -/

theorem wfRecordsOf_cons (st : FSState) (n : String) (ns : List String) :
    wfRecordsOf st (n :: ns) =
      ((lookupFile st (wfPrefix ++ n)).bind
        (fun fd => wfFileRecord (wfPrefix ++ n) fd.content)).toList ++ wfRecordsOf st ns := by
  unfold wfRecordsOf
  cases h : (lookupFile st (wfPrefix ++ n)).bind
      (fun fd => wfFileRecord (wfPrefix ++ n) fd.content) with
  | none => simp [List.filterMap_cons, h]
  | some v => simp [List.filterMap_cons, h]

theorem wfLoop_abort {st : FSState} {bad : String} {post : List String}
    {acc : List VersionInfo}
    (hbad : lookupFile st (wfPrefix ++ bad) = none ∨
      ∃ fd, lookupFile st (wfPrefix ++ bad) = some fd ∧ fd.readErr = true) :
    wfLoop st (bad :: post) acc = acc := by
  rcases hbad with h | ⟨fd, h, hre⟩
  · simp [wfLoop, h]
  · simp [wfLoop, h, hre]

theorem wfLoop_pre {st : FSState} (rest : List String) :
    ∀ (pre : List String) (acc : List VersionInfo),
    (∀ n ∈ pre, ∃ fd, lookupFile st (wfPrefix ++ n) = some fd ∧ fd.readErr = false) →
    wfLoop st (pre ++ rest) acc = wfLoop st rest (acc ++ wfRecordsOf st pre) := by
  intro pre
  induction pre with
  | nil => intro acc _; simp [wfRecordsOf]
  | cons n pre ih =>
    intro acc hpre
    obtain ⟨fd, hl, hre⟩ := hpre n (by simp)
    have hrec : wfLoop st ((n :: pre) ++ rest) acc =
        wfLoop st (pre ++ rest) (acc ++ (wfFileRecord (wfPrefix ++ n) fd.content).toList) := by
      simp [wfLoop, hl, hre]
    rw [hrec, ih _ (fun m hm => hpre m (List.mem_cons_of_mem _ hm)),
      wfRecordsOf_cons, hl]
    simp [List.append_assoc]

theorem records_fileType_wf {st : FSState} {v : VersionInfo} {ns : List String}
    (h : v ∈ wfRecordsOf st ns) : v.fileType = "github-workflow" := by
  unfold wfRecordsOf at h
  obtain ⟨n, -, hf⟩ := List.mem_filterMap.mp h
  cases hl : lookupFile st (wfPrefix ++ n) with
  | none => rw [hl] at hf; simp at hf
  | some fd =>
    rw [hl] at hf
    simp only [Option.some_bind] at hf
    exact (wfFileRecord_inv hf).2.2

/-- Claim C10: if the directory listing (filtered to workflow extensions)
is `pre ++ bad :: post` where every file of `pre` is readable and reading
`bad` throws, then the extractor returns exactly the records of `pre` —
`post` is never processed — and, provided the five fixed-format reads do
not themselves throw, `scanVersions` still returns normally with exactly
those workflow records. -/
theorem c10_workflowLoopAbort (st : FSState) (pre post : List String) (bad : String)
    (hdir : st.wfDirExists = true) (hrd : st.readdirErr = false)
    (hsplit : st.wfNames.filter extOk = pre ++ bad :: post)
    (hpre : ∀ n ∈ pre, ∃ fd, lookupFile st (wfPrefix ++ n) = some fd ∧ fd.readErr = false)
    (hbad : lookupFile st (wfPrefix ++ bad) = none ∨
      ∃ fd, lookupFile st (wfPrefix ++ bad) = some fd ∧ fd.readErr = true)
    (r1 : ∀ fd, lookupFile st ".nvmrc" = some fd → fd.readErr = false)
    (r3 : ∀ fd, lookupFile st "Dockerfile" = some fd → fd.readErr = false)
    (r4 : ∀ fd, lookupFile st "docker-compose.yml" = some fd → fd.readErr = false)
    (r5 : ∀ fd, lookupFile st ".node-version" = some fd → fd.readErr = false)
    (r6 : ∀ fd, lookupFile st ".tool-versions" = some fd → fd.readErr = false) :
    checkGitHubWorkflows st = wfRecordsOf st pre ∧
    ∃ rs, scanVersions st = .ok rs ∧
      rs.filter (fun v => decide (v.fileType = "github-workflow")) = wfRecordsOf st pre := by
  have hwf : checkGitHubWorkflows st = wfRecordsOf st pre := by
    have hred : checkGitHubWorkflows st = wfLoop st (st.wfNames.filter extOk) [] := by
      unfold checkGitHubWorkflows
      rw [hdir, hrd]
      simp
    rw [hred, hsplit, wfLoop_pre _ _ _ hpre, wfLoop_abort hbad]
    simp
  refine ⟨hwf, ?_⟩
  obtain ⟨o1, ho1, -, -⟩ := checkNvmrc_ok st r1
  obtain ⟨o3, ho3, -, -⟩ := checkDockerfile_ok st r3
  obtain ⟨o4, ho4, -, -⟩ := checkDockerCompose_ok st r4
  obtain ⟨o5, ho5, -, -⟩ := checkNodeVersion_ok st r5
  obtain ⟨o6, ho6, -, -⟩ := checkToolVersions_ok st r6
  refine ⟨_, scanVersions_concat ho1 ho3 ho4 ho5 ho6, ?_⟩
  rw [List.filter_append, List.filter_append, List.filter_append,
    List.filter_append, List.filter_append, List.filter_append]
  have e1 : o1.toList.filter (fun v => decide (v.fileType = "github-workflow")) = [] := by
    cases h : o1 with
    | none => simp
    | some v =>
      obtain ⟨fd2, hl2, hre2, ds2, hm2, hv⟩ := checkNvmrc_shape (show checkNvmrc st = .ok (some v) by rw [← h]; exact ho1)
      simp [hv]
  have e2 : (checkPackageJson st).toList.filter
      (fun v => decide (v.fileType = "github-workflow")) = [] := by
    cases h : checkPackageJson st with
    | none => simp
    | some v =>
      obtain ⟨fd2, hl2, hre2, jv2, s2, hp2, hs2, he2, hv⟩ := checkPackageJson_shape h
      simp [hv]
  have e3 : o3.toList.filter (fun v => decide (v.fileType = "github-workflow")) = [] := by
    cases h : o3 with
    | none => simp
    | some v =>
      obtain ⟨fd2, hl2, hre2, i2, len2, ds2, sfx2, hm2, hv⟩ := checkDockerfile_shape (show checkDockerfile st = .ok (some v) by rw [← h]; exact ho3)
      simp [hv]
  have e4 : o4.toList.filter (fun v => decide (v.fileType = "github-workflow")) = [] := by
    cases h : o4 with
    | none => simp
    | some v =>
      obtain ⟨fd2, hl2, hre2, i2, len2, ds2, sfx2, hm2, hv⟩ := checkDockerCompose_shape (show checkDockerCompose st = .ok (some v) by rw [← h]; exact ho4)
      simp [hv]
  have e5 : o5.toList.filter (fun v => decide (v.fileType = "github-workflow")) = [] := by
    cases h : o5 with
    | none => simp
    | some v =>
      obtain ⟨fd2, hl2, hre2, ds2, hm2, hv⟩ := checkNodeVersion_shape (show checkNodeVersion st = .ok (some v) by rw [← h]; exact ho5)
      simp [hv]
  have e6 : o6.toList.filter (fun v => decide (v.fileType = "github-workflow")) = [] := by
    cases h : o6 with
    | none => simp
    | some v =>
      obtain ⟨fd2, hl2, hre2, i2, len2, ds2, hm2, hv⟩ := checkToolVersions_shape (show checkToolVersions st = .ok (some v) by rw [← h]; exact ho6)
      simp [hv]
  have ewf : (checkGitHubWorkflows st).filter
      (fun v => decide (v.fileType = "github-workflow")) = wfRecordsOf st pre := by
    rw [hwf]
    exact List.filter_eq_self.mpr (fun v hv => by simp [records_fileType_wf hv])
  rw [e1, e2, e3, e4, e5, e6, ewf]
  simp

/-- Witness for `c10_workflowLoopAbort` at `stC10`: `a.yml` readable and
matching, `b.yml` unreadable, `c.yml` matching but skipped. -/
theorem c10_witness :
    checkGitHubWorkflows stC10 = wfRecordsOf stC10 ["a.yml"] ∧
    ∃ rs, scanVersions stC10 = .ok rs ∧
      rs.filter (fun v => decide (v.fileType = "github-workflow")) =
        wfRecordsOf stC10 ["a.yml"] := by
  refine c10_workflowLoopAbort stC10 ["a.yml"] ["c.yml"] "b.yml" rfl rfl (by decide) ?_ ?_ ?_ ?_ ?_ ?_ ?_
  · intro n hn
    rw [show n = "a.yml" by simpa using hn]
    exact ⟨mkFD "node-version: 20", rfl, rfl⟩
  · exact Or.inr ⟨⟨"node-version: 21".data, true, false, false⟩, rfl, rfl⟩
  · intro fd hfd
    rw [show lookupFile stC10 ".nvmrc" = none from rfl] at hfd
    cases hfd
  · intro fd hfd
    rw [show lookupFile stC10 "Dockerfile" = none from rfl] at hfd
    cases hfd
  · intro fd hfd
    rw [show lookupFile stC10 "docker-compose.yml" = none from rfl] at hfd
    cases hfd
  · intro fd hfd
    rw [show lookupFile stC10 ".node-version" = none from rfl] at hfd
    cases hfd
  · intro fd hfd
    rw [show lookupFile stC10 ".tool-versions" = none from rfl] at hfd
    cases hfd

/-! ## C5: the majority inference of `generateReport` -/

theorem find?_congr_mem {α : Type} {p q : α → Bool} :
    ∀ {l : List α}, (∀ a ∈ l, p a = q a) → l.find? p = l.find? q := by
  intro l
  induction l with
  | nil => intro _; rfl
  | cons a t ih =>
    intro h
    by_cases hp : p a
    · rw [List.find?_cons_of_pos _ hp, List.find?_cons_of_pos _ (by rw [← h a (by simp)]; exact hp)]
    · rw [List.find?_cons_of_neg _ hp,
        List.find?_cons_of_neg _ (by rw [← h a (by simp)]; exact hp),
        ih (fun b hb => h b (List.mem_cons_of_mem _ hb))]

theorem exists_max_snd :
    ∀ (t : List (Nat × Nat)), t ≠ [] → ∃ q ∈ t, ∀ w ∈ t, w.2 ≤ q.2 := by
  intro t
  induction t with
  | nil => intro h; exact absurd rfl h
  | cons p t ih =>
    intro _
    cases t with
    | nil => exact ⟨p, by simp, by simp⟩
    | cons b u =>
      obtain ⟨q, hq, hmax⟩ := ih (by simp)
      by_cases hle : q.2 ≤ p.2
      · refine ⟨p, by simp, ?_⟩
        intro w hw
        rcases List.mem_cons.mp hw with hw | hw
        · simp [hw]
        · exact le_trans (hmax w hw) hle
      · refine ⟨q, List.mem_cons_of_mem _ hq, ?_⟩
        intro w hw
        rcases List.mem_cons.mp hw with hw | hw
        · subst hw; omega
        · exact hmax w hw

theorem pickMaxFold_spec :
    ∀ (l : List (Nat × Nat)) (mc : Nat) (r : Option Nat),
    (l.foldl (fun s p => if p.2 > s.1 then (p.2, some p.1) else s) (mc, r)).2 =
      (match l.find? (fun p => decide (mc < p.2) && l.all (fun q => q.2 ≤ p.2)) with
       | some p => some p.1
       | none => r) := by
  intro l
  induction l with
  | nil => intro mc r; rfl
  | cons p t ih =>
    intro mc r
    rw [List.foldl_cons]
    by_cases hgt : p.2 > mc
    · rw [if_pos hgt, ih]
      by_cases hall : t.all (fun q => q.2 ≤ p.2)
      · have hfind : t.find? (fun q => decide (p.2 < q.2) && t.all (fun w => w.2 ≤ q.2)) = none := by
          rw [List.find?_eq_none]
          intro q hq
          have hle : q.2 ≤ p.2 := by simpa using List.all_eq_true.mp hall q hq
          simp only [Bool.and_eq_true, decide_eq_true_eq, not_and]
          intro hcon
          exact absurd hcon (by omega)
        have hpred : (fun q => decide (mc < q.2) &&
            (p :: t).all (fun w => w.2 ≤ q.2)) p = true := by
          simp only [Bool.and_eq_true, decide_eq_true_eq, List.all_cons]
          refine ⟨hgt, by simp, hall⟩
        simp only [List.find?, hpred, hfind]
      · have hpred : (fun q => decide (mc < q.2) &&
            (p :: t).all (fun w => w.2 ≤ q.2)) p = false := by
          simp only [List.all_cons, Bool.and_eq_false_iff]
          right
          right
          simpa using hall
        simp only [List.find?, hpred]
        have hcongr : ∀ q ∈ t, (fun q => decide (p.2 < q.2) &&
              t.all (fun w => w.2 ≤ q.2)) q =
            (fun q => decide (mc < q.2) && (p :: t).all (fun w => w.2 ≤ q.2)) q := by
          intro q _
          simp only [List.all_cons]
          by_cases ht : t.all (fun w => w.2 ≤ q.2)
          · by_cases hpq : p.2 < q.2
            · simp [ht, hpq, show mc < q.2 by omega, show p.2 ≤ q.2 by omega]
            · have hne : ¬ p.2 ≤ q.2 := by
                intro hle
                have heq : p.2 = q.2 := by omega
                rw [← heq] at ht
                exact hall ht
              simp [hpq, hne]
          · simp [ht]
        rw [find?_congr_mem hcongr]
        have hex : ∃ q ∈ t, (fun q => decide (mc < q.2) &&
            (p :: t).all (fun w => w.2 ≤ q.2)) q = true := by
          have hne : t ≠ [] := by
            intro he
            rw [he] at hall
            exact hall (by simp)
          obtain ⟨q, hq, hmax⟩ := exists_max_snd t hne
          obtain ⟨w, hw, hwgt⟩ : ∃ w ∈ t, ¬ w.2 ≤ p.2 := by
            by_contra hcon
            push_neg at hcon
            exact hall (List.all_eq_true.mpr (fun x hx => by simpa using hcon x hx))
          have hq1 : p.2 < q.2 := by
            have := hmax w hw
            omega
          refine ⟨q, hq, ?_⟩
          simp only [Bool.and_eq_true, decide_eq_true_eq, List.all_cons]
          exact ⟨by omega, by simpa using le_of_lt hq1, List.all_eq_true.mpr
            (fun x hx => by simpa using hmax x hx)⟩
        obtain ⟨q, hq, hpq⟩ := hex
        have : (t.find? (fun q => decide (mc < q.2) &&
            (p :: t).all (fun w => w.2 ≤ q.2))).isSome := by
          rw [List.find?_isSome]
          exact ⟨q, hq, hpq⟩
        obtain ⟨q0, hq0⟩ := Option.isSome_iff_exists.mp this
        rw [hq0]
    · rw [if_neg hgt, ih]
      have hpred : (fun q => decide (mc < q.2) &&
          (p :: t).all (fun w => w.2 ≤ q.2)) p = false := by
        simp only [Bool.and_eq_false_iff]
        left
        simpa using hgt
      simp only [List.find?, hpred]
      have hcongr : ∀ q ∈ t, (fun q => decide (mc < q.2) &&
            t.all (fun w => w.2 ≤ q.2)) q =
          (fun q => decide (mc < q.2) && (p :: t).all (fun w => w.2 ≤ q.2)) q := by
        intro q _
        simp only [List.all_cons]
        by_cases hm : mc < q.2
        · simp [hm, show p.2 ≤ q.2 by omega]
        · simp [hm]
      rw [find?_congr_mem hcongr]

theorem vc_dedup_strong :
    ∀ (ms d p : List Nat), (∀ w, w ∈ d ↔ w ∈ p) →
    (ms.foldl (fun acc v => if acc.any (fun q => q.1 = v)
        then acc.map (fun q => if q.1 = v then (q.1, q.2 + 1) else q) else acc ++ [(v, 1)])
      (d.map (fun v => (v, p.count v))) =
      (ms.foldl (fun a v => if v ∈ a then a else a ++ [v]) d).map
        (fun v => (v, (p ++ ms).count v))) ∧
    (∀ w, w ∈ ms.foldl (fun a v => if v ∈ a then a else a ++ [v]) d ↔ w ∈ p ++ ms) := by
  intro ms
  induction ms with
  | nil =>
    intro d p hiff
    simp only [List.foldl_nil, List.append_nil]
    exact ⟨trivial, hiff⟩
  | cons m ms ih =>
    intro d p hiff
    simp only [List.foldl_cons]
    by_cases hm : m ∈ d
    · have hany : (d.map (fun v => (v, p.count v))).any (fun q => decide (q.1 = m)) = true := by
        rw [List.any_eq_true]
        exact ⟨(m, p.count m), List.mem_map_of_mem _ hm, by simp⟩
      have hstep : (d.map (fun v => (v, p.count v))).map
            (fun q => if q.1 = m then (q.1, q.2 + 1) else q) =
          d.map (fun v => (v, (p ++ [m]).count v)) := by
        rw [List.map_map]
        refine List.map_congr_left ?_
        intro v _
        by_cases hv : v = m
        · subst hv
          simp [List.count_append]
        · simp [Function.comp, hv, List.count_append,
            List.count_singleton', hv]
      have hiff2 : ∀ w, w ∈ d ↔ w ∈ p ++ [m] := by
        intro w
        rw [hiff w]
        constructor
        · intro hw; exact List.mem_append.mpr (Or.inl hw)
        · intro hw
          rcases List.mem_append.mp hw with hw | hw
          · exact hw
          · rw [List.mem_singleton.mp hw, ← hiff m]
            exact hm
      obtain ⟨ih1, ih2⟩ := ih d (p ++ [m]) hiff2
      rw [if_pos hany, if_pos hm, hstep, ih1]
      constructor
      · have : p ++ [m] ++ ms = p ++ m :: ms := by simp
        rw [this]
      · intro w
        rw [ih2 w]
        simp
    · have hany : (d.map (fun v => (v, p.count v))).any (fun q => decide (q.1 = m)) = false := by
        rw [Bool.eq_false_iff]
        intro hcon
        rw [List.any_eq_true] at hcon
        obtain ⟨q, hq, hq1⟩ := hcon
        obtain ⟨v, hv, rfl⟩ := List.mem_map.mp hq
        exact hm ((by simpa using hq1) ▸ hv)
      have hstep : (d.map (fun v => (v, p.count v))) ++ [(m, 1)] =
          (d ++ [m]).map (fun v => (v, (p ++ [m]).count v)) := by
        rw [List.map_append]
        congr 1
        · refine List.map_congr_left ?_
          intro v hv
          have hvm : ¬ v = m := fun he => hm (he ▸ hv)
          simp [List.count_append, List.count_singleton', hvm]
        · have hmp : ¬ m ∈ p := fun hc => hm ((hiff m).mpr hc)
          simp [List.count_append, List.count_eq_zero.mpr hmp]
      have hiff2 : ∀ w, w ∈ d ++ [m] ↔ w ∈ p ++ [m] := by
        intro w
        simp [hiff w]
      obtain ⟨ih1, ih2⟩ := ih (d ++ [m]) (p ++ [m]) hiff2
      rw [if_neg (by simp [hany]), if_neg hm, hstep, ih1]
      constructor
      · have : p ++ [m] ++ ms = p ++ m :: ms := by simp
        rw [this]
      · intro w
        rw [ih2 w]
        simp

theorem versionCounts_eq (ms : List Nat) :
    versionCounts ms = (dedupFS ms).map (fun v => (v, ms.count v)) := by
  have h := (vc_dedup_strong ms [] [] (by simp)).1
  simpa [versionCounts, dedupFS] using h

theorem dedupFS_mem (ms : List Nat) (w : Nat) : w ∈ dedupFS ms ↔ w ∈ ms := by
  have h := (vc_dedup_strong ms [] [] (by simp)).2
  simpa [dedupFS] using h w

theorem all_map_pair {α β : Type} (f : α → β) (p : β → Bool) :
    ∀ (l : List α), (l.map f).all p = l.all (fun x => p (f x)) := by
  intro l
  induction l with
  | nil => rfl
  | cons a t ih => simp [ih]

theorem find?_map_fst {f : Nat → Nat × Nat} {p : Nat × Nat → Bool} :
    ∀ (l : List Nat), (l.map f).find? p = ((l.find? (fun v => p (f v))).map f) := by
  intro l
  induction l with
  | nil => rfl
  | cons a t ih =>
    by_cases hp : p (f a)
    · simp [List.find?, hp]
    · simp only [List.map_cons, List.find?, hp, Bool.false_eq_true, if_false]
      simpa using ih

/-- The selection loop of `generateReport` computes exactly the spec's
majority rule: the first first-seen value of maximal frequency. -/
theorem pickMax_specMajority (ms : List Nat) (hne : ms ≠ []) (init : Option Nat) :
    pickMax (versionCounts ms) init = specMajority ms ∧ (specMajority ms).isSome := by
  have hdne : dedupFS ms ≠ [] := by
    intro hcon
    obtain ⟨a, ha⟩ := List.exists_mem_of_ne_nil ms hne
    have hmem := (dedupFS_mem ms a).mpr ha
    rw [hcon] at hmem
    simp at hmem
  have hcnt : ∀ v ∈ dedupFS ms, 1 ≤ ms.count v := by
    intro v hv
    exact List.count_pos_iff.mpr ((dedupFS_mem ms v).mp hv)
  unfold pickMax specMajority
  rw [versionCounts_eq, pickMaxFold_spec, find?_map_fst]
  have hcong : ∀ v ∈ dedupFS ms,
      (fun v => (decide ((0:Nat) < ms.count v) &&
        ((dedupFS ms).map (fun w => (w, ms.count w))).all
          (fun q => q.2 ≤ ms.count v))) v =
      (fun v => (dedupFS ms).all (fun w => decide (ms.count w ≤ ms.count v))) v := by
    intro v hv
    have h1 : decide ((0:Nat) < ms.count v) = true := by
      simp only [decide_eq_true_eq]
      exact hcnt v hv
    simp only [h1, Bool.true_and, all_map_pair]
  rw [find?_congr_mem hcong]
  have hex : ∃ v ∈ dedupFS ms,
      ((dedupFS ms).all (fun w => decide (ms.count w ≤ ms.count v))) = true := by
    obtain ⟨q, hq, hmax⟩ := exists_max_snd ((dedupFS ms).map (fun w => (w, ms.count w)))
      (by simpa using hdne)
    obtain ⟨v, hv, rfl⟩ := List.mem_map.mp hq
    refine ⟨v, hv, List.all_eq_true.mpr ?_⟩
    intro w hw
    simpa using hmax (w, ms.count w) (List.mem_map_of_mem _ hw)
  obtain ⟨v, hv, hvp⟩ := hex
  have hsome : ((dedupFS ms).find?
      (fun v => (dedupFS ms).all (fun w => decide (ms.count w ≤ ms.count v)))).isSome := by
    rw [List.find?_isSome]
    exact ⟨v, hv, hvp⟩
  obtain ⟨v0, hv0⟩ := Option.isSome_iff_exists.mp hsome
  rw [hv0]
  simp

/-- Claim C5: `generateReport` without an explicit target resolves the
target as the spec's majority rule (`specMajority`, stated from the spec's
words: strictly-highest frequency of `rawMajor`, first-seen in scan order
winning ties) when records exist, and leaves it absent on an empty record
sequence. -/
theorem c5_majorityInference (st : FSState) {rs : List VersionInfo}
    (hscan : scanVersions st = .ok rs) :
    ∃ rpt, generateReport st none = .ok rpt ∧
      (rs ≠ [] → rpt.targetVersion =
          specMajority (rs.map (fun v => v.majorVersion)) ∧
        (specMajority (rs.map (fun v => v.majorVersion))).isSome) ∧
      (rs = [] → rpt.targetVersion = none) := by
  unfold generateReport
  rw [hscan]
  refine ⟨_, rfl, ?_, ?_⟩
  · intro hne
    have hlen : rs.length > 0 := List.length_pos.mpr hne
    have hmne : rs.map (fun v => v.majorVersion) ≠ [] := by
      simpa using hne
    simp only []
    rw [if_pos ⟨by decide, hlen⟩]
    exact pickMax_specMajority _ hmne none
  · intro he
    subst he
    simp [optFalsy]

/-- Witness for `c5_majorityInference`: the spec's `[20, 20, 22]` example
(`stC5` scans to majors `[20, 20, 22]` and the resolved target is `20`). -/
theorem c5_majorityInference_witness :
    specMajority [20, 20, 22] = some 20 ∧
    ∃ rpt, generateReport stC5 none = .ok rpt ∧
      (([⟨".nvmrc", ".nvmrc", "20", "20", 20, "nvmrc"⟩,
         ⟨"Dockerfile", "Dockerfile", "20", "20", 20, "dockerfile"⟩,
         ⟨"docker-compose.yml", "docker-compose.yml", "22", "22", 22,
           "docker-compose"⟩] : List VersionInfo) ≠ [] →
        rpt.targetVersion = specMajority (([⟨".nvmrc", ".nvmrc", "20", "20", 20, "nvmrc"⟩,
         ⟨"Dockerfile", "Dockerfile", "20", "20", 20, "dockerfile"⟩,
         ⟨"docker-compose.yml", "docker-compose.yml", "22", "22", 22,
           "docker-compose"⟩] : List VersionInfo).map (fun v => v.majorVersion)) ∧
        (specMajority (([⟨".nvmrc", ".nvmrc", "20", "20", 20, "nvmrc"⟩,
         ⟨"Dockerfile", "Dockerfile", "20", "20", 20, "dockerfile"⟩,
         ⟨"docker-compose.yml", "docker-compose.yml", "22", "22", 22,
           "docker-compose"⟩] : List VersionInfo).map (fun v => v.majorVersion))).isSome) ∧
      (([⟨".nvmrc", ".nvmrc", "20", "20", 20, "nvmrc"⟩,
         ⟨"Dockerfile", "Dockerfile", "20", "20", 20, "dockerfile"⟩,
         ⟨"docker-compose.yml", "docker-compose.yml", "22", "22", 22,
           "docker-compose"⟩] : List VersionInfo) = [] → rpt.targetVersion = none) := by
  exact ⟨by decide, c5_majorityInference stC5 rfl⟩

/-! ## Frame and step lemmas for the updater -/

theorem find?_map_gen {α β : Type} (g : α → β) (p : β → Bool) :
    ∀ l : List α, (l.map g).find? p = (l.find? (fun a => p (g a))).map g := by
  intro l
  induction l with
  | nil => rfl
  | cons a t ih =>
    by_cases hp : p (g a)
    · simp [List.find?, hp]
    · simp only [List.map_cons, List.find?, hp, Bool.false_eq_true, if_false]
      simpa using ih

theorem lookupFile_setFileContent_ne {st : FSState} {p q : String} {c : List Char}
    (h : q ≠ p) : lookupFile (setFileContent st p c) q = lookupFile st q := by
  unfold lookupFile setFileContent
  simp only []
  rw [find?_map_gen]
  have hcong : ∀ e ∈ st.files,
      (fun a => decide ((if a.1 = p then (a.1, { a.2 with content := c }) else a).1 = q)) e =
      (fun e => decide (e.1 = q)) e := by
    intro e _
    by_cases he : e.1 = p <;> simp [he]
  rw [find?_congr_mem hcong]
  cases hf : st.files.find? (fun e => decide (e.1 = q)) with
  | none => rfl
  | some e =>
    have he : e.1 = q := by simpa using List.find?_some hf
    have : ¬ e.1 = p := by rw [he]; exact h
    simp [this]

theorem lookupFile_addBackup (st : FSState) (p : String) (c : List Char) (q : String) :
    lookupFile (addBackup st p c) q = lookupFile st q := rfl

theorem writeStep_frame {st : FSState} {path : String} {fd : FileData} {b : Bool}
    {nc : List Char} {q : String} (h : q ≠ path) :
    lookupFile (writeStep st path fd b nc).2 q = lookupFile st q := by
  unfold writeStep
  split_ifs <;>
    simp [lookupFile_setFileContent_ne h, lookupFile_addBackup]

theorem writeStep_backups_mono {st : FSState} {path : String} {fd : FileData}
    {b : Bool} {nc : List Char} {e : String × List Char} (h : e ∈ st.backups) :
    e ∈ (writeStep st path fd b nc).2.backups := by
  unfold writeStep
  split_ifs <;> simp [setFileContent, addBackup] <;> first | exact h | exact Or.inl h

theorem writeStep_fst (st1 st2 : FSState) (p1 p2 : String) (fd : FileData) (b : Bool)
    (nc1 nc2 : List Char) :
    (writeStep st1 p1 fd b nc1).1 = (writeStep st2 p2 fd b nc2).1 := by
  unfold writeStep
  split_ifs <;> rfl

theorem writeStep_backup_mem {st : FSState} {path : String} {fd : FileData}
    {nc : List Char} (h : (writeStep st path fd true nc).1.1 = true) :
    (backupPath path st.now, fd.content) ∈ (writeStep st path fd true nc).2.backups := by
  unfold writeStep at h ⊢
  by_cases hc : fd.copyErr = true
  · rw [if_pos rfl, if_pos hc] at h
    exact absurd h (by simp)
  · by_cases hw : fd.writeErr = true
    · rw [if_pos rfl] at h
      rw [if_neg hc, if_pos hw] at h
      exact absurd h (by simp)
    · rw [if_pos rfl, if_neg hc, if_neg hw]
      simp [setFileContent, addBackup]

theorem writeStep_backup_success {st : FSState} {path : String} {fd : FileData}
    {nc : List Char} (h : (writeStep st path fd true nc).1.1 = true) :
    (writeStep st path fd true nc).1.2.1 = true ∧
    (backupPath path st.now, fd.content) ∈ (writeStep st path fd true nc).2.backups := by
  refine ⟨?_, writeStep_backup_mem h⟩
  unfold writeStep at h ⊢
  by_cases hc : fd.copyErr = true
  · rw [if_pos rfl, if_pos hc] at h
    exact absurd h (by simp)
  · by_cases hw : fd.writeErr = true
    · rw [if_pos rfl, if_neg hc, if_pos hw] at h
      exact absurd h (by simp)
    · rw [if_pos rfl, if_neg hc, if_neg hw]

/-- Everything `updateNvmrc` does on a readable file: it returns `ok`, only
touches its own path, only appends backups, behaves inertly under dry run,
and records a backup with the pre-write content on a successful backed-up
write. -/
theorem updateNvmrc_run {st : FSState} {f : String} {T : Nat} {o : UpdateOptions}
    {fd : FileData} (hfd : lookupFile st f = some fd) (hre : fd.readErr = false) :
    ∃ r st', updateNvmrc st f T o = (.ok r, st') ∧
      (∀ q, q ≠ f → lookupFile st' q = lookupFile st q) ∧
      (∀ e ∈ st.backups, e ∈ st'.backups) ∧
      (o.dryRun = true → st' = st ∧ r.backedUp = false ∧ r.success = true ∧
        r.newVersion = natStr T) ∧
      (o.dryRun = false → o.backup = true → r.success = true → r.backedUp = true ∧
        (backupPath f st.now, fd.content) ∈ st'.backups) := by
  unfold updateNvmrc
  rw [hfd]
  simp only [hre, Bool.false_eq_true, if_false]
  by_cases hd : o.dryRun
  · rw [if_pos hd]
    exact ⟨_, st, rfl, fun q _ => rfl, fun e he => he,
      fun _ => ⟨rfl, rfl, rfl, rfl⟩, fun hcon => absurd hd (by simp [hcon])⟩
  · rw [if_neg hd]
    refine ⟨_, _, rfl, fun q hq => writeStep_frame hq,
      fun e he => writeStep_backups_mono he, fun hcon => absurd hcon (by simpa using hd), ?_⟩
    intro _ hb hs
    rw [hb] at hs ⊢
    exact writeStep_backup_success hs

theorem updateNvmrc_fst {st1 st2 : FSState} {f : String} {T : Nat} {o : UpdateOptions}
    (h : lookupFile st1 f = lookupFile st2 f) :
    (updateNvmrc st1 f T o).1 = (updateNvmrc st2 f T o).1 := by
  unfold updateNvmrc
  rw [h]
  cases lookupFile st2 f with
  | none => rfl
  | some fd =>
    by_cases hre : fd.readErr = true
    · simp [hre]
    · simp only [hre, Bool.false_eq_true, if_false]
      by_cases hd : o.dryRun
      · rw [if_pos hd, if_pos hd]
      · rw [if_neg hd, if_neg hd]
        simp only []
        rw [writeStep_fst st1 st2 f f fd o.backup (natDigits T ++ ['\n'])
          (natDigits T ++ ['\n'])]

theorem updateNodeVersionFile_run {st : FSState} {f : String} {T : Nat}
    {o : UpdateOptions} {fd : FileData} (hfd : lookupFile st f = some fd)
    (hre : fd.readErr = false) :
    ∃ r st', updateNodeVersionFile st f T o = (.ok r, st') ∧
      (∀ q, q ≠ f → lookupFile st' q = lookupFile st q) ∧
      (∀ e ∈ st.backups, e ∈ st'.backups) ∧
      (o.dryRun = true → st' = st ∧ r.backedUp = false ∧ r.success = true ∧
        r.newVersion = natStr T) ∧
      (o.dryRun = false → o.backup = true → r.success = true → r.backedUp = true ∧
        (backupPath f st.now, fd.content) ∈ st'.backups) := by
  unfold updateNodeVersionFile
  rw [hfd]
  simp only [hre, Bool.false_eq_true, if_false]
  by_cases hd : o.dryRun
  · rw [if_pos hd]
    exact ⟨_, st, rfl, fun q _ => rfl, fun e he => he,
      fun _ => ⟨rfl, rfl, rfl, rfl⟩, fun hcon => absurd hd (by simp [hcon])⟩
  · rw [if_neg hd]
    refine ⟨_, _, rfl, fun q hq => writeStep_frame hq,
      fun e he => writeStep_backups_mono he, fun hcon => absurd hcon (by simpa using hd), ?_⟩
    intro _ hb hs
    rw [hb] at hs ⊢
    exact writeStep_backup_success hs

theorem updateNodeVersionFile_fst {st1 st2 : FSState} {f : String} {T : Nat}
    {o : UpdateOptions} (h : lookupFile st1 f = lookupFile st2 f) :
    (updateNodeVersionFile st1 f T o).1 = (updateNodeVersionFile st2 f T o).1 := by
  unfold updateNodeVersionFile
  rw [h]
  cases lookupFile st2 f with
  | none => rfl
  | some fd =>
    by_cases hre : fd.readErr = true
    · simp [hre]
    · simp only [hre, Bool.false_eq_true, if_false]
      by_cases hd : o.dryRun
      · rw [if_pos hd, if_pos hd]
      · rw [if_neg hd, if_neg hd]
        simp only []
        rw [writeStep_fst st1 st2 f f fd o.backup (natDigits T ++ ['\n'])
          (natDigits T ++ ['\n'])]

theorem updateToolVersions_run {st : FSState} {f : String} {T : Nat}
    {o : UpdateOptions} {fd : FileData} (hfd : lookupFile st f = some fd)
    (hre : fd.readErr = false) :
    ∃ r st', updateToolVersions st f T o = (.ok r, st') ∧
      (∀ q, q ≠ f → lookupFile st' q = lookupFile st q) ∧
      (∀ e ∈ st.backups, e ∈ st'.backups) ∧
      (o.dryRun = true → st' = st ∧ r.backedUp = false) ∧
      (o.dryRun = false → o.backup = true → r.success = true → r.backedUp = true ∧
        (backupPath f st.now, fd.content) ∈ st'.backups) := by
  unfold updateToolVersions
  rw [hfd]
  simp only [hre, Bool.false_eq_true, if_false]
  cases hm : findFirstAt matchNodejsAt fd.content with
  | none =>
    exact ⟨_, st, rfl, fun q _ => rfl, fun e he => he, fun _ => ⟨rfl, rfl⟩,
      fun _ _ hs => absurd hs (by simp)⟩
  | some p =>
    obtain ⟨i, len, ds⟩ := p
    simp only []
    by_cases hd : o.dryRun
    · rw [if_pos hd]
      exact ⟨_, st, rfl, fun q _ => rfl, fun e he => he, fun _ => ⟨rfl, rfl⟩,
        fun hcon => absurd hd (by simp [hcon])⟩
    · rw [if_neg hd]
      refine ⟨_, _, rfl, fun q hq => writeStep_frame hq,
        fun e he => writeStep_backups_mono he,
        fun hcon => absurd hcon (by simpa using hd), ?_⟩
      intro _ hb hs
      rw [hb] at hs ⊢
      exact writeStep_backup_success hs

theorem updateToolVersions_fst {st1 st2 : FSState} {f : String} {T : Nat}
    {o : UpdateOptions} (h : lookupFile st1 f = lookupFile st2 f) :
    (updateToolVersions st1 f T o).1 = (updateToolVersions st2 f T o).1 := by
  unfold updateToolVersions
  rw [h]
  cases lookupFile st2 f with
  | none => rfl
  | some fd =>
    by_cases hre : fd.readErr = true
    · simp [hre]
    · simp only [hre, Bool.false_eq_true, if_false]
      cases hm : findFirstAt matchNodejsAt fd.content with
      | none => rfl
      | some p =>
        obtain ⟨i, len, ds⟩ := p
        simp only []
        by_cases hd : o.dryRun
        · rw [if_pos hd, if_pos hd]
        · rw [if_neg hd, if_neg hd]
          simp only []
          rw [writeStep_fst st1 st2 f f fd o.backup _ _]

theorem updateDockerfile_run {st : FSState} {f : String} {T : Nat}
    {o : UpdateOptions} {fd : FileData} (hfd : lookupFile st f = some fd)
    (hre : fd.readErr = false) :
    ∃ r st', updateDockerfile st f T o = (.ok r, st') ∧
      (∀ q, q ≠ f → lookupFile st' q = lookupFile st q) ∧
      (∀ e ∈ st.backups, e ∈ st'.backups) ∧
      (o.dryRun = true → st' = st ∧ r.backedUp = false) ∧
      (o.dryRun = false → o.backup = true → r.success = true → r.backedUp = true ∧
        (backupPath f st.now, fd.content) ∈ st'.backups) := by
  unfold updateDockerfile
  rw [hfd]
  simp only [hre, Bool.false_eq_true, if_false]
  cases hm : findFirstAt matchFromAt fd.content with
  | none =>
    exact ⟨_, st, rfl, fun q _ => rfl, fun e he => he, fun _ => ⟨rfl, rfl⟩,
      fun _ _ hs => absurd hs (by simp)⟩
  | some p =>
    obtain ⟨i, len, ds, sfx⟩ := p
    simp only []
    by_cases hd : o.dryRun
    · rw [if_pos hd]
      exact ⟨_, st, rfl, fun q _ => rfl, fun e he => he, fun _ => ⟨rfl, rfl⟩,
        fun hcon => absurd hd (by simp [hcon])⟩
    · rw [if_neg hd]
      refine ⟨_, _, rfl, fun q hq => writeStep_frame hq,
        fun e he => writeStep_backups_mono he,
        fun hcon => absurd hcon (by simpa using hd), ?_⟩
      intro _ hb hs
      rw [hb] at hs ⊢
      exact writeStep_backup_success hs

theorem updateDockerfile_fst {st1 st2 : FSState} {f : String} {T : Nat}
    {o : UpdateOptions} (h : lookupFile st1 f = lookupFile st2 f) :
    (updateDockerfile st1 f T o).1 = (updateDockerfile st2 f T o).1 := by
  unfold updateDockerfile
  rw [h]
  cases lookupFile st2 f with
  | none => rfl
  | some fd =>
    by_cases hre : fd.readErr = true
    · simp [hre]
    · simp only [hre, Bool.false_eq_true, if_false]
      cases hm : findFirstAt matchFromAt fd.content with
      | none => rfl
      | some p =>
        obtain ⟨i, len, ds, sfx⟩ := p
        simp only []
        by_cases hd : o.dryRun
        · rw [if_pos hd, if_pos hd]
        · rw [if_neg hd, if_neg hd]
          simp only []
          rw [writeStep_fst st1 st2 f f fd o.backup _ _]

theorem updateDockerCompose_run {st : FSState} {f : String} {T : Nat}
    {o : UpdateOptions} {fd : FileData} (hfd : lookupFile st f = some fd)
    (hre : fd.readErr = false) :
    ∃ r st', updateDockerCompose st f T o = (.ok r, st') ∧
      (∀ q, q ≠ f → lookupFile st' q = lookupFile st q) ∧
      (∀ e ∈ st.backups, e ∈ st'.backups) ∧
      (o.dryRun = true → st' = st ∧ r.backedUp = false) ∧
      (o.dryRun = false → o.backup = true → r.success = true → r.backedUp = true ∧
        (backupPath f st.now, fd.content) ∈ st'.backups) := by
  unfold updateDockerCompose
  rw [hfd]
  simp only [hre, Bool.false_eq_true, if_false]
  cases hm : findFirstAt matchImageAt fd.content with
  | none =>
    exact ⟨_, st, rfl, fun q _ => rfl, fun e he => he, fun _ => ⟨rfl, rfl⟩,
      fun _ _ hs => absurd hs (by simp)⟩
  | some p =>
    obtain ⟨i, len, ds, sfx⟩ := p
    simp only []
    by_cases hd : o.dryRun
    · rw [if_pos hd]
      exact ⟨_, st, rfl, fun q _ => rfl, fun e he => he, fun _ => ⟨rfl, rfl⟩,
        fun hcon => absurd hd (by simp [hcon])⟩
    · rw [if_neg hd]
      refine ⟨_, _, rfl, fun q hq => writeStep_frame hq,
        fun e he => writeStep_backups_mono he,
        fun hcon => absurd hcon (by simpa using hd), ?_⟩
      intro _ hb hs
      rw [hb] at hs ⊢
      exact writeStep_backup_success hs

theorem updateDockerCompose_fst {st1 st2 : FSState} {f : String} {T : Nat}
    {o : UpdateOptions} (h : lookupFile st1 f = lookupFile st2 f) :
    (updateDockerCompose st1 f T o).1 = (updateDockerCompose st2 f T o).1 := by
  unfold updateDockerCompose
  rw [h]
  cases lookupFile st2 f with
  | none => rfl
  | some fd =>
    by_cases hre : fd.readErr = true
    · simp [hre]
    · simp only [hre, Bool.false_eq_true, if_false]
      cases hm : findFirstAt matchImageAt fd.content with
      | none => rfl
      | some p =>
        obtain ⟨i, len, ds, sfx⟩ := p
        simp only []
        by_cases hd : o.dryRun
        · rw [if_pos hd, if_pos hd]
        · rw [if_neg hd, if_neg hd]
          simp only []
          rw [writeStep_fst st1 st2 f f fd o.backup _ _]

theorem updatePackageJson_run (st : FSState) (f : String) (T : Nat) (o : UpdateOptions) :
    ∃ r st', updatePackageJson st f T o = (.ok r, st') ∧
      (∀ q, q ≠ f → lookupFile st' q = lookupFile st q) ∧
      (∀ e ∈ st.backups, e ∈ st'.backups) ∧
      (o.dryRun = true → st' = st ∧ r.backedUp = false) ∧
      (o.dryRun = false → o.backup = true → r.success = true → r.backedUp = true ∧
        ∃ fd', lookupFile st f = some fd' ∧
          (backupPath f st.now, fd'.content) ∈ st'.backups) := by
  unfold updatePackageJson
  cases hl : lookupFile st f with
  | none =>
    exact ⟨_, st, rfl, fun q _ => rfl, fun e he => he, fun _ => ⟨rfl, rfl⟩,
      fun _ _ hs => absurd hs (by simp)⟩
  | some fd =>
    simp only []
    by_cases hre : fd.readErr = true
    · rw [if_pos hre]
      exact ⟨_, st, rfl, fun q _ => rfl, fun e he => he, fun _ => ⟨rfl, rfl⟩,
        fun _ _ hs => absurd hs (by simp)⟩
    · rw [if_neg hre]
      cases hp : jparse fd.content with
      | none =>
        exact ⟨_, st, rfl, fun q _ => rfl, fun e he => he, fun _ => ⟨rfl, rfl⟩,
          fun _ _ hs => absurd hs (by simp)⟩
      | some v =>
        simp only []
        by_cases hd : o.dryRun
        · rw [if_pos hd]
          exact ⟨_, st, rfl, fun q _ => rfl, fun e he => he,
            fun _ => ⟨rfl, rfl⟩, fun hcon => absurd hd (by simp [hcon])⟩
        · rw [if_neg hd]
          cases v with
          | jobj fs =>
            simp only []
            cases hs : setEnginesNode fs (">=" ++ natStr T ++ ".0.0").data with
            | none =>
              exact ⟨_, st, rfl, fun q _ => rfl, fun e he => he,
                fun hcon => absurd hcon (by simpa using hd),
                fun _ _ hsucc => absurd hsucc (by simp)⟩
            | some fs2 =>
              simp only []
              by_cases hw : (writeStep st f fd o.backup
                  (jstringify 0 (JVal.jobj fs2) ++ ['\n'])).1.1 = true
              · rw [if_pos hw]
                refine ⟨_, _, rfl, fun q hq => writeStep_frame hq,
                  fun e he => writeStep_backups_mono he,
                  fun hcon => absurd hcon (by simpa using hd), ?_⟩
                intro _ hb _
                rw [hb] at hw ⊢
                obtain ⟨h1, h2⟩ := writeStep_backup_success hw
                exact ⟨h1, fd, rfl, h2⟩
              · rw [if_neg hw]
                exact ⟨_, _, rfl, fun q hq => writeStep_frame hq,
                  fun e he => writeStep_backups_mono he,
                  fun hcon => absurd hcon (by simpa using hd),
                  fun _ _ hsucc => absurd hsucc (by simp)⟩
          | jnull =>
            exact ⟨_, st, rfl, fun q _ => rfl, fun e he => he,
              fun hcon => absurd hcon (by simpa using hd),
              fun _ _ hsucc => absurd hsucc (by simp)⟩
          | jbool b =>
            exact ⟨_, st, rfl, fun q _ => rfl, fun e he => he,
              fun hcon => absurd hcon (by simpa using hd),
              fun _ _ hsucc => absurd hsucc (by simp)⟩
          | jnum raw =>
            exact ⟨_, st, rfl, fun q _ => rfl, fun e he => he,
              fun hcon => absurd hcon (by simpa using hd),
              fun _ _ hsucc => absurd hsucc (by simp)⟩
          | jstr s =>
            exact ⟨_, st, rfl, fun q _ => rfl, fun e he => he,
              fun hcon => absurd hcon (by simpa using hd),
              fun _ _ hsucc => absurd hsucc (by simp)⟩
          | jarr xs =>
            exact ⟨_, st, rfl, fun q _ => rfl, fun e he => he,
              fun hcon => absurd hcon (by simpa using hd),
              fun _ _ hsucc => absurd hsucc (by simp)⟩

theorem updatePackageJson_fst {st1 st2 : FSState} {f : String} {T : Nat}
    {o : UpdateOptions} (h : lookupFile st1 f = lookupFile st2 f) :
    (updatePackageJson st1 f T o).1 = (updatePackageJson st2 f T o).1 := by
  unfold updatePackageJson
  rw [h]
  cases lookupFile st2 f with
  | none => rfl
  | some fd =>
    simp only []
    by_cases hre : fd.readErr = true
    · rw [if_pos hre, if_pos hre]
    · rw [if_neg hre, if_neg hre]
      cases hp : jparse fd.content with
      | none => rfl
      | some v =>
        simp only []
        by_cases hd : o.dryRun
        · rw [if_pos hd, if_pos hd]
        · rw [if_neg hd, if_neg hd]
          cases v with
          | jobj fs =>
            simp only []
            cases hs : setEnginesNode fs (">=" ++ natStr T ++ ".0.0").data with
            | none => rfl
            | some fs2 =>
              simp only []
              rw [writeStep_fst st1 st2 f f fd o.backup
                (jstringify 0 (JVal.jobj fs2) ++ ['\n'])
                (jstringify 0 (JVal.jobj fs2) ++ ['\n'])]
              split <;> rfl
          | jnull => rfl
          | jbool b => rfl
          | jnum raw => rfl
          | jstr s => rfl
          | jarr xs => rfl

theorem updateGitHubWorkflow_run {st : FSState} {f : String} {T : Nat}
    {o : UpdateOptions} {fd : FileData} (hfd : lookupFile st f = some fd)
    (hre : fd.readErr = false) :
    ∃ r st', updateGitHubWorkflow st f T o = (.ok r, st') ∧
      (∀ q, q ≠ f → lookupFile st' q = lookupFile st q) ∧
      (∀ e ∈ st.backups, e ∈ st'.backups) ∧
      (o.dryRun = true → st' = st ∧ r.backedUp = false) ∧
      (o.dryRun = false → o.backup = true → r.success = true → r.backedUp = true ∧
        (backupPath f st.now, fd.content) ∈ st'.backups) := by
  unfold updateGitHubWorkflow
  rw [hfd]
  simp only [hre, Bool.false_eq_true, if_false]
  cases hm1 : findFirstAt (matchKeyAt keyNodeVersion) fd.content with
  | none =>
    simp only []
    cases hm2 : findFirstAt (matchKeyAt keyNodeEnv) fd.content with
    | none =>
      rw [if_pos (by simp)]
      exact ⟨_, st, rfl, fun q _ => rfl, fun e he => he, fun _ => ⟨rfl, rfl⟩,
        fun _ _ hs => absurd hs (by simp)⟩
    | some p2 =>
      obtain ⟨i2, l2, ds2⟩ := p2
      simp only []
      rw [if_neg (by simp)]
      by_cases hd : o.dryRun
      · rw [if_pos hd]
        exact ⟨_, st, rfl, fun q _ => rfl, fun e he => he, fun _ => ⟨rfl, rfl⟩,
          fun hcon => absurd hd (by simp [hcon])⟩
      · rw [if_neg hd]
        refine ⟨_, _, rfl, fun q hq => writeStep_frame hq,
          fun e he => writeStep_backups_mono he,
          fun hcon => absurd hcon (by simpa using hd), ?_⟩
        intro _ hb hs
        rw [hb] at hs ⊢
        exact writeStep_backup_success hs
  | some p1 =>
    obtain ⟨i1, l1, ds1⟩ := p1
    simp only []
    cases hm2 : findFirstAt (matchKeyAt keyNodeEnv)
        (replaceAllKey keyNodeVersion
          ("node-version: '".data ++ natDigits T ++ ['\'']) fd.content) with
    | none =>
      simp only []
      rw [if_neg (by simp)]
      by_cases hd : o.dryRun
      · rw [if_pos hd]
        exact ⟨_, st, rfl, fun q _ => rfl, fun e he => he, fun _ => ⟨rfl, rfl⟩,
          fun hcon => absurd hd (by simp [hcon])⟩
      · rw [if_neg hd]
        refine ⟨_, _, rfl, fun q hq => writeStep_frame hq,
          fun e he => writeStep_backups_mono he,
          fun hcon => absurd hcon (by simpa using hd), ?_⟩
        intro _ hb hs
        rw [hb] at hs ⊢
        exact writeStep_backup_success hs
    | some p2 =>
      obtain ⟨i2, l2, ds2⟩ := p2
      simp only []
      rw [if_neg (by simp)]
      by_cases hd : o.dryRun
      · rw [if_pos hd]
        exact ⟨_, st, rfl, fun q _ => rfl, fun e he => he, fun _ => ⟨rfl, rfl⟩,
          fun hcon => absurd hd (by simp [hcon])⟩
      · rw [if_neg hd]
        refine ⟨_, _, rfl, fun q hq => writeStep_frame hq,
          fun e he => writeStep_backups_mono he,
          fun hcon => absurd hcon (by simpa using hd), ?_⟩
        intro _ hb hs
        rw [hb] at hs ⊢
        exact writeStep_backup_success hs

theorem updateGitHubWorkflow_fst {st1 st2 : FSState} {f : String} {T : Nat}
    {o : UpdateOptions} (h : lookupFile st1 f = lookupFile st2 f) :
    (updateGitHubWorkflow st1 f T o).1 = (updateGitHubWorkflow st2 f T o).1 := by
  unfold updateGitHubWorkflow
  rw [h]
  cases lookupFile st2 f with
  | none => rfl
  | some fd =>
    by_cases hre : fd.readErr = true
    · simp [hre]
    · simp only [hre, Bool.false_eq_true, if_false]
      cases hm1 : findFirstAt (matchKeyAt keyNodeVersion) fd.content with
      | none =>
        simp only []
        cases hm2 : findFirstAt (matchKeyAt keyNodeEnv) fd.content with
        | none => rw [if_pos (by simp), if_pos (by simp)]
        | some p2 =>
          obtain ⟨i2, l2, ds2⟩ := p2
          simp only []
          have hc : ¬ ¬ ((Option.isSome (none : Option (Nat × Nat × List Char)) ||
              Option.isSome (some (i2, l2, ds2))) = true) := by simp
          rw [if_neg hc, if_neg hc]
          by_cases hd : o.dryRun
          · rw [if_pos hd, if_pos hd]
          · rw [if_neg hd, if_neg hd]
            simp only []
            rw [writeStep_fst st1 st2 f f fd o.backup _ _]
      | some p1 =>
        obtain ⟨i1, l1, ds1⟩ := p1
        simp only []
        cases hm2 : findFirstAt (matchKeyAt keyNodeEnv)
            (replaceAllKey keyNodeVersion
              ("node-version: '".data ++ natDigits T ++ ['\'']) fd.content) with
        | none =>
          simp only []
          have hc : ¬ ¬ ((Option.isSome (some (i1, l1, ds1)) ||
              Option.isSome (none : Option (Nat × Nat × List Char))) = true) := by simp
          rw [if_neg hc, if_neg hc]
          by_cases hd : o.dryRun
          · rw [if_pos hd, if_pos hd]
          · rw [if_neg hd, if_neg hd]
            simp only []
            rw [writeStep_fst st1 st2 f f fd o.backup _ _]
        | some p2 =>
          obtain ⟨i2, l2, ds2⟩ := p2
          simp only []
          have hc : ¬ ¬ ((Option.isSome (some (i1, l1, ds1)) ||
              Option.isSome (some (i2, l2, ds2))) = true) := by simp
          rw [if_neg hc, if_neg hc]
          by_cases hd : o.dryRun
          · rw [if_pos hd, if_pos hd]
          · rw [if_neg hd, if_neg hd]
            simp only []
            rw [writeStep_fst st1 st2 f f fd o.backup _ _]

theorem updateVersionFile_run {st : FSState} {v : VersionInfo} {T : Nat}
    {o : UpdateOptions} {fd : FileData} (hfd : lookupFile st v.file = some fd)
    (hre : fd.readErr = false) :
    ∃ r st', updateVersionFile st v T o = (.ok r, st') ∧
      (∀ q, q ≠ v.file → lookupFile st' q = lookupFile st q) ∧
      (∀ e ∈ st.backups, e ∈ st'.backups) ∧
      (o.dryRun = true → st' = st ∧ r.backedUp = false) ∧
      (o.dryRun = false → o.backup = true → r.success = true → r.backedUp = true ∧
        (backupPath v.file st.now, fd.content) ∈ st'.backups) := by
  unfold updateVersionFile
  by_cases h1 : v.fileType = "nvmrc"
  · rw [if_pos h1]
    obtain ⟨r, st', heq, hfr, hmo, hdr, hbk⟩ := updateNvmrc_run hfd hre
    exact ⟨r, st', heq, hfr, hmo, fun hd => ⟨(hdr hd).1, (hdr hd).2.1⟩, hbk⟩
  · rw [if_neg h1]
    by_cases h2 : v.fileType = "package.json"
    · rw [if_pos h2]
      obtain ⟨r, st', heq, hfr, hmo, hdr, hbk⟩ := updatePackageJson_run st v.file T o
      refine ⟨r, st', heq, hfr, hmo, hdr, fun hd hb hs => ?_⟩
      obtain ⟨hbu, fd', hl', hm'⟩ := hbk hd hb hs
      rw [hfd] at hl'
      injection hl' with hfd'
      subst hfd'
      exact ⟨hbu, hm'⟩
    · rw [if_neg h2]
      by_cases h3 : v.fileType = "dockerfile"
      · rw [if_pos h3]
        exact updateDockerfile_run hfd hre
      · rw [if_neg h3]
        by_cases h4 : v.fileType = "docker-compose"
        · rw [if_pos h4]
          exact updateDockerCompose_run hfd hre
        · rw [if_neg h4]
          by_cases h5 : v.fileType = "github-workflow"
          · rw [if_pos h5]
            exact updateGitHubWorkflow_run hfd hre
          · rw [if_neg h5]
            by_cases h6 : v.fileType = "node-version"
            · rw [if_pos h6]
              obtain ⟨r, st', heq, hfr, hmo, hdr, hbk⟩ := updateNodeVersionFile_run hfd hre
              exact ⟨r, st', heq, hfr, hmo, fun hd => ⟨(hdr hd).1, (hdr hd).2.1⟩, hbk⟩
            · rw [if_neg h6]
              by_cases h7 : v.fileType = "tool-versions"
              · rw [if_pos h7]
                exact updateToolVersions_run hfd hre
              · rw [if_neg h7]
                exact ⟨_, st, rfl, fun q _ => rfl, fun e he => he,
                  fun _ => ⟨rfl, rfl⟩, fun _ _ hs => absurd hs (by simp)⟩

theorem updateVersionFile_fst {st1 st2 : FSState} {v : VersionInfo} {T : Nat}
    {o : UpdateOptions} (h : lookupFile st1 v.file = lookupFile st2 v.file) :
    (updateVersionFile st1 v T o).1 = (updateVersionFile st2 v T o).1 := by
  unfold updateVersionFile
  by_cases h1 : v.fileType = "nvmrc"
  · rw [if_pos h1, if_pos h1]; exact updateNvmrc_fst h
  · rw [if_neg h1, if_neg h1]
    by_cases h2 : v.fileType = "package.json"
    · rw [if_pos h2, if_pos h2]; exact updatePackageJson_fst h
    · rw [if_neg h2, if_neg h2]
      by_cases h3 : v.fileType = "dockerfile"
      · rw [if_pos h3, if_pos h3]; exact updateDockerfile_fst h
      · rw [if_neg h3, if_neg h3]
        by_cases h4 : v.fileType = "docker-compose"
        · rw [if_pos h4, if_pos h4]; exact updateDockerCompose_fst h
        · rw [if_neg h4, if_neg h4]
          by_cases h5 : v.fileType = "github-workflow"
          · rw [if_pos h5, if_pos h5]; exact updateGitHubWorkflow_fst h
          · rw [if_neg h5, if_neg h5]
            by_cases h6 : v.fileType = "node-version"
            · rw [if_pos h6, if_pos h6]; exact updateNodeVersionFile_fst h
            · rw [if_neg h6, if_neg h6]
              by_cases h7 : v.fileType = "tool-versions"
              · rw [if_pos h7, if_pos h7]; exact updateToolVersions_fst h
              · rw [if_neg h7, if_neg h7]

theorem processOne_run {st : FSState} {T : Nat} {o : UpdateOptions}
    {v : VersionInfo} {fd : FileData} (hfd : lookupFile st v.file = some fd)
    (hre : fd.readErr = false) :
    ∃ r st', processOne st T o v = (.ok r, st') ∧
      (∀ q, q ≠ v.file → lookupFile st' q = lookupFile st q) ∧
      (∀ e ∈ st.backups, e ∈ st'.backups) ∧
      (o.dryRun = true → st' = st ∧ r.backedUp = false) ∧
      (o.dryRun = false → o.backup = true → v.majorVersion ≠ T → r.success = true →
        r.backedUp = true ∧ (backupPath v.file st.now, fd.content) ∈ st'.backups) := by
  unfold processOne
  by_cases hmaj : v.majorVersion = T
  · rw [if_pos hmaj]
    exact ⟨_, st, rfl, fun q _ => rfl, fun e he => he, fun _ => ⟨rfl, rfl⟩,
      fun _ _ hne _ => absurd hmaj hne⟩
  · rw [if_neg hmaj]
    obtain ⟨r, st', heq, hfr, hmo, hdr, hbk⟩ := updateVersionFile_run hfd hre
    exact ⟨r, st', heq, hfr, hmo, hdr, fun hd hb _ hs => hbk hd hb hs⟩

theorem processOne_fst {st1 st2 : FSState} {T : Nat} {o : UpdateOptions}
    {v : VersionInfo} (h : lookupFile st1 v.file = lookupFile st2 v.file) :
    (processOne st1 T o v).1 = (processOne st2 T o v).1 := by
  unfold processOne
  by_cases hmaj : v.majorVersion = T
  · rw [if_pos hmaj, if_pos hmaj]
  · rw [if_neg hmaj, if_neg hmaj]
    exact updateVersionFile_fst h

theorem updateLoop_spec (T : Nat) (o : UpdateOptions) (vs : List VersionInfo) :
    ∀ (st : FSState),
    (∀ v ∈ vs, ∃ fd, lookupFile st v.file = some fd ∧ fd.readErr = false) →
    (vs.map (fun v => v.file)).Nodup →
    ∃ rs st', updateLoop T o vs st = (.ok rs, st') ∧
      rs.length = vs.length ∧
      (∀ e ∈ st.backups, e ∈ st'.backups) ∧
      (∀ q, (∀ v ∈ vs, q ≠ v.file) → lookupFile st' q = lookupFile st q) ∧
      (∀ i (h1 : i < vs.length) (h2 : i < rs.length),
        (processOne st T o (vs.get ⟨i, h1⟩)).1 = .ok (rs.get ⟨i, h2⟩)) ∧
      (∀ i (h1 : i < vs.length) (h2 : i < rs.length),
        o.dryRun = false → o.backup = true → (vs.get ⟨i, h1⟩).majorVersion ≠ T →
        (rs.get ⟨i, h2⟩).success = true →
        (rs.get ⟨i, h2⟩).backedUp = true ∧
        ∃ ts fd, lookupFile st (vs.get ⟨i, h1⟩).file = some fd ∧
          (backupPath (vs.get ⟨i, h1⟩).file ts, fd.content) ∈ st'.backups) := by
  induction vs with
  | nil =>
    intro st _ _
    exact ⟨[], st, rfl, rfl, fun e he => he, fun q _ => rfl,
      fun i h1 _ => absurd h1 (by simp), fun i h1 _ => absurd h1 (by simp)⟩
  | cons v vs ih =>
    intro st hgood hnodup
    obtain ⟨fd, hfd, hre⟩ := hgood v (List.mem_cons_self v vs)
    obtain ⟨r, st1, heq, hfr1, hmo1, hdr1, hbk1⟩ := processOne_run hfd hre
    have hne : ∀ v' ∈ vs, v'.file ≠ v.file := by
      intro v' hv' hcon
      have hm : v.file ∈ vs.map (fun v => v.file) := by
        rw [← hcon]; exact List.mem_map_of_mem _ hv'
      exact (List.nodup_cons.mp hnodup).1 hm
    have hgood1 : ∀ v' ∈ vs, ∃ fd', lookupFile st1 v'.file = some fd' ∧
        fd'.readErr = false := by
      intro v' hv'
      obtain ⟨fd', hl', hre'⟩ := hgood v' (List.mem_cons_of_mem _ hv')
      exact ⟨fd', (hfr1 v'.file (hne v' hv')).trans hl', hre'⟩
    obtain ⟨rs, st', hloop, hlen, hmo2, hfr2, hpt, hbk2⟩ :=
      ih st1 hgood1 (List.nodup_cons.mp hnodup).2
    refine ⟨r :: rs, st', ?_, by simp [hlen], fun e he => hmo2 e (hmo1 e he), ?_, ?_, ?_⟩
    · show updateLoop T o (v :: vs) st = (.ok (r :: rs), st')
      simp only [updateLoop]
      rw [heq]
      simp only []
      rw [hloop]
    · intro q hq
      exact (hfr2 q (fun v' hv' => hq v' (List.mem_cons_of_mem _ hv'))).trans
        (hfr1 q (hq v (List.mem_cons_self v vs)))
    · intro i h1 h2
      cases i with
      | zero =>
        show (processOne st T o v).1 = .ok r
        rw [heq]
      | succ j =>
        have h1' : j < vs.length := by simpa using h1
        have h2' : j < rs.length := by simpa using h2
        have hag : lookupFile st (vs.get ⟨j, h1'⟩).file =
            lookupFile st1 (vs.get ⟨j, h1'⟩).file :=
          (hfr1 _ (hne _ (vs.get_mem j h1'))).symm
        show (processOne st T o (vs.get ⟨j, h1'⟩)).1 = .ok (rs.get ⟨j, h2'⟩)
        exact (processOne_fst hag).trans (hpt j h1' h2')
    · intro i h1 h2 hd hb hmaj hs
      cases i with
      | zero =>
        obtain ⟨hbU, hmem⟩ := hbk1 hd hb hmaj hs
        exact ⟨hbU, st.now, fd, hfd, hmo2 _ hmem⟩
      | succ j =>
        have h1' : j < vs.length := by simpa using h1
        have h2' : j < rs.length := by simpa using h2
        obtain ⟨hbU, ts, fd', hl', hmem⟩ := hbk2 j h1' h2' hd hb hmaj hs
        exact ⟨hbU, ts, fd',
          (hfr1 _ (hne _ (vs.get_mem j h1'))).symm.trans hl', hmem⟩

theorem updateLoop_pointwise (T : Nat) (o : UpdateOptions) (vs : List VersionInfo)
    (st : FSState) (h : ∀ v ∈ vs, ∃ r, processOne st T o v = (.ok r, st)) :
    ∃ rs, updateLoop T o vs st = (.ok rs, st) ∧ rs.length = vs.length ∧
      ∀ i (h1 : i < vs.length) (h2 : i < rs.length),
        processOne st T o (vs.get ⟨i, h1⟩) = (.ok (rs.get ⟨i, h2⟩), st) := by
  induction vs with
  | nil => exact ⟨[], rfl, rfl, fun i h1 _ => absurd h1 (by simp)⟩
  | cons v vs ih =>
    obtain ⟨r, hr⟩ := h v (List.mem_cons_self v vs)
    obtain ⟨rs, hloop, hlen, hpt⟩ := ih (fun v' hv' => h v' (List.mem_cons_of_mem _ hv'))
    refine ⟨r :: rs, ?_, by simp [hlen], ?_⟩
    · simp only [updateLoop]
      rw [hr]
      simp only []
      rw [hloop]
    · intro i h1 h2
      cases i with
      | zero => exact hr
      | succ j => exact hpt j (by simpa using h1) (by simpa using h2)

theorem updateNvmrc_dry {st : FSState} {f : String} {T : Nat} {o : UpdateOptions}
    {fd : FileData} (hfd : lookupFile st f = some fd) (hre : fd.readErr = false)
    (hd : o.dryRun = true) :
    updateNvmrc st f T o =
      (.ok ⟨f, f, String.mk (jsTrim fd.content), natStr T, true, none, false⟩, st) := by
  unfold updateNvmrc
  rw [hfd]
  simp only [hre, Bool.false_eq_true, if_false]
  rw [if_pos hd]

theorem updateNodeVersionFile_dry {st : FSState} {f : String} {T : Nat}
    {o : UpdateOptions} {fd : FileData} (hfd : lookupFile st f = some fd)
    (hre : fd.readErr = false) (hd : o.dryRun = true) :
    updateNodeVersionFile st f T o =
      (.ok ⟨f, f, String.mk (jsTrim fd.content), natStr T, true, none, false⟩, st) := by
  unfold updateNodeVersionFile
  rw [hfd]
  simp only [hre, Bool.false_eq_true, if_false]
  rw [if_pos hd]

theorem updateToolVersions_dry {st : FSState} {f : String} {T : Nat}
    {o : UpdateOptions} {fd : FileData} {i len : Nat} {ds : List Char}
    (hfd : lookupFile st f = some fd) (hre : fd.readErr = false)
    (hm : findFirstAt matchNodejsAt fd.content = some (i, len, ds))
    (hd : o.dryRun = true) :
    updateToolVersions st f T o =
      (.ok ⟨f, f, String.mk ds, natStr T, true, none, false⟩, st) := by
  unfold updateToolVersions
  rw [hfd]
  simp only [hre, Bool.false_eq_true, if_false]
  rw [hm]
  simp only []
  rw [if_pos hd]

theorem updateDockerfile_dry {st : FSState} {f : String} {T : Nat}
    {o : UpdateOptions} {fd : FileData} {i len : Nat} {ds sfx : List Char}
    (hfd : lookupFile st f = some fd) (hre : fd.readErr = false)
    (hm : findFirstAt matchFromAt fd.content = some (i, len, ds, sfx))
    (hd : o.dryRun = true) :
    updateDockerfile st f T o =
      (.ok ⟨f, f, String.mk (ds ++ sfx), String.mk (natDigits T ++ sfx),
        true, none, false⟩, st) := by
  unfold updateDockerfile
  rw [hfd]
  simp only [hre, Bool.false_eq_true, if_false]
  rw [hm]
  simp only []
  rw [if_pos hd]

theorem updateDockerCompose_dry {st : FSState} {f : String} {T : Nat}
    {o : UpdateOptions} {fd : FileData} {i len : Nat} {ds sfx : List Char}
    (hfd : lookupFile st f = some fd) (hre : fd.readErr = false)
    (hm : findFirstAt matchImageAt fd.content = some (i, len, ds, sfx))
    (hd : o.dryRun = true) :
    updateDockerCompose st f T o =
      (.ok ⟨f, f, String.mk (ds ++ sfx), String.mk (natDigits T ++ sfx),
        true, none, false⟩, st) := by
  unfold updateDockerCompose
  rw [hfd]
  simp only [hre, Bool.false_eq_true, if_false]
  rw [hm]
  simp only []
  rw [if_pos hd]

theorem updatePackageJson_dry {st : FSState} {f : String} {T : Nat}
    {o : UpdateOptions} {fd : FileData} {jv : JVal}
    (hfd : lookupFile st f = some fd) (hre : fd.readErr = false)
    (hp : jparse fd.content = some jv) (hd : o.dryRun = true) :
    ∃ old, updatePackageJson st f T o =
      (.ok ⟨f, f, old, ">=" ++ natStr T ++ ".0.0", true, none, false⟩, st) := by
  unfold updatePackageJson
  rw [hfd]
  simp only [hre, Bool.false_eq_true, if_false]
  rw [hp]
  simp only []
  rw [if_pos hd]
  exact ⟨_, rfl⟩

theorem updateGitHubWorkflow_dry {st : FSState} {f : String} {T : Nat}
    {o : UpdateOptions} {fd : FileData}
    (hfd : lookupFile st f = some fd) (hre : fd.readErr = false)
    (hsome : (findFirstAt (matchKeyAt keyNodeVersion) fd.content).isSome = true ∨
      (findFirstAt (matchKeyAt keyNodeEnv) fd.content).isSome = true)
    (hd : o.dryRun = true) :
    ∃ old, updateGitHubWorkflow st f T o =
      (.ok ⟨f, f, old, natStr T, true, none, false⟩, st) := by
  unfold updateGitHubWorkflow
  rw [hfd]
  simp only [hre, Bool.false_eq_true, if_false]
  cases hm1 : findFirstAt (matchKeyAt keyNodeVersion) fd.content with
  | some p1 =>
    obtain ⟨i1, l1, ds1⟩ := p1
    simp only []
    cases hm2 : findFirstAt (matchKeyAt keyNodeEnv)
        (replaceAllKey keyNodeVersion
          ("node-version: '".data ++ natDigits T ++ ['\'']) fd.content) with
    | none =>
      simp only []
      rw [if_neg (by simp), if_pos hd]
      exact ⟨_, rfl⟩
    | some p2 =>
      obtain ⟨i2, l2, ds2⟩ := p2
      simp only []
      rw [if_neg (by simp), if_pos hd]
      exact ⟨_, rfl⟩
  | none =>
    simp only []
    cases hm2 : findFirstAt (matchKeyAt keyNodeEnv) fd.content with
    | some p2 =>
      obtain ⟨i2, l2, ds2⟩ := p2
      simp only []
      rw [if_neg (by simp), if_pos hd]
      exact ⟨_, rfl⟩
    | none =>
      rcases hsome with hs | hs
      · rw [hm1] at hs
        exact absurd hs (by simp)
      · rw [hm2] at hs
        exact absurd hs (by simp)

theorem wfFileRecord_file {path : String} {c : List Char} {v : VersionInfo}
    (h : wfFileRecord path c = some v) : v.file = path := by
  unfold wfFileRecord at h
  split at h
  · simp only [Option.some.injEq] at h
    subst h
    rfl
  · split at h
    · simp only [Option.some.injEq] at h
      subst h
      rfl
    · exact absurd h (by simp)

theorem processOne_dry_scanned {st : FSState} {vs : List VersionInfo}
    (hscan : scanVersions st = .ok vs) {v : VersionInfo} (hv : v ∈ vs)
    (T : Nat) {o : UpdateOptions} (hd : o.dryRun = true) :
    ∃ r, processOne st T o v = (.ok r, st) ∧ r.backedUp = false ∧
      (v.majorVersion ≠ T → r.success = true ∧ r.newVersion = afterValueFor st T v) := by
  unfold processOne
  by_cases hmaj : v.majorVersion = T
  · rw [if_pos hmaj]
    exact ⟨_, rfl, rfl, fun hne => absurd hmaj hne⟩
  · rw [if_neg hmaj]
    unfold updateVersionFile afterValueFor
    rcases scanVersions_mem hscan hv with hc | hc | hc | hc | hc | hc | hc
    · obtain ⟨fd, hfd, hre, ds, hm, hveq⟩ := checkNvmrc_shape hc
      have hft : v.fileType = "nvmrc" := by rw [hveq]
      have hfile : v.file = ".nvmrc" := by rw [hveq]
      rw [if_pos hft, hfile, updateNvmrc_dry hfd hre hd]
      refine ⟨_, rfl, rfl, fun _ => ⟨rfl, ?_⟩⟩
      show natStr T = _
      rw [hft, if_neg (by decide), if_neg (by decide), if_neg (by decide)]
    · obtain ⟨fd, hfd, hre, jv, s, hp, hs, hemp, hveq⟩ := checkPackageJson_shape hc
      have hft : v.fileType = "package.json" := by rw [hveq]
      have hfile : v.file = "package.json" := by rw [hveq]
      rw [if_neg (by rw [hft]; decide), if_pos hft, hfile]
      obtain ⟨old, heq⟩ := updatePackageJson_dry hfd hre hp hd
      rw [heq]
      refine ⟨_, rfl, rfl, fun _ => ⟨rfl, ?_⟩⟩
      show ">=" ++ natStr T ++ ".0.0" = _
      rw [hft, if_pos rfl]
    · obtain ⟨fd, hfd, hre, i, len, ds, sfx, hm, hveq⟩ := checkDockerfile_shape hc
      have hft : v.fileType = "dockerfile" := by rw [hveq]
      have hfile : v.file = "Dockerfile" := by rw [hveq]
      rw [if_neg (by rw [hft]; decide), if_neg (by rw [hft]; decide), if_pos hft,
        hfile, updateDockerfile_dry hfd hre hm hd]
      refine ⟨_, rfl, rfl, fun _ => ⟨rfl, ?_⟩⟩
      show String.mk (natDigits T ++ sfx) = _
      rw [hft, if_neg (by decide), if_pos rfl, hfd]
      simp only [Option.some_bind]
      rw [hm]
    · obtain ⟨fd, hfd, hre, i, len, ds, sfx, hm, hveq⟩ := checkDockerCompose_shape hc
      have hft : v.fileType = "docker-compose" := by rw [hveq]
      have hfile : v.file = "docker-compose.yml" := by rw [hveq]
      rw [if_neg (by rw [hft]; decide), if_neg (by rw [hft]; decide),
        if_neg (by rw [hft]; decide), if_pos hft,
        hfile, updateDockerCompose_dry hfd hre hm hd]
      refine ⟨_, rfl, rfl, fun _ => ⟨rfl, ?_⟩⟩
      show String.mk (natDigits T ++ sfx) = _
      rw [hft, if_neg (by decide), if_neg (by decide), if_pos rfl, hfd]
      simp only [Option.some_bind]
      rw [hm]
    · obtain ⟨fd, hfd, hre, ds, hm, hveq⟩ := checkNodeVersion_shape hc
      have hft : v.fileType = "node-version" := by rw [hveq]
      have hfile : v.file = ".node-version" := by rw [hveq]
      rw [if_neg (by rw [hft]; decide), if_neg (by rw [hft]; decide),
        if_neg (by rw [hft]; decide), if_neg (by rw [hft]; decide),
        if_neg (by rw [hft]; decide), if_pos hft,
        hfile, updateNodeVersionFile_dry hfd hre hd]
      refine ⟨_, rfl, rfl, fun _ => ⟨rfl, ?_⟩⟩
      show natStr T = _
      rw [hft, if_neg (by decide), if_neg (by decide), if_neg (by decide)]
    · obtain ⟨fd, hfd, hre, i, len, ds, hm, hveq⟩ := checkToolVersions_shape hc
      have hft : v.fileType = "tool-versions" := by rw [hveq]
      have hfile : v.file = ".tool-versions" := by rw [hveq]
      rw [if_neg (by rw [hft]; decide), if_neg (by rw [hft]; decide),
        if_neg (by rw [hft]; decide), if_neg (by rw [hft]; decide),
        if_neg (by rw [hft]; decide), if_neg (by rw [hft]; decide), if_pos hft,
        hfile, updateToolVersions_dry hfd hre hm hd]
      refine ⟨_, rfl, rfl, fun _ => ⟨rfl, ?_⟩⟩
      show natStr T = _
      rw [hft, if_neg (by decide), if_neg (by decide), if_neg (by decide)]
    · obtain ⟨n, fd, hn, hfd, hre, hr⟩ := checkGitHubWorkflows_mem hc
      have hft : v.fileType = "github-workflow" := (wfFileRecord_inv hr).2.2
      have hfile : v.file = wfPrefix ++ n := wfFileRecord_file hr
      have hsome : (findFirstAt (matchKeyAt keyNodeVersion) fd.content).isSome = true ∨
          (findFirstAt (matchKeyAt keyNodeEnv) fd.content).isSome = true :=
        wfFileRecord_shape hr
      rw [if_neg (by rw [hft]; decide), if_neg (by rw [hft]; decide),
        if_neg (by rw [hft]; decide), if_neg (by rw [hft]; decide), if_pos hft,
        hfile]
      obtain ⟨old, heq⟩ := updateGitHubWorkflow_dry hfd hre hsome hd
      rw [heq]
      refine ⟨_, rfl, rfl, fun _ => ⟨rfl, ?_⟩⟩
      show natStr T = _
      rw [hft, if_neg (by decide), if_neg (by decide), if_neg (by decide)]

theorem scan_good {st : FSState} {vs : List VersionInfo}
    (hscan : scanVersions st = .ok vs) :
    ∀ v ∈ vs, ∃ fd, lookupFile st v.file = some fd ∧ fd.readErr = false := by
  intro v hv
  rcases scanVersions_mem hscan hv with hc | hc | hc | hc | hc | hc | hc
  · obtain ⟨fd, hfd, hre, ds, hm, hveq⟩ := checkNvmrc_shape hc
    exact ⟨fd, by rw [hveq]; exact hfd, hre⟩
  · obtain ⟨fd, hfd, hre, jv, s, hp, hs, hemp, hveq⟩ := checkPackageJson_shape hc
    exact ⟨fd, by rw [hveq]; exact hfd, hre⟩
  · obtain ⟨fd, hfd, hre, i, len, ds, sfx, hm, hveq⟩ := checkDockerfile_shape hc
    exact ⟨fd, by rw [hveq]; exact hfd, hre⟩
  · obtain ⟨fd, hfd, hre, i, len, ds, sfx, hm, hveq⟩ := checkDockerCompose_shape hc
    exact ⟨fd, by rw [hveq]; exact hfd, hre⟩
  · obtain ⟨fd, hfd, hre, ds, hm, hveq⟩ := checkNodeVersion_shape hc
    exact ⟨fd, by rw [hveq]; exact hfd, hre⟩
  · obtain ⟨fd, hfd, hre, i, len, ds, hm, hveq⟩ := checkToolVersions_shape hc
    exact ⟨fd, by rw [hveq]; exact hfd, hre⟩
  · obtain ⟨n, fd, hn, hfd, hre, hr⟩ := checkGitHubWorkflows_mem hc
    exact ⟨fd, by rw [wfFileRecord_file hr]; exact hfd, hre⟩

theorem str_append_left_cancel {p a b : String} (h : p ++ a = p ++ b) : a = b := by
  cases p with
  | mk pd =>
    cases a with
    | mk ad =>
      cases b with
      | mk bd =>
        have hd : pd ++ ad = pd ++ bd := congrArg String.data h
        have : ad = bd := List.append_cancel_left hd
        rw [this]

theorem wfLoop_prefix (st : FSState) :
    ∀ (ns : List String) (acc : List VersionInfo),
    ∃ pre rest, ns = pre ++ rest ∧
      (∀ n ∈ pre, ∃ fd, lookupFile st (wfPrefix ++ n) = some fd ∧ fd.readErr = false) ∧
      wfLoop st ns acc = acc ++ wfRecordsOf st pre := by
  intro ns
  induction ns with
  | nil =>
    intro acc
    exact ⟨[], [], rfl, fun n hn => absurd hn (by simp), by simp [wfLoop, wfRecordsOf]⟩
  | cons n ns ih =>
    intro acc
    cases hl : lookupFile st (wfPrefix ++ n) with
    | none =>
      refine ⟨[], n :: ns, rfl, fun m hm => absurd hm (by simp), ?_⟩
      simp [wfLoop, hl, wfRecordsOf]
    | some fd =>
      by_cases hre : fd.readErr = true
      · refine ⟨[], n :: ns, rfl, fun m hm => absurd hm (by simp), ?_⟩
        simp [wfLoop, hl, hre, wfRecordsOf]
      · obtain ⟨pre, rest, hsplit, hpre, hloop⟩ :=
          ih (acc ++ (wfFileRecord (wfPrefix ++ n) fd.content).toList)
        refine ⟨n :: pre, rest, by simp [hsplit], ?_, ?_⟩
        · intro m hm
          rcases List.mem_cons.mp hm with rfl | hm'
          · exact ⟨fd, hl, by simpa using hre⟩
          · exact hpre m hm'
        · have hstep : wfLoop st (n :: ns) acc =
              wfLoop st ns (acc ++ (wfFileRecord (wfPrefix ++ n) fd.content).toList) := by
            simp [wfLoop, hl, hre]
          rw [hstep, hloop, wfRecordsOf_cons, hl]
          simp [List.append_assoc]

theorem wfRecordsOf_files_mem {st : FSState} {ns : List String} {v : VersionInfo}
    (h : v ∈ wfRecordsOf st ns) : ∃ n ∈ ns, v.file = wfPrefix ++ n := by
  unfold wfRecordsOf at h
  obtain ⟨n, hn, hf⟩ := List.mem_filterMap.mp h
  cases hl : lookupFile st (wfPrefix ++ n) with
  | none => rw [hl] at hf; simp at hf
  | some fd =>
    rw [hl] at hf
    simp only [Option.some_bind] at hf
    exact ⟨n, hn, wfFileRecord_file hf⟩

theorem wfRecordsOf_files_nodup {st : FSState} {ns : List String} (h : ns.Nodup) :
    ((wfRecordsOf st ns).map (fun v => v.file)).Nodup := by
  induction ns with
  | nil => simp [wfRecordsOf]
  | cons n ns ih =>
    rw [wfRecordsOf_cons]
    rw [List.map_append, List.nodup_append]
    obtain ⟨hn, hns⟩ := List.nodup_cons.mp h
    refine ⟨?_, ih hns, ?_⟩
    · cases hx : (lookupFile st (wfPrefix ++ n)).bind
          (fun fd => wfFileRecord (wfPrefix ++ n) fd.content) with
      | none => simp
      | some w => simp
    · intro a ha hb
      cases hx : (lookupFile st (wfPrefix ++ n)).bind
          (fun fd => wfFileRecord (wfPrefix ++ n) fd.content) with
      | none => rw [hx] at ha; simp at ha
      | some w =>
        rw [hx] at ha
        simp only [Option.toList_some, List.map_cons, List.map_nil,
          List.mem_singleton] at ha
        obtain ⟨v', hv', hb'⟩ := List.mem_map.mp hb
        obtain ⟨m, hm, hvm⟩ := wfRecordsOf_files_mem hv'
        have hw : w.file = wfPrefix ++ n := by
          cases hlk : lookupFile st (wfPrefix ++ n) with
          | none => rw [hlk] at hx; exact absurd hx (by simp)
          | some fd =>
            rw [hlk] at hx
            simp only [Option.some_bind] at hx
            exact wfFileRecord_file hx
        have heqnm : wfPrefix ++ m = wfPrefix ++ n := by
          rw [← hvm, hb', ha, hw]
        exact hn (str_append_left_cancel heqnm ▸ hm)

theorem extOk_len {n : String} (h : extOk n = true) : 4 ≤ n.length := by
  unfold extOk at h
  rcases (by simpa using h :
      ".yml".data.isSuffixOf n.data = true ∨ ".yaml".data.isSuffixOf n.data = true) with h' | h'
  · exact le_trans (by decide) (List.IsSuffix.length_le (List.isSuffixOf_iff_suffix.mp h'))
  · exact le_trans (by decide) (List.IsSuffix.length_le (List.isSuffixOf_iff_suffix.mp h'))

theorem wf_file_ne {n c : String} (h : extOk n = true) (hc : c.length < 22) :
    wfPrefix ++ n ≠ c := by
  intro he
  have h4 := extOk_len h
  have hl : (wfPrefix ++ n).length = 18 + n.length := by
    rw [String.length_append, show wfPrefix.length = 18 from by decide]
  rw [he] at hl
  omega

theorem opt_file_ne {o : Option VersionInfo} {c c' : String}
    (f : ∀ v, o = some v → v.file = c) (hne : c ≠ c') :
    c' ∉ o.toList.map (fun v => v.file) := by
  intro h
  obtain ⟨w, hw, hfw⟩ := List.mem_map.mp h
  exact hne (by rw [← f w (by simpa using hw), hfw])

theorem nodup_opt_append {α β : Type} (F : α → β) (o : Option α) (rest : List α)
    (hr : (rest.map F).Nodup) (hd : ∀ v, o = some v → F v ∉ rest.map F) :
    ((o.toList ++ rest).map F).Nodup := by
  cases o with
  | none => simpa using hr
  | some v =>
    simp only [Option.toList_some, List.cons_append, List.map_cons]
    exact List.nodup_cons.mpr ⟨hd v rfl, hr⟩

theorem checkGitHubWorkflows_shape {st : FSState} (hwf : st.wfNames.Nodup) :
    ∃ pre : List String, pre.Nodup ∧ (∀ n ∈ pre, extOk n = true) ∧
      checkGitHubWorkflows st = wfRecordsOf st pre := by
  unfold checkGitHubWorkflows
  by_cases hdir : st.wfDirExists = true
  · rw [if_neg (not_not_intro hdir)]
    by_cases hrd : st.readdirErr = true
    · rw [if_pos hrd]
      exact ⟨[], by simp, by simp, rfl⟩
    · rw [if_neg hrd]
      obtain ⟨pre, rest, hsplit, hpre, hloop⟩ := wfLoop_prefix st (st.wfNames.filter extOk) []
      refine ⟨pre, ?_, ?_, by rw [hloop]; simp⟩
      · have hfn : (st.wfNames.filter extOk).Nodup := hwf.filter extOk
        exact List.Nodup.sublist (hsplit ▸ List.sublist_append_left pre rest) hfn
      · intro n hn
        have hmem : n ∈ st.wfNames.filter extOk := by
          rw [hsplit]; exact List.mem_append_left _ hn
        exact (List.mem_filter.mp hmem).2
  · rw [if_pos (by simpa using hdir)]
    exact ⟨[], by simp, by simp, rfl⟩

theorem scan_nodup {st : FSState} {vs : List VersionInfo}
    (hscan : scanVersions st = .ok vs) (hwf : st.wfNames.Nodup) :
    (vs.map (fun v => v.file)).Nodup := by
  unfold scanVersions at hscan
  split at hscan
  · exact absurd hscan (by simp)
  · next o1 h1 =>
    split at hscan
    · exact absurd hscan (by simp)
    · next o3 h3 =>
      split at hscan
      · exact absurd hscan (by simp)
      · next o4 h4 =>
        split at hscan
        · exact absurd hscan (by simp)
        · next o5 h5 =>
          split at hscan
          · exact absurd hscan (by simp)
          · next o6 h6 =>
            simp only [Except.ok.injEq] at hscan
            subst hscan
            have f1 : ∀ v, o1 = some v → v.file = ".nvmrc" := by
              intro v hv
              rw [hv] at h1
              obtain ⟨fd, -, -, ds, -, hveq⟩ := checkNvmrc_shape h1
              rw [hveq]
            have f2 : ∀ v, checkPackageJson st = some v → v.file = "package.json" := by
              intro v hv
              obtain ⟨fd, -, -, jv, s, -, -, -, hveq⟩ := checkPackageJson_shape hv
              rw [hveq]
            have f3 : ∀ v, o3 = some v → v.file = "Dockerfile" := by
              intro v hv
              rw [hv] at h3
              obtain ⟨fd, -, -, i, len, ds, sfx, -, hveq⟩ := checkDockerfile_shape h3
              rw [hveq]
            have f4 : ∀ v, o4 = some v → v.file = "docker-compose.yml" := by
              intro v hv
              rw [hv] at h4
              obtain ⟨fd, -, -, i, len, ds, sfx, -, hveq⟩ := checkDockerCompose_shape h4
              rw [hveq]
            have f5 : ∀ v, o5 = some v → v.file = ".node-version" := by
              intro v hv
              rw [hv] at h5
              obtain ⟨fd, -, -, ds, -, hveq⟩ := checkNodeVersion_shape h5
              rw [hveq]
            have f6 : ∀ v, o6 = some v → v.file = ".tool-versions" := by
              intro v hv
              rw [hv] at h6
              obtain ⟨fd, -, -, i, len, ds, -, hveq⟩ := checkToolVersions_shape h6
              rw [hveq]
            obtain ⟨pre, hpn, hpe, hW⟩ := checkGitHubWorkflows_shape hwf
            have hWmem : ∀ a ∈ (checkGitHubWorkflows st).map (fun v => v.file),
                ∃ n, extOk n = true ∧ a = wfPrefix ++ n := by
              intro a ha
              obtain ⟨v', hv', hfa⟩ := List.mem_map.mp ha
              rw [hW] at hv'
              obtain ⟨n, hn, hvn⟩ := wfRecordsOf_files_mem hv'
              exact ⟨n, hpe n hn, by rw [← hfa, hvn]⟩
            have hWnodup : ((checkGitHubWorkflows st).map (fun v => v.file)).Nodup := by
              rw [hW]
              exact wfRecordsOf_files_nodup hpn
            simp only [List.append_assoc]
            apply nodup_opt_append
            · apply nodup_opt_append
              · apply nodup_opt_append
                · apply nodup_opt_append
                  · apply nodup_opt_append
                    · apply nodup_opt_append
                      · exact hWnodup
                      · intro v hv hmem
                        rw [f6 v hv] at hmem
                        obtain ⟨n, hext, heq⟩ := hWmem _ hmem
                        exact wf_file_ne hext (by decide) heq.symm
                    · intro v hv hmem
                      rw [f5 v hv] at hmem
                      simp only [List.map_append, List.mem_append] at hmem
                      rcases hmem with h | h
                      · exact opt_file_ne f6 (by decide) h
                      · obtain ⟨n, hext, heq⟩ := hWmem _ h
                        exact wf_file_ne hext (by decide) heq.symm
                  · intro v hv hmem
                    rw [f4 v hv] at hmem
                    simp only [List.map_append, List.mem_append] at hmem
                    rcases hmem with h | h | h
                    · exact opt_file_ne f5 (by decide) h
                    · exact opt_file_ne f6 (by decide) h
                    · obtain ⟨n, hext, heq⟩ := hWmem _ h
                      exact wf_file_ne hext (by decide) heq.symm
                · intro v hv hmem
                  rw [f3 v hv] at hmem
                  simp only [List.map_append, List.mem_append] at hmem
                  rcases hmem with h | h | h | h
                  · exact opt_file_ne f4 (by decide) h
                  · exact opt_file_ne f5 (by decide) h
                  · exact opt_file_ne f6 (by decide) h
                  · obtain ⟨n, hext, heq⟩ := hWmem _ h
                    exact wf_file_ne hext (by decide) heq.symm
              · intro v hv hmem
                rw [f2 v hv] at hmem
                simp only [List.map_append, List.mem_append] at hmem
                rcases hmem with h | h | h | h | h
                · exact opt_file_ne f3 (by decide) h
                · exact opt_file_ne f4 (by decide) h
                · exact opt_file_ne f5 (by decide) h
                · exact opt_file_ne f6 (by decide) h
                · obtain ⟨n, hext, heq⟩ := hWmem _ h
                  exact wf_file_ne hext (by decide) heq.symm
            · intro v hv hmem
              rw [f1 v hv] at hmem
              simp only [List.map_append, List.mem_append] at hmem
              rcases hmem with h | h | h | h | h | h
              · exact opt_file_ne f2 (by decide) h
              · exact opt_file_ne f3 (by decide) h
              · exact opt_file_ne f4 (by decide) h
              · exact opt_file_ne f5 (by decide) h
              · exact opt_file_ne f6 (by decide) h
              · obtain ⟨n, hext, heq⟩ := hWmem _ h
                exact wf_file_ne hext (by decide) heq.symm

theorem backupPath_ne (p : String) (ts : Nat) : backupPath p ts ≠ p := by
  intro h
  have hlen := congrArg String.length h
  unfold backupPath at hlen
  rw [String.length_append, String.length_append,
    show (".backup." : String).length = 8 from by decide] at hlen
  omega

/-- Claim C2: over the records of a scan (of a real directory listing,
whose names are distinct), the update pass returns `Except.ok` with exactly
one `UpdateResult` per record, and the `i`-th result equals the result of
processing the `i`-th record alone from the pre-batch state: a failure
while processing one file (reported inside its own `UpdateResult`) never
changes, suppresses, or aborts the processing of any other record. -/
theorem c2_failureIsolation (st : FSState) (T : Nat) (o : UpdateOptions)
    (vs : List VersionInfo) (hscan : scanVersions st = .ok vs)
    (hwf : st.wfNames.Nodup) :
    ∃ rs st', updateAllVersions st T o = (.ok rs, st') ∧
      rs.length = vs.length ∧
      ∀ i (h1 : i < vs.length) (h2 : i < rs.length),
        (processOne st T o (vs.get ⟨i, h1⟩)).1 = .ok (rs.get ⟨i, h2⟩) := by
  obtain ⟨rs, st', hloop, hlen, hmo, hfr, hpt, hbk⟩ :=
    updateLoop_spec T o vs st (scan_good hscan) (scan_nodup hscan hwf)
  refine ⟨rs, st', ?_, hlen, hpt⟩
  unfold updateAllVersions
  rw [hscan]
  exact hloop

/-- Witness for `c2_failureIsolation`: a project whose `Dockerfile` write
fails while `.nvmrc` succeeds; both records get their own result. -/
theorem c2_witness :
    ∃ rs st',
      updateAllVersions stC6w 22 ⟨false, true⟩ = (.ok rs, st') ∧
      rs.length = ([⟨".nvmrc", ".nvmrc", "18", "18", 18, "nvmrc"⟩,
        ⟨"Dockerfile", "Dockerfile", "18", "18-slim", 18, "dockerfile"⟩] :
          List VersionInfo).length ∧
      ∀ i (h1 : i < ([⟨".nvmrc", ".nvmrc", "18", "18", 18, "nvmrc"⟩,
          ⟨"Dockerfile", "Dockerfile", "18", "18-slim", 18, "dockerfile"⟩] :
            List VersionInfo).length) (h2 : i < rs.length),
        (processOne stC6w 22 ⟨false, true⟩
            (([⟨".nvmrc", ".nvmrc", "18", "18", 18, "nvmrc"⟩,
              ⟨"Dockerfile", "Dockerfile", "18", "18-slim", 18, "dockerfile"⟩] :
                List VersionInfo).get ⟨i, h1⟩)).1 = .ok (rs.get ⟨i, h2⟩) :=
  c2_failureIsolation stC6w 22 ⟨false, true⟩
    [⟨".nvmrc", ".nvmrc", "18", "18", 18, "nvmrc"⟩,
      ⟨"Dockerfile", "Dockerfile", "18", "18-slim", 18, "dockerfile"⟩]
    rfl (by decide)

/-- Claim C4: a dry run returns `Except.ok`, leaves the filesystem state
(files, backups, clock) exactly as it was, reports `backedUp = false` for
every result, and reports every record whose major differs from the target
as updated (`success = true`) with the computed after-value of its
format. -/
theorem c4_dryRunPurity (st : FSState) (T : Nat) (o : UpdateOptions)
    (hd : o.dryRun = true) (vs : List VersionInfo)
    (hscan : scanVersions st = .ok vs) :
    ∃ rs, updateAllVersions st T o = (.ok rs, st) ∧
      rs.length = vs.length ∧
      (∀ r ∈ rs, r.backedUp = false) ∧
      ∀ i (h1 : i < vs.length) (h2 : i < rs.length),
        (vs.get ⟨i, h1⟩).majorVersion ≠ T →
        (rs.get ⟨i, h2⟩).success = true ∧
        (rs.get ⟨i, h2⟩).newVersion = afterValueFor st T (vs.get ⟨i, h1⟩) := by
  have hpt : ∀ v ∈ vs, ∃ r, processOne st T o v = (.ok r, st) := fun v hv =>
    (processOne_dry_scanned hscan hv T hd).imp (fun r hr => hr.1)
  obtain ⟨rs, hloop, hlen, hptc⟩ := updateLoop_pointwise T o vs st hpt
  have huniq : ∀ i (h1 : i < vs.length) (h2 : i < rs.length),
      (rs.get ⟨i, h2⟩).backedUp = false ∧
      ((vs.get ⟨i, h1⟩).majorVersion ≠ T →
        (rs.get ⟨i, h2⟩).success = true ∧
        (rs.get ⟨i, h2⟩).newVersion = afterValueFor st T (vs.get ⟨i, h1⟩)) := by
    intro i h1 h2
    obtain ⟨r, hr, hbu, hupd⟩ := processOne_dry_scanned hscan (vs.get_mem i h1) T hd
    have hcomb := hptc i h1 h2
    rw [hr] at hcomb
    have hre : r = rs.get ⟨i, h2⟩ := by
      have hfst := congrArg Prod.fst hcomb
      simpa using hfst
    rw [← hre]
    exact ⟨hbu, hupd⟩
  refine ⟨rs, ?_, hlen, ?_, fun i h1 h2 => (huniq i h1 h2).2⟩
  · unfold updateAllVersions
    rw [hscan]
    exact hloop
  · intro r hr
    obtain ⟨⟨i, h2⟩, hget⟩ := List.mem_iff_get.mp hr
    have h1 : i < vs.length := by rw [← hlen]; exact h2
    rw [← hget]
    exact (huniq i h1 h2).1

/-- Witness for `c4_dryRunPurity`: a dry run over the three-file project
`stC5` with target `22`. -/
theorem c4_witness :
    ∃ rs, updateAllVersions stC5 22 ⟨true, true⟩ = (.ok rs, stC5) ∧
      rs.length = ([⟨".nvmrc", ".nvmrc", "20", "20", 20, "nvmrc"⟩,
        ⟨"Dockerfile", "Dockerfile", "20", "20", 20, "dockerfile"⟩,
        ⟨"docker-compose.yml", "docker-compose.yml", "22", "22", 22, "docker-compose"⟩] :
          List VersionInfo).length ∧
      (∀ r ∈ rs, r.backedUp = false) ∧
      ∀ i (h1 : i < ([⟨".nvmrc", ".nvmrc", "20", "20", 20, "nvmrc"⟩,
          ⟨"Dockerfile", "Dockerfile", "20", "20", 20, "dockerfile"⟩,
          ⟨"docker-compose.yml", "docker-compose.yml", "22", "22", 22, "docker-compose"⟩] :
            List VersionInfo).length) (h2 : i < rs.length),
        (([⟨".nvmrc", ".nvmrc", "20", "20", 20, "nvmrc"⟩,
          ⟨"Dockerfile", "Dockerfile", "20", "20", 20, "dockerfile"⟩,
          ⟨"docker-compose.yml", "docker-compose.yml", "22", "22", 22, "docker-compose"⟩] :
            List VersionInfo).get ⟨i, h1⟩).majorVersion ≠ 22 →
        (rs.get ⟨i, h2⟩).success = true ∧
        (rs.get ⟨i, h2⟩).newVersion = afterValueFor stC5 22
          (([⟨".nvmrc", ".nvmrc", "20", "20", 20, "nvmrc"⟩,
            ⟨"Dockerfile", "Dockerfile", "20", "20", 20, "dockerfile"⟩,
            ⟨"docker-compose.yml", "docker-compose.yml", "22", "22", 22, "docker-compose"⟩] :
              List VersionInfo).get ⟨i, h1⟩) :=
  c4_dryRunPurity stC5 22 ⟨true, true⟩ rfl
    [⟨".nvmrc", ".nvmrc", "20", "20", 20, "nvmrc"⟩,
      ⟨"Dockerfile", "Dockerfile", "20", "20", 20, "dockerfile"⟩,
      ⟨"docker-compose.yml", "docker-compose.yml", "22", "22", 22, "docker-compose"⟩]
    rfl

/-- Claim C6: in a non-dry-run pass with the backup option enabled, every
record that is actually rewritten (major differs from the target and the
write succeeded) has `backedUp = true` in its result, and the final state
holds a backup entry whose path is derived from the original path and
distinct from it and whose content is the file's pre-mutation content. -/
theorem c6_backupCreation (st : FSState) (T : Nat) (o : UpdateOptions)
    (hd : o.dryRun = false) (hb : o.backup = true) (vs : List VersionInfo)
    (hscan : scanVersions st = .ok vs) (hwf : st.wfNames.Nodup) :
    ∃ rs st', updateAllVersions st T o = (.ok rs, st') ∧ rs.length = vs.length ∧
      ∀ i (h1 : i < vs.length) (h2 : i < rs.length),
        (vs.get ⟨i, h1⟩).majorVersion ≠ T → (rs.get ⟨i, h2⟩).success = true →
        (rs.get ⟨i, h2⟩).backedUp = true ∧
        ∃ ts fd, lookupFile st (vs.get ⟨i, h1⟩).file = some fd ∧
          backupPath (vs.get ⟨i, h1⟩).file ts ≠ (vs.get ⟨i, h1⟩).file ∧
          (backupPath (vs.get ⟨i, h1⟩).file ts, fd.content) ∈ st'.backups := by
  obtain ⟨rs, st', hloop, hlen, hmo, hfr, hpt, hbk⟩ :=
    updateLoop_spec T o vs st (scan_good hscan) (scan_nodup hscan hwf)
  refine ⟨rs, st', ?_, hlen, ?_⟩
  · unfold updateAllVersions
    rw [hscan]
    exact hloop
  · intro i h1 h2 hmaj hs
    obtain ⟨hbu, ts, fd, hlk, hmem⟩ := hbk i h1 h2 hd hb hmaj hs
    exact ⟨hbu, ts, fd, hlk, backupPath_ne _ _, hmem⟩

/-- Witness for `c6_backupCreation`: the three-file project `stC5` updated
to `22` with `backup: true`. -/
theorem c6_witness :
    ∃ rs st', updateAllVersions stC5 22 ⟨false, true⟩ = (.ok rs, st') ∧
      rs.length = ([⟨".nvmrc", ".nvmrc", "20", "20", 20, "nvmrc"⟩,
        ⟨"Dockerfile", "Dockerfile", "20", "20", 20, "dockerfile"⟩,
        ⟨"docker-compose.yml", "docker-compose.yml", "22", "22", 22, "docker-compose"⟩] :
          List VersionInfo).length ∧
      ∀ i (h1 : i < ([⟨".nvmrc", ".nvmrc", "20", "20", 20, "nvmrc"⟩,
          ⟨"Dockerfile", "Dockerfile", "20", "20", 20, "dockerfile"⟩,
          ⟨"docker-compose.yml", "docker-compose.yml", "22", "22", 22, "docker-compose"⟩] :
            List VersionInfo).length) (h2 : i < rs.length),
        (([⟨".nvmrc", ".nvmrc", "20", "20", 20, "nvmrc"⟩,
          ⟨"Dockerfile", "Dockerfile", "20", "20", 20, "dockerfile"⟩,
          ⟨"docker-compose.yml", "docker-compose.yml", "22", "22", 22, "docker-compose"⟩] :
            List VersionInfo).get ⟨i, h1⟩).majorVersion ≠ 22 →
        (rs.get ⟨i, h2⟩).success = true →
        (rs.get ⟨i, h2⟩).backedUp = true ∧
        ∃ ts fd, lookupFile stC5
            (([⟨".nvmrc", ".nvmrc", "20", "20", 20, "nvmrc"⟩,
              ⟨"Dockerfile", "Dockerfile", "20", "20", 20, "dockerfile"⟩,
              ⟨"docker-compose.yml", "docker-compose.yml", "22", "22", 22, "docker-compose"⟩] :
                List VersionInfo).get ⟨i, h1⟩).file = some fd ∧
          backupPath (([⟨".nvmrc", ".nvmrc", "20", "20", 20, "nvmrc"⟩,
            ⟨"Dockerfile", "Dockerfile", "20", "20", 20, "dockerfile"⟩,
            ⟨"docker-compose.yml", "docker-compose.yml", "22", "22", 22, "docker-compose"⟩] :
              List VersionInfo).get ⟨i, h1⟩).file ts ≠
            (([⟨".nvmrc", ".nvmrc", "20", "20", 20, "nvmrc"⟩,
              ⟨"Dockerfile", "Dockerfile", "20", "20", 20, "dockerfile"⟩,
              ⟨"docker-compose.yml", "docker-compose.yml", "22", "22", 22, "docker-compose"⟩] :
                List VersionInfo).get ⟨i, h1⟩).file ∧
          (backupPath (([⟨".nvmrc", ".nvmrc", "20", "20", 20, "nvmrc"⟩,
            ⟨"Dockerfile", "Dockerfile", "20", "20", 20, "dockerfile"⟩,
            ⟨"docker-compose.yml", "docker-compose.yml", "22", "22", 22, "docker-compose"⟩] :
              List VersionInfo).get ⟨i, h1⟩).file ts, fd.content) ∈ st'.backups :=
  c6_backupCreation stC5 22 ⟨false, true⟩ rfl rfl
    [⟨".nvmrc", ".nvmrc", "20", "20", 20, "nvmrc"⟩,
      ⟨"Dockerfile", "Dockerfile", "20", "20", 20, "dockerfile"⟩,
      ⟨"docker-compose.yml", "docker-compose.yml", "22", "22", 22, "docker-compose"⟩]
    rfl (by decide)

/-! ## C8: the workflow rewrite replaces every occurrence of both keys

The replacement strings of `updateGitHubWorkflow` have the shape
`key ++ " '" ++ digits ++ "'"`; the development below decomposes the
output of the global replacement into literal characters and replacement
blocks (`Blocks`), and analyses where a key pattern can match in such an
output. -/

/-- Characters at which the scanner's whitespace/quote/digit phases stop:
neither a digit, nor a quote, nor whitespace.  Every character of the two
workflow keys (and everything case-insensitively equal to one) is such. -/
def blkChar (c : Char) : Bool :=
  !(jsDigit c) && !(c == '\'') && !(c == '"') && !(jsWS c)

/-- The decomposition `replaceAllKeyAux` induces on its output: each
scanner-found match of `key` is replaced by `Q`, characters at rejected
positions are copied verbatim. -/
inductive Blocks (key Q : List Char) : List Char → List Char → Prop
  | nil : Blocks key Q [] []
  | lit (c : Char) (s u : List Char) : matchKeyAt key (c :: s) = none →
      Blocks key Q s u → Blocks key Q (c :: s) (c :: u)
  | rep (s u : List Char) (len : Nat) (ds : List Char) :
      matchKeyAt key s = some (len, ds) → Blocks key Q (s.drop len) u →
      Blocks key Q s (Q ++ u)

/-- A workflow project whose single listed file contains both version
keys (the content `wfBoth`). -/
def stC8wf : FSState :=
  ⟨[(".github/workflows/ci.yml", mkFD (String.mk wfBoth))], true, ["ci.yml"], false, [], 0⟩

theorem blkChar_spec {c : Char} :
    blkChar c = true ↔ jsDigit c = false ∧ c ≠ '\'' ∧ c ≠ '"' ∧ jsWS c = false := by
  simp [blkChar, Bool.and_eq_true, Bool.not_eq_true']
  tauto

theorem ciEq_iff {a b : Char} : ciEq a b = true ↔ lcChar a = lcChar b := by
  simp [ciEq]

theorem ciEq_refl (a : Char) : ciEq a a = true := by
  simp [ciEq]

theorem jsDigit_lc {c : Char} (h : jsDigit c = true) : lcChar c = c := by
  have hb : '0' ≤ c ∧ c ≤ '9' := by simpa [jsDigit] using h
  unfold lcChar
  rw [if_neg]
  intro ⟨h1, h2⟩
  exact absurd (le_trans h1 hb.2) (by decide)

theorem jsWS_lc {c : Char} (h : jsWS c = true) : lcChar c = c := by
  have hb : c = ' ' ∨ c = '\t' ∨ c = '\n' ∨ c = Char.ofNat 11 ∨
      c = Char.ofNat 12 ∨ c = '\r' := by simpa [jsWS] using h
  rcases hb with rfl | rfl | rfl | rfl | rfl | rfl <;> decide

theorem blk_of_ciEq {k c : Char} (hk : jsDigit (lcChar k) = false ∧ lcChar k ≠ '\'' ∧
    lcChar k ≠ '"' ∧ jsWS (lcChar k) = false) (h : ciEq k c = true) :
    blkChar c = true := by
  have hlc : lcChar k = lcChar c := ciEq_iff.mp h
  rw [blkChar_spec]
  refine ⟨?_, ?_, ?_, ?_⟩
  · by_contra hd
    rw [Bool.not_eq_false] at hd
    rw [hlc, jsDigit_lc hd] at hk
    exact absurd hd (by simp [hk.1])
  · intro hq
    subst hq
    exact hk.2.1 (by rw [hlc]; decide)
  · intro hq
    subst hq
    exact hk.2.2.1 (by rw [hlc]; decide)
  · by_contra hw
    rw [Bool.not_eq_false] at hw
    rw [hlc, jsWS_lc hw] at hk
    exact absurd hw (by simp [hk.2.2.2])

theorem stripCI_decomp : ∀ {key s r : List Char}, stripCI key s = some r →
    ∃ kp, s = kp ++ r ∧ kp.length = key.length ∧
      ∀ j (hj : j < key.length) (hj2 : j < kp.length),
        ciEq (key.get ⟨j, hj⟩) (kp.get ⟨j, hj2⟩) = true := by
  intro key
  induction key with
  | nil =>
    intro s r h
    simp only [stripCI, Option.some.injEq] at h
    exact ⟨[], by simp [h], rfl, fun j hj _ => absurd hj (by simp at hj)⟩
  | cons k ks ih =>
    intro s r h
    cases s with
    | nil => simp [stripCI] at h
    | cons c cs =>
      simp only [stripCI] at h
      split at h
      · next hc =>
        obtain ⟨kp, hs, hlen, hci⟩ := ih h
        refine ⟨c :: kp, by simp [hs], by simp [hlen], ?_⟩
        intro j hj hj2
        cases j with
        | zero => simpa using hc
        | succ j' => exact hci j' (by simpa using hj) (by simpa using hj2)
      · exact absurd h (by simp)

theorem stripCI_build : ∀ {key kp : List Char} (r : List Char),
    kp.length = key.length →
    (∀ j (hj : j < key.length) (hj2 : j < kp.length),
      ciEq (key.get ⟨j, hj⟩) (kp.get ⟨j, hj2⟩) = true) →
    stripCI key (kp ++ r) = some r := by
  intro key
  induction key with
  | nil =>
    intro kp r hlen _
    have hkp : kp = [] := List.length_eq_zero.mp hlen
    subst hkp
    rfl
  | cons k ks ih =>
    intro kp r hlen hci
    cases kp with
    | nil => simp at hlen
    | cons c cp =>
      simp only [List.cons_append, stripCI]
      rw [if_pos (show ciEq k c = true from hci 0 (by simp) (by simp))]
      exact ih r (by simpa using hlen)
        (fun j hj hj2 => hci (j + 1) (by simpa using hj) (by simpa using hj2))

theorem dropWhile_all_append {p : Char → Bool} {a b : List Char}
    (ha : ∀ c ∈ a, p c = true) (hb : ∀ c, b.head? = some c → p c = false) :
    (a ++ b).dropWhile p = b := by
  induction a with
  | nil =>
    cases b with
    | nil => simp
    | cons x xs => simp [List.dropWhile_cons, hb x rfl]
  | cons x xs ih =>
    simp only [List.cons_append, List.dropWhile_cons, ha x (by simp)]
    simp [ih (fun c hc => ha c (List.mem_cons_of_mem _ hc))]

theorem matchKeyAt_nil {key : List Char} (h : key ≠ []) :
    matchKeyAt key [] = none := by
  cases key with
  | nil => exact absurd rfl h
  | cons k ks => rfl

theorem jsWS_digit_false {c : Char} (h : jsWS c = true) : jsDigit c = false := by
  have hb : c = ' ' ∨ c = '\t' ∨ c = '\n' ∨ c = Char.ofNat 11 ∨
      c = Char.ofNat 12 ∨ c = '\r' := by simpa [jsWS] using h
  rcases hb with rfl | rfl | rfl | rfl | rfl | rfl <;> decide

theorem jsDigit_ws_false {c : Char} (h : jsDigit c = true) : jsWS c = false := by
  cases hw : jsWS c
  · rfl
  · rw [jsWS_digit_false hw] at h
    cases h

theorem jsDigit_ne_quote {c : Char} (h : jsDigit c = true) : c ≠ '\'' ∧ c ≠ '"' := by
  constructor
  · intro hc
    subst hc
    exact absurd h (by decide)
  · intro hc
    subst hc
    exact absurd h (by decide)

theorem matchKeyAt_build {key : List Char} {kp ws q1 ds q2 rest : List Char}
    (hkp : kp.length = key.length)
    (hci : ∀ j (hj : j < key.length) (hj2 : j < kp.length),
      ciEq (key.get ⟨j, hj⟩) (kp.get ⟨j, hj2⟩) = true)
    (hws : ∀ c ∈ ws, jsWS c = true)
    (hq1 : q1 = [] ∨ q1 = ['\''] ∨ q1 = ['"'])
    (hdsne : ds ≠ []) (hdsd : ∀ c ∈ ds, jsDigit c = true)
    (hq2 : q2 = [] ∨ q2 = ['\''] ∨ q2 = ['"'])
    (hrest : q2 = [] → ∀ d rest2, rest = d :: rest2 →
      jsDigit d = false ∧ d ≠ '\'' ∧ d ≠ '"') :
    matchKeyAt key (kp ++ (ws ++ (q1 ++ (ds ++ (q2 ++ rest))))) =
      some (kp.length + ws.length + q1.length + ds.length + q2.length, ds) := by
  cases ds with
  | nil => exact absurd rfl hdsne
  | cons d ds' =>
    have hd0 : jsDigit d = true := hdsd d (by simp)
    have hq2head : ∀ c, (q2 ++ rest).head? = some c → jsDigit c = false := by
      intro c hc
      rcases hq2 with rfl | rfl | rfl
      · cases rest with
        | nil => simp at hc
        | cons r rs =>
          simp only [List.nil_append, List.head?_cons, Option.some.injEq] at hc
          subst hc
          exact (hrest rfl r rs rfl).1
      · simp only [List.cons_append, List.head?_cons, Option.some.injEq] at hc
        subst hc
        decide
      · simp only [List.cons_append, List.head?_cons, Option.some.injEq] at hc
        subst hc
        decide
    have htake : ((d :: ds') ++ (q2 ++ rest)).takeWhile (fun c => jsDigit c) = d :: ds' :=
      takeWhile_digits_append hdsd hq2head
    have htdig : takeDigits ((d :: ds') ++ (q2 ++ rest)) =
        some (d :: ds', q2 ++ rest) := by
      unfold takeDigits
      simp only [htake]
      rw [if_neg (by simp)]
      rw [List.drop_left]
    have hq1head : ∀ c, (q1 ++ ((d :: ds') ++ (q2 ++ rest))).head? = some c →
        jsWS c = false := by
      intro c hc
      rcases hq1 with rfl | rfl | rfl
      · simp only [List.nil_append, List.cons_append, List.head?_cons,
          Option.some.injEq] at hc
        subst hc
        exact jsDigit_ws_false hd0
      · simp only [List.cons_append, List.head?_cons, Option.some.injEq] at hc
        subst hc
        decide
      · simp only [List.cons_append, List.head?_cons, Option.some.injEq] at hc
        subst hc
        decide
    have hdrop : (ws ++ (q1 ++ ((d :: ds') ++ (q2 ++ rest)))).dropWhile
        (fun c => jsWS c) = q1 ++ ((d :: ds') ++ (q2 ++ rest)) :=
      dropWhile_all_append hws hq1head
    unfold matchKeyAt
    rw [stripCI_build (ws ++ (q1 ++ ((d :: ds') ++ (q2 ++ rest)))) hkp hci]
    simp only [hdrop]
    rcases hq1 with rfl | rfl | rfl
    · -- no leading quote: the quote test sees a digit and is skipped
      simp only [List.nil_append, List.cons_append]
      rw [if_neg (by
        simp only [Bool.and_eq_true, Bool.or_eq_true, decide_eq_true_eq]
        intro hcon
        rcases hcon.1 with hq | hq
        · exact (jsDigit_ne_quote hd0).1 hq
        · exact (jsDigit_ne_quote hd0).2 hq)]
      rw [show d :: (ds' ++ (q2 ++ rest)) = (d :: ds') ++ (q2 ++ rest) from rfl, htdig]
      simp only []
      rcases hq2 with rfl | rfl | rfl
      · cases rest with
        | nil =>
          simp [List.length_append]
          try omega
        | cons r rs =>
          simp [List.length_append, (hrest rfl r rs rfl).2.1, (hrest rfl r rs rfl).2.2]
          try omega
      · simp [List.length_append]
        try omega
      · simp [List.length_append]
        try omega
    · -- leading single quote followed by a digit: the quote is consumed
      simp only [List.cons_append, List.nil_append]
      rw [if_pos (by simp [hd0])]
      rw [show d :: (ds' ++ (q2 ++ rest)) = (d :: ds') ++ (q2 ++ rest) from rfl, htdig]
      simp only []
      rcases hq2 with rfl | rfl | rfl
      · cases rest with
        | nil =>
          simp [List.length_append]
          try omega
        | cons r rs =>
          simp [List.length_append, (hrest rfl r rs rfl).2.1, (hrest rfl r rs rfl).2.2]
          try omega
      · simp [List.length_append]
        try omega
      · simp [List.length_append]
        try omega
    · -- leading double quote followed by a digit
      simp only [List.cons_append, List.nil_append]
      rw [if_pos (by simp [hd0])]
      rw [show d :: (ds' ++ (q2 ++ rest)) = (d :: ds') ++ (q2 ++ rest) from rfl, htdig]
      simp only []
      rcases hq2 with rfl | rfl | rfl
      · cases rest with
        | nil =>
          simp [List.length_append]
          try omega
        | cons r rs =>
          simp [List.length_append, (hrest rfl r rs rfl).2.1, (hrest rfl r rs rfl).2.2]
          try omega
      · simp [List.length_append]
        try omega
      · simp [List.length_append]
        try omega

theorem matchKeyAt_decomp {key s : List Char} {len : Nat} {ds : List Char}
    (h : matchKeyAt key s = some (len, ds)) :
    ∃ kp ws q1 q2 rest,
      s = kp ++ (ws ++ (q1 ++ (ds ++ (q2 ++ rest)))) ∧
      len = kp.length + ws.length + q1.length + ds.length + q2.length ∧
      kp.length = key.length ∧
      (∀ j (hj : j < key.length) (hj2 : j < kp.length),
        ciEq (key.get ⟨j, hj⟩) (kp.get ⟨j, hj2⟩) = true) ∧
      (∀ c ∈ ws, jsWS c = true) ∧
      (q1 = [] ∨ q1 = ['\''] ∨ q1 = ['"']) ∧
      ds ≠ [] ∧ (∀ c ∈ ds, jsDigit c = true) ∧
      (q2 = [] ∨ q2 = ['\''] ∨ q2 = ['"']) ∧
      (q2 = [] → ∀ d rest2, rest = d :: rest2 →
        jsDigit d = false ∧ d ≠ '\'' ∧ d ≠ '"') := by
  unfold matchKeyAt at h
  cases hst : stripCI key s with
  | none => rw [hst] at h; exact absurd h (by simp)
  | some r1 =>
    rw [hst] at h
    simp only [] at h
    obtain ⟨kp, hskp, hkplen, hci⟩ := stripCI_decomp hst
    have hr1split : r1.takeWhile (fun c => jsWS c) ++ r1.dropWhile (fun c => jsWS c) = r1 :=
      List.takeWhile_append_dropWhile ..
    have hwsall : ∀ c ∈ r1.takeWhile (fun c => jsWS c), jsWS c = true :=
      fun c hc => List.mem_takeWhile_imp hc
    obtain ⟨wsv, hwseq⟩ : ∃ w, w = r1.takeWhile (fun c => jsWS c) := ⟨_, rfl⟩
    rw [← hwseq] at hr1split hwsall
    cases hr2 : r1.dropWhile (fun c => jsWS c) with
    | nil =>
      rw [hr2] at h
      simp [takeDigits] at h
    | cons c cs =>
      rw [hr2] at h
      rw [hr2] at hr1split
      simp only [] at h
      split at h
      · exact absurd h (by simp)
      · next ds' r4 htd =>
        split at htd
        · next hcond =>
          obtain ⟨hdseq, hdsne, hr4eq⟩ := takeDigits_some htd
          have hr4d : r4 = cs.dropWhile (fun x => jsDigit x) := by
            rw [hr4eq, hdseq, drop_takeWhile_length]
          have hdsall : ∀ x ∈ ds', jsDigit x = true := by
            intro x hx
            rw [hdseq] at hx
            exact List.mem_takeWhile_imp hx
          have hcssplit : ds' ++ r4 = cs := by
            rw [hdseq, hr4d]
            exact List.takeWhile_append_dropWhile ..
          have hr4head : ∀ x, r4.head? = some x → jsDigit x = false := by
            intro x hx
            rw [hr4d] at hx
            exact head?_dropWhile_not _ _ _ hx
          have hq1c : c = '\'' ∨ c = '"' := by
            simp only [Bool.and_eq_true, Bool.or_eq_true, decide_eq_true_eq] at hcond
            exact hcond.1
          cases hr4c : r4 with
          | nil =>
            rw [hr4c] at h
            simp only [Option.some.injEq, Prod.mk.injEq] at h
            obtain ⟨hlen2, hds2⟩ := h
            subst hds2
            refine ⟨kp, wsv, [c], [], [], ?_, ?_, hkplen, hci,
              hwsall, ?_, hdsne, hdsall, Or.inl rfl, fun _ d r2 hr => by cases hr⟩
            · rw [hskp, ← hr1split, ← hcssplit, hr4c]
              simp
            · rw [← hlen2, hskp, ← hr1split, ← hcssplit, hr4c]
              simp [List.length_append]
              omega
            · rcases hq1c with rfl | rfl
              · exact Or.inr (Or.inl rfl)
              · exact Or.inr (Or.inr rfl)
          | cons c2 cs2 =>
            rw [hr4c] at h
            simp only [] at h
            split at h
            · next hq2 =>
              simp only [Option.some.injEq, Prod.mk.injEq] at h
              obtain ⟨hlen2, hds2⟩ := h
              subst hds2
              refine ⟨kp, wsv, [c], [c2], cs2, ?_, ?_,
                hkplen, hci, hwsall, ?_, hdsne, hdsall, ?_,
                fun hcon => by cases hcon⟩
              · rw [hskp, ← hr1split, ← hcssplit, hr4c]
                simp
              · rw [← hlen2, hskp, ← hr1split, ← hcssplit, hr4c]
                simp [List.length_append]
                omega
              · rcases hq1c with rfl | rfl
                · exact Or.inr (Or.inl rfl)
                · exact Or.inr (Or.inr rfl)
              · rcases hq2 with rfl | rfl
                · exact Or.inr (Or.inl rfl)
                · exact Or.inr (Or.inr rfl)
            · next hq2 =>
              simp only [Option.some.injEq, Prod.mk.injEq] at h
              obtain ⟨hlen2, hds2⟩ := h
              subst hds2
              refine ⟨kp, wsv, [c], [], c2 :: cs2, ?_, ?_,
                hkplen, hci, hwsall, ?_, hdsne, hdsall, Or.inl rfl, ?_⟩
              · rw [hskp, ← hr1split, ← hcssplit, hr4c]
                simp
              · rw [← hlen2, hskp, ← hr1split, ← hcssplit, hr4c]
                simp [List.length_append]
                omega
              · rcases hq1c with rfl | rfl
                · exact Or.inr (Or.inl rfl)
                · exact Or.inr (Or.inr rfl)
              · intro _ d r2 hr
                injection hr with hd2 hr2'
                subst hd2
                refine ⟨hr4head c2 (by rw [hr4c]; rfl), ?_, ?_⟩
                · intro hcon
                  exact hq2 (Or.inl hcon)
                · intro hcon
                  exact hq2 (Or.inr hcon)
        · next hcond =>
          obtain ⟨hdseq, hdsne, hr4eq⟩ := takeDigits_some htd
          have hr4d : r4 = (c :: cs).dropWhile (fun x => jsDigit x) := by
            rw [hr4eq, hdseq, drop_takeWhile_length]
          have hdsall : ∀ x ∈ ds', jsDigit x = true := by
            intro x hx
            rw [hdseq] at hx
            exact List.mem_takeWhile_imp hx
          have hcssplit : ds' ++ r4 = c :: cs := by
            rw [hdseq, hr4d]
            exact List.takeWhile_append_dropWhile ..
          have hr4head : ∀ x, r4.head? = some x → jsDigit x = false := by
            intro x hx
            rw [hr4d] at hx
            exact head?_dropWhile_not _ _ _ hx
          cases hr4c : r4 with
          | nil =>
            rw [hr4c] at h
            simp only [Option.some.injEq, Prod.mk.injEq] at h
            obtain ⟨hlen2, hds2⟩ := h
            subst hds2
            refine ⟨kp, wsv, [], [], [], ?_, ?_, hkplen, hci,
              hwsall, Or.inl rfl, hdsne, hdsall, Or.inl rfl, fun _ d r2 hr => by cases hr⟩
            · rw [hskp, ← hr1split, ← hcssplit, hr4c]
              simp
            · rw [← hlen2, hskp, ← hr1split, ← hcssplit, hr4c]
              simp [List.length_append]
              omega
          | cons c2 cs2 =>
            rw [hr4c] at h
            simp only [] at h
            split at h
            · next hq2 =>
              simp only [Option.some.injEq, Prod.mk.injEq] at h
              obtain ⟨hlen2, hds2⟩ := h
              subst hds2
              refine ⟨kp, wsv, [], [c2], cs2, ?_, ?_,
                hkplen, hci, hwsall, Or.inl rfl, hdsne, hdsall, ?_,
                fun hcon => by cases hcon⟩
              · rw [hskp, ← hr1split, ← hcssplit, hr4c]
                simp
              · rw [← hlen2, hskp, ← hr1split, ← hcssplit, hr4c]
                simp [List.length_append]
                omega
              · rcases hq2 with rfl | rfl
                · exact Or.inr (Or.inl rfl)
                · exact Or.inr (Or.inr rfl)
            · next hq2 =>
              simp only [Option.some.injEq, Prod.mk.injEq] at h
              obtain ⟨hlen2, hds2⟩ := h
              subst hds2
              refine ⟨kp, wsv, [], [], c2 :: cs2, ?_, ?_,
                hkplen, hci, hwsall, Or.inl rfl, hdsne, hdsall, Or.inl rfl, ?_⟩
              · rw [hskp, ← hr1split, ← hcssplit, hr4c]
                simp
              · rw [← hlen2, hskp, ← hr1split, ← hcssplit, hr4c]
                simp [List.length_append]
                omega
              · intro _ d r2 hr
                injection hr with hd2 hr2'
                subst hd2
                refine ⟨hr4head c2 (by rw [hr4c]; rfl), ?_, ?_⟩
                · intro hcon
                  exact hq2 (Or.inl hcon)
                · intro hcon
                  exact hq2 (Or.inr hcon)

theorem matchKeyAt_len {key s : List Char} {len : Nat} {ds : List Char}
    (h : matchKeyAt key s = some (len, ds)) (hk : key ≠ []) :
    1 ≤ len ∧ len ≤ s.length := by
  obtain ⟨kp, ws, q1, q2, rest, hs, hlen, hkp, -, -, -, hdsne, -, -, -⟩ :=
    matchKeyAt_decomp h
  have h1 : 0 < key.length := List.length_pos.mpr hk
  constructor
  · omega
  · rw [hs]
    simp only [List.length_append]
    omega

theorem take_append_le {α : Type} (n : Nat) (l₁ l₂ : List α) (h : n ≤ l₁.length) :
    (l₁ ++ l₂).take n = l₁.take n := by
  induction l₁ generalizing n with
  | nil =>
    have : n = 0 := Nat.le_zero.mp (by simpa using h)
    simp [this]
  | cons a l ih =>
    cases n with
    | zero => simp
    | succ m =>
      simp only [List.cons_append, List.take_succ_cons]
      rw [ih m (by simpa using h)]

theorem drop_append_le {α : Type} (n : Nat) (l₁ l₂ : List α) (h : n ≤ l₁.length) :
    (l₁ ++ l₂).drop n = l₁.drop n ++ l₂ := by
  induction l₁ generalizing n with
  | nil =>
    have : n = 0 := Nat.le_zero.mp (by simpa using h)
    simp [this]
  | cons a l ih =>
    cases n with
    | zero => simp
    | succ m =>
      simp only [List.cons_append, List.drop_succ_cons]
      rw [ih m (by simpa using h)]

theorem replaceAllKeyAux_blocks (key Q : List Char) (hkey : key ≠ []) :
    ∀ fuel s, s.length ≤ fuel →
      Blocks key Q s (replaceAllKeyAux key Q fuel s) := by
  intro fuel
  induction fuel with
  | zero =>
    intro s hs
    have hnil : s = [] := List.length_eq_zero.mp (Nat.le_zero.mp hs)
    subst hnil
    exact Blocks.nil
  | succ fuel ih =>
    intro s hs
    cases s with
    | nil => exact Blocks.nil
    | cons c cs =>
      simp only [replaceAllKeyAux]
      cases hm : matchKeyAt key (c :: cs) with
      | none =>
        exact Blocks.lit c cs _ hm
          (ih cs (by simp only [List.length_cons] at hs; omega))
      | some p =>
        obtain ⟨len, ds0⟩ := p
        simp only []
        obtain ⟨hge, hle⟩ := matchKeyAt_len hm hkey
        have hdrop : cs.drop (len - 1) = (c :: cs).drop len := by
          cases len with
          | zero => exact absurd hge (by norm_num)
          | succ n => rfl
        rw [hdrop]
        refine Blocks.rep (c :: cs) _ len ds0 hm (ih _ ?_)
        rw [List.length_drop]
        simp only [List.length_cons] at hs ⊢
        omega

theorem blocks_view {key Q : List Char} {s u : List Char} (hb : Blocks key Q s u) :
    ∃ lp s2 u2, s = lp ++ s2 ∧ u = lp ++ u2 ∧
      ((s2 = [] ∧ u2 = []) ∨
        ∃ len0 ds0 u3, matchKeyAt key s2 = some (len0, ds0) ∧ u2 = Q ++ u3) := by
  induction hb with
  | nil => exact ⟨[], [], [], rfl, rfl, Or.inl ⟨rfl, rfl⟩⟩
  | lit c s u hnone hb ih =>
    obtain ⟨lp, s2, u2, hs, hu, hc⟩ := ih
    exact ⟨c :: lp, s2, u2, by simp [hs], by simp [hu], hc⟩
  | rep s u len0 ds0 hm hb ih =>
    exact ⟨[], s, Q ++ u, rfl, rfl, Or.inr ⟨len0, ds0, u, hm, rfl⟩⟩

theorem kp_blk {key kp : List Char}
    (hkb : ∀ k ∈ key, jsDigit (lcChar k) = false ∧ lcChar k ≠ '\'' ∧
      lcChar k ≠ '"' ∧ jsWS (lcChar k) = false)
    (hkp : kp.length = key.length)
    (hci : ∀ j (hj : j < key.length) (hj2 : j < kp.length),
      ciEq (key.get ⟨j, hj⟩) (kp.get ⟨j, hj2⟩) = true) :
    ∀ x ∈ kp, blkChar x = true := by
  intro x hx
  obtain ⟨⟨j, hj⟩, hgx⟩ := List.mem_iff_get.mp hx
  have hj2 : j < key.length := by omega
  have hc := hci j hj2 hj
  rw [hgx] at hc
  exact blk_of_ciEq (hkb _ (key.get_mem j hj2)) hc

theorem window_not_blk {ws q1 ds q2 : List Char}
    (hws : ∀ c ∈ ws, jsWS c = true)
    (hq1 : q1 = [] ∨ q1 = ['\''] ∨ q1 = ['"'])
    (hds : ∀ c ∈ ds, jsDigit c = true)
    (hq2 : q2 = [] ∨ q2 = ['\''] ∨ q2 = ['"']) :
    ∀ x ∈ ws ++ (q1 ++ (ds ++ q2)), blkChar x = false := by
  intro x hx
  cases hblk : blkChar x
  · rfl
  · exfalso
    obtain ⟨hd, hq, hq', hw⟩ := blkChar_spec.mp hblk
    simp only [List.mem_append] at hx
    rcases hx with hx | hx | hx | hx
    · exact absurd (hws x hx) (by rw [hw]; simp)
    · rcases hq1 with rfl | rfl | rfl
      · simp at hx
      · simp only [List.mem_singleton] at hx
        exact hq hx
      · simp only [List.mem_singleton] at hx
        exact hq' hx
    · exact absurd (hds x hx) (by rw [hd]; simp)
    · rcases hq2 with rfl | rfl | rfl
      · simp at hx
      · simp only [List.mem_singleton] at hx
        exact hq hx
      · simp only [List.mem_singleton] at hx
        exact hq' hx

theorem match_head_blk {key s2 : List Char} {len0 : Nat} {ds0 : List Char}
    (hkb : ∀ k ∈ key, jsDigit (lcChar k) = false ∧ lcChar k ≠ '\'' ∧
      lcChar k ≠ '"' ∧ jsWS (lcChar k) = false)
    (hkeyne : key ≠ [])
    (hm : matchKeyAt key s2 = some (len0, ds0)) :
    ∀ d r2, s2 = d :: r2 → blkChar d = true := by
  intro d r2 hdr
  obtain ⟨kp2, ws2, q12, q22, rest2, hs2eq, -, hkp2len, hci2, -, -, -, -, -, -⟩ :=
    matchKeyAt_decomp hm
  cases hkp2 : kp2 with
  | nil =>
    rw [hkp2] at hkp2len
    exact absurd (List.length_eq_zero.mp hkp2len.symm) hkeyne
  | cons k0 kr =>
    subst hkp2
    have hk0 : 0 < key.length := List.length_pos.mpr hkeyne
    have hc0 := hci2 0 hk0 (by simp)
    have hc0' : ciEq (key.get ⟨0, hk0⟩) k0 = true := hc0
    have hd0 : d = k0 := by
      rw [hdr] at hs2eq
      injection hs2eq with h1 h2
    rw [hd0]
    exact blk_of_ciEq (hkb _ (key.get_mem 0 hk0)) hc0' 

theorem drop_append_add {α : Type} (l1 l2 : List α) (n : Nat) :
    (l1 ++ l2).drop (l1.length + n) = l2.drop n := by
  induction l1 with
  | nil => simp
  | cons a t ih =>
    have h : (a :: t).length + n = (t.length + n) + 1 := by
      simp [List.length_cons]
      omega
    rw [List.cons_append, h, List.drop_succ_cons, ih]

theorem drop_cons_of_lt {α : Type} (l : List α) (n : Nat) (h : n < l.length) :
    ∃ x xs, l.drop n = x :: xs ∧ x ∈ l := by
  cases hdp : l.drop n with
  | nil =>
    have hlen := List.length_drop n l
    rw [hdp] at hlen
    simp at hlen
    omega
  | cons x xs =>
    refine ⟨x, xs, rfl, ?_⟩
    exact List.mem_of_mem_drop (by rw [hdp]; exact List.mem_cons_self x xs)

/-- Characters of a key, lower-cased, are "block" characters: not digits,
not quotes, not whitespace (the shape both workflow keys have). -/
def keyBlk (key : List Char) : Prop :=
  ∀ x ∈ key, jsDigit (lcChar x) = false ∧ lcChar x ≠ '\'' ∧
    lcChar x ≠ '"' ∧ jsWS (lcChar x) = false

instance (key : List Char) : Decidable (keyBlk key) := by
  unfold keyBlk
  infer_instance

theorem keyNV_keyBlk : keyBlk keyNodeVersion := by decide

theorem keyNE_keyBlk : keyBlk keyNodeEnv := by decide

theorem keyNV_blkAll : ∀ x ∈ keyNodeVersion, blkChar x = true := by decide

theorem keyNE_blkAll : ∀ x ∈ keyNodeEnv, blkChar x = true := by decide

theorem keyNV_ne : keyNodeVersion ≠ [] := by decide

theorem keyNE_ne : keyNodeEnv ≠ [] := by decide

theorem w_not_blk {D : List Char} (hDd : ∀ c ∈ D, jsDigit c = true) :
    ∀ x ∈ (' ' :: '\'' :: (D ++ ['\''])), blkChar x = false := by
  intro x hx
  simp only [List.mem_cons, List.mem_append, List.mem_singleton] at hx
  rcases hx with rfl | rfl | hx | hx2
  · decide
  · decide
  · have := hDd x hx
    simp [blkChar, this]
  · rcases hx2 with rfl | hx3
    · decide
    · simp at hx3

theorem stripCI_append_none : ∀ (p kq : List Char) (j : Nat) (hj1 : j < p.length)
    (hj2 : j < kq.length),
    lcChar (p.get ⟨j, hj1⟩) ≠ lcChar (kq.get ⟨j, hj2⟩) → ∀ tail : List Char,
    stripCI p (kq ++ tail) = none := by
  intro p
  induction p with
  | nil =>
    intro kq j hj1
    simp at hj1
  | cons a ps ih =>
    intro kq j hj1 hj2 hne tail
    cases kq with
    | nil => simp at hj2
    | cons c cs =>
      simp only [List.cons_append, stripCI]
      by_cases hci : ciEq a c = true
      · rw [if_pos hci]
        cases j with
        | zero => exact absurd (ciEq_iff.mp hci) hne
        | succ j2 =>
          have hj1s : j2 < ps.length := by
            simp [List.length_cons] at hj1
            omega
          have hj2s : j2 < cs.length := by
            simp [List.length_cons] at hj2
            omega
          exact ih cs j2 hj1s hj2s hne tail
      · rw [if_neg hci]

theorem matchKeyAt_none_of_stripCI {key s : List Char} (h : stripCI key s = none) :
    matchKeyAt key s = none := by
  unfold matchKeyAt
  rw [h]

theorem matchKeyAt_Q_self {key D : List Char} (hk : key ≠ []) (hDne : D ≠ [])
    (hDd : ∀ c ∈ D, jsDigit c = true) (tail : List Char) :
    matchKeyAt key ((key ++ (' ' :: '\'' :: (D ++ ['\'']))) ++ tail) =
      some (key.length + D.length + 3, D) := by
  have heq : (key ++ (' ' :: '\'' :: (D ++ ['\'']))) ++ tail =
      key ++ ([' '] ++ (['\''] ++ (D ++ (['\''] ++ tail)))) := by simp
  rw [heq]
  have hb := @matchKeyAt_build key key [' '] ['\''] D ['\''] tail rfl
    (fun j hj hj2 => ciEq_refl _)
    (by intro c hc; simp only [List.mem_singleton] at hc; subst hc; decide)
    (Or.inr (Or.inl rfl)) hDne hDd (Or.inr (Or.inl rfl))
    (fun h => absurd h (by simp))
  rw [hb]
  simp only [List.length_singleton]
  have hn : key.length + 1 + 1 + D.length + 1 = key.length + D.length + 3 := by omega
  rw [hn]

theorem q1_shape (T : Nat) : "node-version: '".data ++ natDigits T ++ ['\''] =
    keyNodeVersion ++ (' ' :: '\'' :: (natDigits T ++ ['\''])) := by
  have h : "node-version: '".data = keyNodeVersion ++ [' ', '\''] := by decide
  rw [h]
  simp

theorem q2_shape (T : Nat) : "NODE_VERSION: '".data ++ natDigits T ++ ['\''] =
    keyNodeEnv ++ (' ' :: '\'' :: (natDigits T ++ ['\''])) := by
  have h : "NODE_VERSION: '".data = keyNodeEnv ++ [' ', '\''] := by decide
  rw [h]
  simp

theorem findFirstAt_isSome {α : Type} (m : List Char → Option α) :
    ∀ {s : List Char} {i : Nat} {a : α}, m (s.drop i) = some a →
    (findFirstAt m s).isSome = true := by
  intro s
  induction s with
  | nil =>
    intro i a h
    rw [List.drop_nil] at h
    simp [findFirstAt, h]
  | cons c cs ih =>
    intro i a h
    cases hm : m (c :: cs) with
    | some b => simp [findFirstAt, hm]
    | none =>
      cases i with
      | zero =>
        rw [List.drop_zero] at h
        rw [hm] at h
        exact absurd h (by simp)
      | succ i2 =>
        have := ih h
        simp only [findFirstAt, hm]
        simpa using this

theorem replaceAllKey_blocks (key Q : List Char) (hk : key ≠ []) (s : List Char) :
    Blocks key Q s (replaceAllKey key Q s) := by
  unfold replaceAllKey
  exact replaceAllKeyAux_blocks key Q hk s.length s le_rfl

theorem no_key_inside {key2 kq D : List Char} {i : Nat}
    (hkb2 : keyBlk key2) (hk2ne : key2 ≠ [])
    (hl2 : key2.length = kq.length)
    (hDd : ∀ c ∈ D, jsDigit c = true)
    (h0 : 0 < i) (hiQ : i < kq.length + D.length + 3) (tail : List Char)
    {l : Nat} {ds : List Char}
    (hm : matchKeyAt key2 ((kq ++ ((' ' :: '\'' :: (D ++ ['\''])) ++ tail)).drop i) =
      some (l, ds)) : False := by
  by_cases hik : i < kq.length
  · have hdrop : (kq ++ ((' ' :: '\'' :: (D ++ ['\''])) ++ tail)).drop i =
        kq.drop i ++ ((' ' :: '\'' :: (D ++ ['\''])) ++ tail) :=
      drop_append_le i _ _ (le_of_lt hik)
    rw [hdrop] at hm
    obtain ⟨kp, ws, q1, q2, rest, hseq, hlenc, hkplen, hci, -, -, -, -, -, -⟩ :=
      matchKeyAt_decomp hm
    have hkpblk : ∀ x ∈ kp, blkChar x = true := kp_blk hkb2 hkplen hci
    have hn : (kq.drop i).length < kp.length := by
      rw [List.length_drop, hkplen, hl2]
      omega
    have h1 : (kq.drop i ++ ((' ' :: '\'' :: (D ++ ['\''])) ++ tail)).drop
        (kq.drop i).length = (' ' :: '\'' :: (D ++ ['\''])) ++ tail :=
      List.drop_left _ _
    have h2 : (kp ++ (ws ++ (q1 ++ (ds ++ (q2 ++ rest))))).drop (kq.drop i).length =
        kp.drop (kq.drop i).length ++ (ws ++ (q1 ++ (ds ++ (q2 ++ rest)))) :=
      drop_append_le _ _ _ (le_of_lt hn)
    obtain ⟨x, xs, hx, hxmem⟩ := drop_cons_of_lt kp (kq.drop i).length hn
    have hcomb : (' ' :: '\'' :: (D ++ ['\''])) ++ tail =
        x :: (xs ++ (ws ++ (q1 ++ (ds ++ (q2 ++ rest))))) := by
      rw [← h1, hseq, h2, hx]
      simp
    have hxsp : ' ' = x := by
      have hh := congrArg List.head? hcomb
      simp at hh
      exact hh
    have hxblk := hkpblk x hxmem
    rw [← hxsp] at hxblk
    exact absurd hxblk (by decide)
  · push_neg at hik
    have hdrop : (kq ++ ((' ' :: '\'' :: (D ++ ['\''])) ++ tail)).drop i =
        ((' ' :: '\'' :: (D ++ ['\''])) ++ tail).drop (i - kq.length) := by
      have h : i = kq.length + (i - kq.length) := by omega
      conv_lhs => rw [h]
      rw [drop_append_add]
    have hjlt : i - kq.length < (' ' :: '\'' :: (D ++ ['\''])).length := by
      simp only [List.length_cons, List.length_append, List.length_singleton]
      omega
    have hdrop2 : ((' ' :: '\'' :: (D ++ ['\''])) ++ tail).drop (i - kq.length) =
        (' ' :: '\'' :: (D ++ ['\''])).drop (i - kq.length) ++ tail :=
      drop_append_le _ _ _ (le_of_lt hjlt)
    obtain ⟨x, xs, hx, hxmem⟩ := drop_cons_of_lt _ (i - kq.length) hjlt
    rw [hdrop, hdrop2, hx] at hm
    have hblk := match_head_blk hkb2 hk2ne hm x (xs ++ tail) rfl
    have hnb := w_not_blk hDd x hxmem
    rw [hblk] at hnb
    exact absurd hnb (by decide)


theorem match_transfer {k key2 Q kq D : List Char} {s' u' : List Char} {c : Char}
    {l : Nat} {ds : List Char}
    (hkbk : keyBlk k) (hkne : k ≠ [])
    (hkb2 : keyBlk key2)
    (hQ : Q = kq ++ (' ' :: '\'' :: (D ++ ['\''])))
    (hkq : ∀ x ∈ kq, blkChar x = true) (hkqne : kq ≠ [])
    (hl2 : key2.length = kq.length)
    (hb : Blocks k Q s' u')
    (hm : matchKeyAt key2 (c :: u') = some (l, ds)) :
    ∃ l2, matchKeyAt key2 (c :: s') = some (l2, ds) := by
  obtain ⟨lp, s2, u2, hse, hue, hcase⟩ := blocks_view hb
  obtain ⟨kp, ws, q1, q2, rest, hceq, hlenc, hkplen, hci, hws, hq1, hdsne, hdsd, hq2, hrest⟩ :=
    matchKeyAt_decomp hm
  rcases hcase with ⟨hs2, hu2⟩ | ⟨len0, ds0, u3, hm0, hu2⟩
  · refine ⟨l, ?_⟩
    rw [show c :: s' = c :: u' from by rw [hse, hue, hs2, hu2]]
    exact hm
  · have hflat : c :: u' = (kp ++ (ws ++ (q1 ++ (ds ++ q2)))) ++ rest := by
      rw [hceq]
      simp [List.append_assoc]
    have hcu : (c :: lp) ++ u2 = (kp ++ (ws ++ (q1 ++ (ds ++ q2)))) ++ rest := by
      rw [List.cons_append, ← hue]
      exact hflat
    by_cases hcmp : (kp ++ (ws ++ (q1 ++ (ds ++ q2)))).length ≤ (c :: lp).length
    · -- the whole window lies in the shared literal prefix
      have htake : (c :: lp).take (kp ++ (ws ++ (q1 ++ (ds ++ q2)))).length =
          kp ++ (ws ++ (q1 ++ (ds ++ q2))) := by
        have h1 := take_append_le (kp ++ (ws ++ (q1 ++ (ds ++ q2)))).length (c :: lp) u2 hcmp
        rw [hcu, List.take_left] at h1
        exact h1.symm
      have hdropeq : (c :: lp).drop (kp ++ (ws ++ (q1 ++ (ds ++ q2)))).length ++ u2 =
          rest := by
        have h1 := drop_append_le (kp ++ (ws ++ (q1 ++ (ds ++ q2)))).length (c :: lp) u2 hcmp
        rw [hcu, List.drop_left] at h1
        exact h1.symm
      have hrestS : q2 = [] → ∀ d r2,
          ((c :: lp).drop (kp ++ (ws ++ (q1 ++ (ds ++ q2)))).length ++ s2) = d :: r2 →
          jsDigit d = false ∧ d ≠ '\'' ∧ d ≠ '"' := by
        intro hq2nil d r2 hdr
        cases hmq : (c :: lp).drop (kp ++ (ws ++ (q1 ++ (ds ++ q2)))).length with
        | cons x xs =>
          rw [hmq] at hdr hdropeq
          have hxd : x = d := by
            have hh := congrArg List.head? hdr
            simp at hh
            exact hh
          subst hxd
          exact hrest hq2nil x (xs ++ u2) (by rw [← hdropeq, List.cons_append])
        | nil =>
          rw [hmq, List.nil_append] at hdr
          have hblk := match_head_blk hkbk hkne hm0 d r2 hdr
          rw [blkChar_spec] at hblk
          exact ⟨hblk.1, hblk.2.1, hblk.2.2.1⟩
      have hsplit : c :: s' = kp ++ (ws ++ (q1 ++ (ds ++ (q2 ++
          ((c :: lp).drop (kp ++ (ws ++ (q1 ++ (ds ++ q2)))).length ++ s2))))) := by
        rw [hse, ← List.cons_append]
        conv_lhs => rw [← List.take_append_drop
          (kp ++ (ws ++ (q1 ++ (ds ++ q2)))).length (c :: lp)]
        rw [htake]
        simp [List.append_assoc]
      refine ⟨kp.length + ws.length + q1.length + ds.length + q2.length, ?_⟩
      rw [hsplit]
      exact @matchKeyAt_build key2 kp ws q1 ds q2
        ((c :: lp).drop (kp ++ (ws ++ (q1 ++ (ds ++ q2)))).length ++ s2)
        hkplen hci hws hq1 hdsne hdsd hq2 hrestS
    · -- the window would cross into the replacement block: impossible
      push_neg at hcmp
      exfalso
      subst hu2
      by_cases hB : kp.length ≤ (c :: lp).length
      · -- the block boundary falls in the non-blk part of the window
        have h1 : Q ++ u3 = (kp ++ (ws ++ (q1 ++ (ds ++ q2)))).drop (c :: lp).length ++
            rest := by
          have h2 := drop_append_le (c :: lp).length
            (kp ++ (ws ++ (q1 ++ (ds ++ q2)))) rest (le_of_lt hcmp)
          rw [← hcu, List.drop_left] at h2
          exact h2
        have hWdrop : (kp ++ (ws ++ (q1 ++ (ds ++ q2)))).drop (c :: lp).length =
            (ws ++ (q1 ++ (ds ++ q2))).drop ((c :: lp).length - kp.length) := by
          have h : (c :: lp).length = kp.length + ((c :: lp).length - kp.length) := by
            omega
          conv_lhs => rw [h]
          rw [drop_append_add]
        have hnblt : (c :: lp).length - kp.length < (ws ++ (q1 ++ (ds ++ q2))).length := by
          have hWl : (kp ++ (ws ++ (q1 ++ (ds ++ q2)))).length =
              kp.length + (ws ++ (q1 ++ (ds ++ q2))).length := by
            rw [List.length_append]
          omega
        obtain ⟨x, xs, hx, hxmem⟩ := drop_cons_of_lt _ ((c :: lp).length - kp.length) hnblt
        have hxnb : blkChar x = false := window_not_blk hws hq1 hdsd hq2 x hxmem
        rw [hWdrop, hx] at h1
        cases hkq0 : kq with
        | nil => exact hkqne hkq0
        | cons k0 kr =>
          rw [hQ, hkq0] at h1
          have hx0 : k0 = x := by
            have hh := congrArg List.head? h1
            simp at hh
            exact hh
          have hk0blk := hkq k0 (by rw [hkq0]; exact List.mem_cons_self _ _)
          rw [← hx0, hk0blk] at hxnb
          exact absurd hxnb (by decide)
      · push_neg at hB
        -- the char at the end of the key part of the window is a key char of Q
        have h1 : ((c :: lp) ++ (Q ++ u3)).drop kp.length =
            (ws ++ (q1 ++ (ds ++ q2))) ++ rest := by
          rw [hcu, List.append_assoc, List.drop_left]
        have h2 : ((c :: lp) ++ (Q ++ u3)).drop kp.length =
            (Q ++ u3).drop (kp.length - (c :: lp).length) := by
          have h : kp.length = (c :: lp).length + (kp.length - (c :: lp).length) := by
            omega
          conv_lhs => rw [h]
          rw [drop_append_add]
        have hjkq : kp.length - (c :: lp).length < kq.length := by
          rw [hkplen, hl2]
          have hBpos : 0 < (c :: lp).length := by simp
          omega
        have hQdrop : (Q ++ u3).drop (kp.length - (c :: lp).length) =
            kq.drop (kp.length - (c :: lp).length) ++
              ((' ' :: '\'' :: (D ++ ['\''])) ++ u3) := by
          rw [hQ, List.append_assoc]
          exact drop_append_le _ _ _ (le_of_lt hjkq)
        obtain ⟨z, zs, hz, hzmem⟩ := drop_cons_of_lt kq (kp.length - (c :: lp).length) hjkq
        have hzblk := hkq z hzmem
        have hcomb : (ws ++ (q1 ++ (ds ++ q2))) ++ rest =
            z :: (zs ++ ((' ' :: '\'' :: (D ++ ['\''])) ++ u3)) := by
          rw [← h1, h2, hQdrop, hz]
          simp
        cases hnb0 : ws ++ (q1 ++ (ds ++ q2)) with
        | nil =>
          simp at hnb0
          exact hdsne hnb0.2.2.1
        | cons y ys =>
          have hymem : y ∈ ws ++ (q1 ++ (ds ++ q2)) := by
            rw [hnb0]
            exact List.mem_cons_self _ _
          have hynb := window_not_blk hws hq1 hdsd hq2 y hymem
          rw [hnb0] at hcomb
          have hyz : y = z := by
            have hh := congrArg List.head? hcomb
            simp at hh
            exact hh
          rw [hyz, hzblk] at hynb
          exact absurd hynb (by decide)

theorem match_transfer_rev {k key2 Q kq D : List Char} {s' u' : List Char} {c : Char}
    {l : Nat} {ds : List Char}
    (hkbk : keyBlk k) (hkne : k ≠ [])
    (hkb2 : keyBlk key2)
    (hQ : Q = kq ++ (' ' :: '\'' :: (D ++ ['\''])))
    (hkq : ∀ x ∈ kq, blkChar x = true) (hkqne : kq ≠ [])
    (hl2 : key2.length = kq.length) (hlk : k.length = kq.length)
    (hb : Blocks k Q s' u')
    (hm : matchKeyAt key2 (c :: s') = some (l, ds)) :
    ∃ l2, matchKeyAt key2 (c :: u') = some (l2, ds) := by
  obtain ⟨lp, s2, u2, hse, hue, hcase⟩ := blocks_view hb
  obtain ⟨kp, ws, q1, q2, rest, hceq, hlenc, hkplen, hci, hws, hq1, hdsne, hdsd, hq2, hrest⟩ :=
    matchKeyAt_decomp hm
  rcases hcase with ⟨hs2, hu2⟩ | ⟨len0, ds0, u3, hm0, hu2⟩
  · refine ⟨l, ?_⟩
    rw [show c :: u' = c :: s' from by rw [hse, hue, hs2, hu2]]
    exact hm
  · have hflat : c :: s' = (kp ++ (ws ++ (q1 ++ (ds ++ q2)))) ++ rest := by
      rw [hceq]
      simp [List.append_assoc]
    have hcu : (c :: lp) ++ s2 = (kp ++ (ws ++ (q1 ++ (ds ++ q2)))) ++ rest := by
      rw [List.cons_append, ← hse]
      exact hflat
    by_cases hcmp : (kp ++ (ws ++ (q1 ++ (ds ++ q2)))).length ≤ (c :: lp).length
    · -- the whole window lies in the shared literal prefix
      have htake : (c :: lp).take (kp ++ (ws ++ (q1 ++ (ds ++ q2)))).length =
          kp ++ (ws ++ (q1 ++ (ds ++ q2))) := by
        have h1 := take_append_le (kp ++ (ws ++ (q1 ++ (ds ++ q2)))).length (c :: lp) s2 hcmp
        rw [hcu, List.take_left] at h1
        exact h1.symm
      have hdropeq : (c :: lp).drop (kp ++ (ws ++ (q1 ++ (ds ++ q2)))).length ++ s2 =
          rest := by
        have h1 := drop_append_le (kp ++ (ws ++ (q1 ++ (ds ++ q2)))).length (c :: lp) s2 hcmp
        rw [hcu, List.drop_left] at h1
        exact h1.symm
      have hrestU : q2 = [] → ∀ d r2,
          ((c :: lp).drop (kp ++ (ws ++ (q1 ++ (ds ++ q2)))).length ++ u2) = d :: r2 →
          jsDigit d = false ∧ d ≠ '\'' ∧ d ≠ '"' := by
        intro hq2nil d r2 hdr
        cases hmq : (c :: lp).drop (kp ++ (ws ++ (q1 ++ (ds ++ q2)))).length with
        | cons x xs =>
          rw [hmq] at hdr hdropeq
          have hxd : x = d := by
            have hh := congrArg List.head? hdr
            simp at hh
            exact hh
          subst hxd
          exact hrest hq2nil x (xs ++ s2) (by rw [← hdropeq, List.cons_append])
        | nil =>
          rw [hmq, List.nil_append] at hdr
          rw [hu2] at hdr
          cases hkq0 : kq with
          | nil => exact absurd hkq0 hkqne
          | cons k0 kr =>
            rw [hQ, hkq0] at hdr
            have hdk : k0 = d := by
              have hh := congrArg List.head? hdr
              simp at hh
              exact hh
            have hk0blk := hkq k0 (by rw [hkq0]; exact List.mem_cons_self _ _)
            rw [hdk, blkChar_spec] at hk0blk
            exact ⟨hk0blk.1, hk0blk.2.1, hk0blk.2.2.1⟩
      have hsplit : c :: u' = kp ++ (ws ++ (q1 ++ (ds ++ (q2 ++
          ((c :: lp).drop (kp ++ (ws ++ (q1 ++ (ds ++ q2)))).length ++ u2))))) := by
        rw [hue, ← List.cons_append]
        conv_lhs => rw [← List.take_append_drop
          (kp ++ (ws ++ (q1 ++ (ds ++ q2)))).length (c :: lp)]
        rw [htake]
        simp [List.append_assoc]
      refine ⟨kp.length + ws.length + q1.length + ds.length + q2.length, ?_⟩
      rw [hsplit]
      exact @matchKeyAt_build key2 kp ws q1 ds q2
        ((c :: lp).drop (kp ++ (ws ++ (q1 ++ (ds ++ q2)))).length ++ u2)
        hkplen hci hws hq1 hdsne hdsd hq2 hrestU
    · -- the window would cross into the matched region of s: impossible
      push_neg at hcmp
      exfalso
      obtain ⟨kp2, ws2, q12, q22, rest2, hs2eq, hlen0c, hkp2len, hci2, -, -, -, -, -, -⟩ :=
        matchKeyAt_decomp hm0
      have hkp2blk : ∀ x ∈ kp2, blkChar x = true := kp_blk hkbk hkp2len hci2
      by_cases hB : kp.length ≤ (c :: lp).length
      · -- the boundary char: head of s2 is a key char, but sits in the non-blk part
        have h1 : s2 = (kp ++ (ws ++ (q1 ++ (ds ++ q2)))).drop (c :: lp).length ++
            rest := by
          have h2 := drop_append_le (c :: lp).length
            (kp ++ (ws ++ (q1 ++ (ds ++ q2)))) rest (le_of_lt hcmp)
          rw [← hcu, List.drop_left] at h2
          exact h2
        have hWdrop : (kp ++ (ws ++ (q1 ++ (ds ++ q2)))).drop (c :: lp).length =
            (ws ++ (q1 ++ (ds ++ q2))).drop ((c :: lp).length - kp.length) := by
          have h : (c :: lp).length = kp.length + ((c :: lp).length - kp.length) := by
            omega
          conv_lhs => rw [h]
          rw [drop_append_add]
        have hnblt : (c :: lp).length - kp.length < (ws ++ (q1 ++ (ds ++ q2))).length := by
          have hWl : (kp ++ (ws ++ (q1 ++ (ds ++ q2)))).length =
              kp.length + (ws ++ (q1 ++ (ds ++ q2))).length := by
            rw [List.length_append]
          omega
        obtain ⟨x, xs, hx, hxmem⟩ := drop_cons_of_lt _ ((c :: lp).length - kp.length) hnblt
        have hxnb : blkChar x = false := window_not_blk hws hq1 hdsd hq2 x hxmem
        rw [hWdrop, hx] at h1
        cases hkp20 : kp2 with
        | nil =>
          rw [hkp20] at hkp2len
          have := List.length_pos.mpr hkne
          simp at hkp2len
          omega
        | cons k0 kr =>
          rw [hs2eq, hkp20] at h1
          have hx0 : k0 = x := by
            have hh := congrArg List.head? h1
            simp at hh
            exact hh
          have hk0blk := hkp2blk k0 (by rw [hkp20]; exact List.mem_cons_self _ _)
          rw [← hx0, hk0blk] at hxnb
          exact absurd hxnb (by decide)
      · push_neg at hB
        have h1 : ((c :: lp) ++ s2).drop kp.length =
            (ws ++ (q1 ++ (ds ++ q2))) ++ rest := by
          rw [hcu, List.append_assoc, List.drop_left]
        have h2 : ((c :: lp) ++ s2).drop kp.length =
            s2.drop (kp.length - (c :: lp).length) := by
          have h : kp.length = (c :: lp).length + (kp.length - (c :: lp).length) := by
            omega
          conv_lhs => rw [h]
          rw [drop_append_add]
        have hjkp2 : kp.length - (c :: lp).length < kp2.length := by
          rw [hkplen, hl2, ← hlk, ← hkp2len]
          have hBpos : 0 < (c :: lp).length := by simp
          omega
        have hs2drop : s2.drop (kp.length - (c :: lp).length) =
            kp2.drop (kp.length - (c :: lp).length) ++
              (ws2 ++ (q12 ++ (ds0 ++ (q22 ++ rest2)))) := by
          rw [hs2eq]
          exact drop_append_le _ _ _ (le_of_lt hjkp2)
        obtain ⟨z, zs, hz, hzmem⟩ := drop_cons_of_lt kp2 (kp.length - (c :: lp).length) hjkp2
        have hzblk := hkp2blk z hzmem
        have hcomb : (ws ++ (q1 ++ (ds ++ q2))) ++ rest =
            z :: (zs ++ (ws2 ++ (q12 ++ (ds0 ++ (q22 ++ rest2))))) := by
          rw [← h1, h2, hs2drop, hz]
          simp
        cases hnb0 : ws ++ (q1 ++ (ds ++ q2)) with
        | nil =>
          simp at hnb0
          exact hdsne hnb0.2.2.1
        | cons y ys =>
          have hymem : y ∈ ws ++ (q1 ++ (ds ++ q2)) := by
            rw [hnb0]
            exact List.mem_cons_self _ _
          have hynb := window_not_blk hws hq1 hdsd hq2 y hymem
          rw [hnb0] at hcomb
          have hyz : y = z := by
            have hh := congrArg List.head? hcomb
            simp at hh
            exact hh
          rw [hyz, hzblk] at hynb
          exact absurd hynb (by decide)


theorem keys_noboth : ∀ (t : List Char) (l : Nat) (ds : List Char) (l2 : Nat)
    (ds2 : List Char), matchKeyAt keyNodeVersion t = some (l, ds) →
    matchKeyAt keyNodeEnv t = some (l2, ds2) → False := by
  intro t l ds l2 ds2 h1 h2
  obtain ⟨kp1, ws1, q11, q21, r1, ht1, -, hkp1len, hci1, -, -, -, -, -, -⟩ :=
    matchKeyAt_decomp h1
  obtain ⟨kp2, ws2, q12, q22, r2, ht2, -, hkp2len, hci2, -, -, -, -, -, -⟩ :=
    matchKeyAt_decomp h2
  have hkp1 : t.take keyNodeVersion.length = kp1 := by
    rw [ht1, ← hkp1len, List.take_left]
  have hkp2 : t.take keyNodeEnv.length = kp2 := by
    rw [ht2, ← hkp2len, List.take_left]
  have hlen13 : keyNodeVersion.length = keyNodeEnv.length := by decide
  have hkpeq : kp1 = kp2 := by
    rw [← hkp1, ← hkp2, hlen13]
  have h4a : (4 : Nat) < kp1.length := by
    rw [hkp1len]
    decide
  have h4b : (4 : Nat) < kp2.length := by
    rw [hkp2len]
    decide
  have hA := hci1 4 (by decide) h4a
  have hB := hci2 4 (by decide) h4b
  rw [ciEq_iff] at hA hB
  subst hkpeq
  exact absurd (hA.trans hB.symm) (by decide)

theorem qhead_self_nv (T : Nat) : ∀ (tail : List Char) (l : Nat) (ds : List Char),
    matchKeyAt keyNodeVersion
      ((keyNodeVersion ++ (' ' :: '\'' :: (natDigits T ++ ['\'']))) ++ tail) =
        some (l, ds) →
    digitsToNat ds = T := by
  intro tail l ds h
  have h2 := matchKeyAt_Q_self keyNV_ne (natDigits_ne_nil T) (natDigits_digits T) tail
  rw [h] at h2
  simp only [Option.some.injEq, Prod.mk.injEq] at h2
  rw [h2.2, digitsToNat_natDigits]

theorem qhead_self_ne (T : Nat) : ∀ (tail : List Char) (l : Nat) (ds : List Char),
    matchKeyAt keyNodeEnv
      ((keyNodeEnv ++ (' ' :: '\'' :: (natDigits T ++ ['\'']))) ++ tail) =
        some (l, ds) →
    digitsToNat ds = T := by
  intro tail l ds h
  have h2 := matchKeyAt_Q_self keyNE_ne (natDigits_ne_nil T) (natDigits_digits T) tail
  rw [h] at h2
  simp only [Option.some.injEq, Prod.mk.injEq] at h2
  rw [h2.2, digitsToNat_natDigits]

theorem qhead_other (T : Nat) : ∀ (tail : List Char) (l : Nat) (ds : List Char),
    matchKeyAt keyNodeVersion
      ((keyNodeEnv ++ (' ' :: '\'' :: (natDigits T ++ ['\'']))) ++ tail) =
        some (l, ds) →
    digitsToNat ds = T := by
  intro tail l ds h
  have hn : matchKeyAt keyNodeVersion
      ((keyNodeEnv ++ (' ' :: '\'' :: (natDigits T ++ ['\'']))) ++ tail) = none := by
    rw [List.append_assoc]
    exact matchKeyAt_none_of_stripCI
      (stripCI_append_none keyNodeVersion keyNodeEnv 4 (by decide) (by decide)
        (by decide) _)
  rw [h] at hn
  exact absurd hn (by simp)

theorem blocks_occAll {k key2 Q kq D : List Char} {T : Nat}
    (hkbk : keyBlk k) (hkne : k ≠ [])
    (hkb2 : keyBlk key2) (hk2ne : key2 ≠ [])
    (hQ : Q = kq ++ (' ' :: '\'' :: (D ++ ['\''])))
    (hkq : ∀ x ∈ kq, blkChar x = true) (hkqne : kq ≠ [])
    (hl2 : key2.length = kq.length)
    (hDd : ∀ c ∈ D, jsDigit c = true)
    (hQhead : ∀ (tail : List Char) (l : Nat) (ds : List Char),
      matchKeyAt key2 (Q ++ tail) = some (l, ds) → digitsToNat ds = T) :
    ∀ {s u : List Char}, Blocks k Q s u →
      (∀ i l ds, matchKeyAt k (s.drop i) = none →
        matchKeyAt key2 (s.drop i) = some (l, ds) → digitsToNat ds = T) →
      occAllT key2 T u := by
  intro s u hb
  induction hb with
  | nil =>
    intro hS i l ds hm
    rw [List.drop_nil, matchKeyAt_nil hk2ne] at hm
    exact absurd hm (by simp)
  | lit c s u hnone hbt ih =>
    intro hS i l ds hm
    cases i with
    | zero =>
      rw [List.drop_zero] at hm
      obtain ⟨l2, hms⟩ := match_transfer hkbk hkne hkb2 hQ hkq hkqne hl2 hbt hm
      exact hS 0 l2 ds hnone hms
    | succ i2 =>
      exact ih (fun j l3 ds3 hn hm2 => hS (j + 1) l3 ds3 hn hm2) i2 l ds hm
  | rep s u len0 ds0 hm0 hbt ih =>
    intro hS i l ds hm
    by_cases hiQ : i < Q.length
    · rcases Nat.eq_zero_or_pos i with rfl | hpos
      · rw [List.drop_zero] at hm
        exact hQhead u l ds hm
      · exfalso
        have hQlen : Q.length = kq.length + D.length + 3 := by
          rw [hQ]
          simp only [List.length_append, List.length_cons, List.length_nil,
            List.length_singleton]
          omega
        rw [hQ, List.append_assoc] at hm
        exact no_key_inside hkb2 hk2ne hl2 hDd hpos (by omega) u hm
    · push_neg at hiQ
      have hdrop : (Q ++ u).drop i = u.drop (i - Q.length) := by
        have h : i = Q.length + (i - Q.length) := by omega
        conv_lhs => rw [h]
        rw [drop_append_add]
      rw [hdrop] at hm
      refine ih (fun j l3 ds3 hn hm2 => ?_) (i - Q.length) l ds hm
      rw [List.drop_drop] at hn hm2
      exact hS (len0 + j) l3 ds3 hn hm2

theorem blocks_hasQ {k Q : List Char} (hkne : k ≠ [])
    (hQsome : ∀ tail : List Char, ∃ l ds, matchKeyAt k (Q ++ tail) = some (l, ds)) :
    ∀ {s u : List Char}, Blocks k Q s u →
      ∀ i (l : Nat) (ds : List Char), matchKeyAt k (s.drop i) = some (l, ds) →
      occSome k u := by
  intro s u hb
  induction hb with
  | nil =>
    intro i l ds hm
    rw [List.drop_nil, matchKeyAt_nil hkne] at hm
    exact absurd hm (by simp)
  | lit c s u hnone hbt ih =>
    intro i l ds hm
    cases i with
    | zero =>
      rw [List.drop_zero, hnone] at hm
      exact absurd hm (by simp)
    | succ i2 =>
      obtain ⟨j, l2, ds2, hj⟩ := ih i2 l ds hm
      exact ⟨j + 1, l2, ds2, hj⟩
  | rep s u len0 ds0 hm0 hbt ih =>
    intro i l ds hm
    obtain ⟨l2, ds2, h2⟩ := hQsome u
    exact ⟨0, l2, ds2, by rw [List.drop_zero]; exact h2⟩

theorem blocks_exists {k key2 Q kq D : List Char}
    (hkbk : keyBlk k) (hkne : k ≠ [])
    (hkb2 : keyBlk key2) (hk2ne : key2 ≠ [])
    (hQ : Q = kq ++ (' ' :: '\'' :: (D ++ ['\''])))
    (hkq : ∀ x ∈ kq, blkChar x = true) (hkqne : kq ≠ [])
    (hl2 : key2.length = kq.length) (hlk : k.length = kq.length)
    (hnoboth : ∀ (t : List Char) (l : Nat) (ds : List Char) (l2 : Nat) (ds2 : List Char),
      matchKeyAt k t = some (l, ds) → matchKeyAt key2 t = some (l2, ds2) → False) :
    ∀ {s u : List Char}, Blocks k Q s u →
      ∀ i (l : Nat) (ds : List Char), matchKeyAt key2 (s.drop i) = some (l, ds) →
      occSome key2 u := by
  intro s u hb
  induction hb with
  | nil =>
    intro i l ds hm
    rw [List.drop_nil, matchKeyAt_nil hk2ne] at hm
    exact absurd hm (by simp)
  | lit c s u hnone hbt ih =>
    intro i l ds hm
    cases i with
    | zero =>
      rw [List.drop_zero] at hm
      obtain ⟨l2, hmu⟩ := match_transfer_rev hkbk hkne hkb2 hQ hkq hkqne hl2 hlk hbt hm
      exact ⟨0, l2, ds, by rw [List.drop_zero]; exact hmu⟩
    | succ i2 =>
      obtain ⟨j, l2, ds2, hj⟩ := ih i2 l ds hm
      exact ⟨j + 1, l2, ds2, hj⟩
  | rep s u len0 ds0 hm0 hbt ih =>
    intro i l ds hm
    by_cases hilen : len0 ≤ i
    · have hdd : s.drop i = (s.drop len0).drop (i - len0) := by
        rw [List.drop_drop]
        congr 1
        omega
      rw [hdd] at hm
      obtain ⟨j, l2, ds2, hj⟩ := ih (i - len0) l ds hm
      refine ⟨Q.length + j, l2, ds2, ?_⟩
      rw [drop_append_add]
      exact hj
    · push_neg at hilen
      exfalso
      rcases Nat.eq_zero_or_pos i with rfl | hpos
      · rw [List.drop_zero] at hm
        exact hnoboth s len0 ds0 l ds hm0 hm
      · obtain ⟨kp2, ws2, q12, q22, rest2, hs2eq, hlen0eq, hkp2len, hci2, hws2, hq12,
          hds0ne, hds0d, hq22, -⟩ := matchKeyAt_decomp hm0
        have hkp2blk : ∀ x ∈ kp2, blkChar x = true := kp_blk hkbk hkp2len hci2
        have hflat : s = (kp2 ++ (ws2 ++ (q12 ++ (ds0 ++ q22)))) ++ rest2 := by
          rw [hs2eq]
          simp [List.append_assoc]
        by_cases hB : kp2.length ≤ i
        · have hdropi : s.drop i =
              (ws2 ++ (q12 ++ (ds0 ++ q22))).drop (i - kp2.length) ++ rest2 := by
            rw [hflat, List.append_assoc]
            have h : i = kp2.length + (i - kp2.length) := by omega
            conv_lhs => rw [h]
            rw [drop_append_add]
            exact drop_append_le _ _ _ (by
              simp only [List.length_append]
              omega)
          have hjnb : i - kp2.length < (ws2 ++ (q12 ++ (ds0 ++ q22))).length := by
            simp only [List.length_append]
            omega
          obtain ⟨x, xs, hx, hxmem⟩ := drop_cons_of_lt _ (i - kp2.length) hjnb
          have hxnb : blkChar x = false := window_not_blk hws2 hq12 hds0d hq22 x hxmem
          rw [hdropi, hx] at hm
          have hxblk := match_head_blk hkb2 hk2ne hm x (xs ++ rest2) rfl
          rw [hxblk] at hxnb
          exact absurd hxnb (by decide)
        · push_neg at hB
          obtain ⟨kp3, ws3, q13, q23, rest3, hs3eq, -, hkp3len, hci3, hws3, hq13,
            hds3ne, hds3d, hq23, -⟩ := matchKeyAt_decomp hm
          have hkp3blk : ∀ x ∈ kp3, blkChar x = true := kp_blk hkb2 hkp3len hci3
          have h1 : s.drop kp2.length = (ws2 ++ (q12 ++ (ds0 ++ q22))) ++ rest2 := by
            rw [hflat, List.append_assoc, List.drop_left]
          have h2 : s.drop kp2.length = (s.drop i).drop (kp2.length - i) := by
            rw [List.drop_drop]
            congr 1
            omega
          have hjkp3 : kp2.length - i < kp3.length := by
            rw [hkp3len, hl2, ← hlk, ← hkp2len]
            omega
          have h3 : (s.drop i).drop (kp2.length - i) =
              kp3.drop (kp2.length - i) ++ (ws3 ++ (q13 ++ (ds ++ (q23 ++ rest3)))) := by
            rw [hs3eq]
            exact drop_append_le _ _ _ (le_of_lt hjkp3)
          obtain ⟨z, zs, hz, hzmem⟩ := drop_cons_of_lt kp3 (kp2.length - i) hjkp3
          have hzblk := hkp3blk z hzmem
          have hcomb : (ws2 ++ (q12 ++ (ds0 ++ q22))) ++ rest2 =
              z :: (zs ++ (ws3 ++ (q13 ++ (ds ++ (q23 ++ rest3))))) := by
            rw [← h1, h2, h3, hz]
            simp
          cases hnb0 : ws2 ++ (q12 ++ (ds0 ++ q22)) with
          | nil =>
            simp at hnb0
            exact hds0ne hnb0.2.2.1
          | cons y ys =>
            have hymem : y ∈ ws2 ++ (q12 ++ (ds0 ++ q22)) := by
              rw [hnb0]
              exact List.mem_cons_self _ _
            have hynb := window_not_blk hws2 hq12 hds0d hq22 y hymem
            rw [hnb0] at hcomb
            have hyz : y = z := by
              have hh := congrArg List.head? hcomb
              simp at hh
              exact hh
            rw [hyz, hzblk] at hynb
            exact absurd hynb (by decide)


theorem updateWorkflowContent_spec (T : Nat) (content : List Char)
    (h1 : ∃ i l ds, matchKeyAt keyNodeVersion (content.drop i) = some (l, ds))
    (h2 : ∃ i l ds, matchKeyAt keyNodeEnv (content.drop i) = some (l, ds)) :
    occAllT keyNodeVersion T (updateWorkflowContent T content) ∧
    occAllT keyNodeEnv T (updateWorkflowContent T content) ∧
    occSome keyNodeVersion (updateWorkflowContent T content) ∧
    occSome keyNodeEnv (updateWorkflowContent T content) ∧
    (findFirstAt (matchKeyAt keyNodeEnv)
        (replaceAllKey keyNodeVersion ("node-version: '".data ++ natDigits T ++ ['\''])
          content)).isSome = true ∧
    updateWorkflowContent T content =
      replaceAllKey keyNodeEnv ("NODE_VERSION: '".data ++ natDigits T ++ ['\''])
        (replaceAllKey keyNodeVersion ("node-version: '".data ++ natDigits T ++ ['\''])
          content) := by
  rw [q1_shape T, q2_shape T]
  obtain ⟨i1, l1, ds1, hmc1⟩ := h1
  obtain ⟨i2, l2, ds2, hmc2⟩ := h2
  have hb1 : Blocks keyNodeVersion
      (keyNodeVersion ++ (' ' :: '\'' :: (natDigits T ++ ['\''])))
      content
      (replaceAllKey keyNodeVersion
        (keyNodeVersion ++ (' ' :: '\'' :: (natDigits T ++ ['\'']))) content) :=
    replaceAllKey_blocks _ _ keyNV_ne content
  have hA1c1 : occAllT keyNodeVersion T
      (replaceAllKey keyNodeVersion
        (keyNodeVersion ++ (' ' :: '\'' :: (natDigits T ++ ['\'']))) content) :=
    blocks_occAll keyNV_keyBlk keyNV_ne keyNV_keyBlk keyNV_ne rfl keyNV_blkAll keyNV_ne
      rfl (natDigits_digits T) (qhead_self_nv T) hb1
      (by
        intro i l ds hn hm
        rw [hn] at hm
        exact absurd hm (by simp))
  have hs1c1 : occSome keyNodeVersion
      (replaceAllKey keyNodeVersion
        (keyNodeVersion ++ (' ' :: '\'' :: (natDigits T ++ ['\'']))) content) :=
    blocks_hasQ keyNV_ne
      (fun tail => ⟨_, _, matchKeyAt_Q_self keyNV_ne (natDigits_ne_nil T)
        (natDigits_digits T) tail⟩) hb1 i1 l1 ds1 hmc1
  have hs2c1 : occSome keyNodeEnv
      (replaceAllKey keyNodeVersion
        (keyNodeVersion ++ (' ' :: '\'' :: (natDigits T ++ ['\'']))) content) :=
    blocks_exists keyNV_keyBlk keyNV_ne keyNE_keyBlk keyNE_ne rfl keyNV_blkAll keyNV_ne
      (by decide) rfl keys_noboth hb1 i2 l2 ds2 hmc2
  have hm2s : (findFirstAt (matchKeyAt keyNodeEnv)
      (replaceAllKey keyNodeVersion
        (keyNodeVersion ++ (' ' :: '\'' :: (natDigits T ++ ['\'']))) content)).isSome =
      true := by
    obtain ⟨j, l3, ds3, hj⟩ := hs2c1
    exact findFirstAt_isSome _ hj
  have hb2 : Blocks keyNodeEnv
      (keyNodeEnv ++ (' ' :: '\'' :: (natDigits T ++ ['\''])))
      (replaceAllKey keyNodeVersion
        (keyNodeVersion ++ (' ' :: '\'' :: (natDigits T ++ ['\'']))) content)
      (replaceAllKey keyNodeEnv
        (keyNodeEnv ++ (' ' :: '\'' :: (natDigits T ++ ['\''])))
        (replaceAllKey keyNodeVersion
          (keyNodeVersion ++ (' ' :: '\'' :: (natDigits T ++ ['\'']))) content)) :=
    replaceAllKey_blocks _ _ keyNE_ne _
  have hueq : updateWorkflowContent T content =
      replaceAllKey keyNodeEnv
        (keyNodeEnv ++ (' ' :: '\'' :: (natDigits T ++ ['\''])))
        (replaceAllKey keyNodeVersion
          (keyNodeVersion ++ (' ' :: '\'' :: (natDigits T ++ ['\'']))) content) := by
    obtain ⟨p1, hp1⟩ := Option.isSome_iff_exists.mp (findFirstAt_isSome _ hmc1)
    obtain ⟨p2, hp2⟩ := Option.isSome_iff_exists.mp hm2s
    unfold updateWorkflowContent
    rw [q1_shape T, q2_shape T]
    simp only []
    rw [hp1]
    simp only []
    rw [hp2]
  rw [hueq]
  refine ⟨?_, ?_, ?_, ?_, hm2s, rfl⟩
  · exact blocks_occAll keyNE_keyBlk keyNE_ne keyNV_keyBlk keyNV_ne rfl keyNE_blkAll
      keyNE_ne (by decide) (natDigits_digits T) (qhead_other T) hb2
      (fun i l ds hn hm => hA1c1 i l ds hm)
  · exact blocks_occAll keyNE_keyBlk keyNE_ne keyNE_keyBlk keyNE_ne rfl keyNE_blkAll
      keyNE_ne rfl (natDigits_digits T) (qhead_self_ne T) hb2
      (by
        intro i l ds hn hm
        rw [hn] at hm
        exact absurd hm (by simp))
  · obtain ⟨j, l3, ds3, hj⟩ := hs1c1
    exact blocks_exists keyNE_keyBlk keyNE_ne keyNV_keyBlk keyNV_ne rfl keyNE_blkAll
      keyNE_ne (by decide) rfl
      (fun t l4 ds4 l5 ds5 hA hB => keys_noboth t l5 ds5 l4 ds4 hB hA) hb2 j l3 ds3 hj
  · obtain ⟨j, l3, ds3, hj⟩ := hs2c1
    exact blocks_hasQ keyNE_ne
      (fun tail => ⟨_, _, matchKeyAt_Q_self keyNE_ne (natDigits_ne_nil T)
        (natDigits_digits T) tail⟩) hb2 j l3 ds3 hj

theorem find?_map_set {l : List (String × FileData)} {p : String} {fd : FileData}
    (h : (l.find? (fun q => q.1 = p)).map (fun q => q.2) = some fd) (c : List Char) :
    ((l.map (fun q => if q.1 = p then (q.1, { q.2 with content := c }) else q)).find?
      (fun q => q.1 = p)).map (fun q => q.2) = some { fd with content := c } := by
  induction l with
  | nil => simp at h
  | cons a t ih =>
    by_cases hp : a.1 = p
    · have h2 : a.2 = fd := by
        rw [List.find?_cons_of_pos _ (by simp [hp])] at h
        simpa using h
      rw [List.map_cons, if_pos hp, List.find?_cons_of_pos _ (by simp [hp])]
      simp [h2]
    · rw [List.find?_cons_of_neg _ (by simp [hp])] at h
      rw [List.map_cons, if_neg hp, List.find?_cons_of_neg _ (by simp [hp])]
      exact ih h

theorem lookupFile_setFileContent_self {st : FSState} {p : String} {fd : FileData}
    (h : lookupFile st p = some fd) (c : List Char) :
    lookupFile (setFileContent st p c) p = some { fd with content := c } := by
  unfold lookupFile at h ⊢
  unfold setFileContent
  exact find?_map_set h c

theorem writeStep_self_content {st : FSState} {path : String} {fd : FileData} {b : Bool}
    {nc : List Char} (hlf : lookupFile st path = some fd)
    (hw : fd.writeErr = false) (hc : fd.copyErr = false) :
    lookupFile (writeStep st path fd b nc).2 path = some { fd with content := nc } := by
  unfold writeStep
  cases b with
  | true =>
    rw [if_pos rfl, if_neg (by simp [hc]), if_neg (by simp [hw])]
    exact lookupFile_setFileContent_self (by rw [lookupFile_addBackup]; exact hlf) nc
  | false =>
    rw [if_neg (by simp), if_neg (by simp [hw])]
    exact lookupFile_setFileContent_self hlf nc


/-- C8: for a workflow file whose content matches both the `node-version:`
and the `NODE_VERSION:` pattern, extraction produces exactly one record for
that file, built from the first match of the priority key `node-version:`,
while the non-dry update rewrites the file with content in which every
occurrence of either key carries the quoted target version (both keys still
occur in the rewritten content, and on a fault-free write that content is
what the file holds afterwards). -/
theorem c8_workflowDualKey (st : FSState) (path : String) (fd : FileData)
    (T : Nat) (o : UpdateOptions)
    (hlf : lookupFile st path = some fd) (hre : fd.readErr = false)
    (hdry : o.dryRun = false)
    (h1 : ∃ i l ds, matchKeyAt keyNodeVersion (fd.content.drop i) = some (l, ds))
    (h2 : ∃ i l ds, matchKeyAt keyNodeEnv (fd.content.drop i) = some (l, ds)) :
    (∃ i1 l1 ds1, findFirstAt (matchKeyAt keyNodeVersion) fd.content =
        some (i1, l1, ds1) ∧
      wfFileRecord path fd.content =
        some ⟨path, path, String.mk ds1, String.mk ds1, digitsToNat ds1,
          "github-workflow"⟩ ∧
      updateGitHubWorkflow st path T o =
        (.ok ⟨path, path, String.mk ds1, natStr T,
            (writeStep st path fd o.backup (updateWorkflowContent T fd.content)).1.1,
            (writeStep st path fd o.backup (updateWorkflowContent T fd.content)).1.2.2,
            (writeStep st path fd o.backup (updateWorkflowContent T fd.content)).1.2.1⟩,
          (writeStep st path fd o.backup (updateWorkflowContent T fd.content)).2)) ∧
    occAllT keyNodeVersion T (updateWorkflowContent T fd.content) ∧
    occAllT keyNodeEnv T (updateWorkflowContent T fd.content) ∧
    occSome keyNodeVersion (updateWorkflowContent T fd.content) ∧
    occSome keyNodeEnv (updateWorkflowContent T fd.content) ∧
    (fd.writeErr = false → fd.copyErr = false →
      lookupFile (updateGitHubWorkflow st path T o).2 path =
        some { fd with content := updateWorkflowContent T fd.content }) := by
  obtain ⟨hA1, hA2, hS1, hS2, hm2s, hueq⟩ := updateWorkflowContent_spec T fd.content h1 h2
  obtain ⟨i1, l1, ds1x, hmc1⟩ := h1
  have hm1s := findFirstAt_isSome _ hmc1
  obtain ⟨p1, hp1⟩ := Option.isSome_iff_exists.mp hm1s
  obtain ⟨j1, l1b, ds1⟩ := p1
  obtain ⟨p2, hp2⟩ := Option.isSome_iff_exists.mp hm2s
  have hgw : updateGitHubWorkflow st path T o =
      (.ok ⟨path, path, String.mk ds1, natStr T,
          (writeStep st path fd o.backup (updateWorkflowContent T fd.content)).1.1,
          (writeStep st path fd o.backup (updateWorkflowContent T fd.content)).1.2.2,
          (writeStep st path fd o.backup (updateWorkflowContent T fd.content)).1.2.1⟩,
        (writeStep st path fd o.backup (updateWorkflowContent T fd.content)).2) := by
    unfold updateGitHubWorkflow
    rw [hlf]
    try simp only []
    rw [if_neg (by simp [hre])]
    try simp only []
    rw [hp1]
    try simp only []
    rw [hp2]
    try simp only []
    rw [if_neg (by simp)]
    rw [if_neg (by simp [hdry])]
    rw [← hueq]
  refine ⟨⟨j1, l1b, ds1, hp1, ?_, hgw⟩, hA1, hA2, hS1, hS2, ?_⟩
  · unfold wfFileRecord
    rw [hp1]
  · intro hwe hce
    rw [hgw]
    exact writeStep_self_content hlf hwe hce

theorem c8_witness :
    (∃ i1 l1 ds1, findFirstAt (matchKeyAt keyNodeVersion)
        (mkFD (String.mk wfBoth)).content = some (i1, l1, ds1) ∧
      wfFileRecord ".github/workflows/ci.yml" (mkFD (String.mk wfBoth)).content =
        some ⟨".github/workflows/ci.yml", ".github/workflows/ci.yml", String.mk ds1,
          String.mk ds1, digitsToNat ds1, "github-workflow"⟩ ∧
      updateGitHubWorkflow stC8wf ".github/workflows/ci.yml" 22 ⟨false, false⟩ =
        (.ok ⟨".github/workflows/ci.yml", ".github/workflows/ci.yml", String.mk ds1,
            natStr 22,
            (writeStep stC8wf ".github/workflows/ci.yml" (mkFD (String.mk wfBoth)) false
              (updateWorkflowContent 22 (mkFD (String.mk wfBoth)).content)).1.1,
            (writeStep stC8wf ".github/workflows/ci.yml" (mkFD (String.mk wfBoth)) false
              (updateWorkflowContent 22 (mkFD (String.mk wfBoth)).content)).1.2.2,
            (writeStep stC8wf ".github/workflows/ci.yml" (mkFD (String.mk wfBoth)) false
              (updateWorkflowContent 22 (mkFD (String.mk wfBoth)).content)).1.2.1⟩,
          (writeStep stC8wf ".github/workflows/ci.yml" (mkFD (String.mk wfBoth)) false
            (updateWorkflowContent 22 (mkFD (String.mk wfBoth)).content)).2)) ∧
    occAllT keyNodeVersion 22 (updateWorkflowContent 22 (mkFD (String.mk wfBoth)).content) ∧
    occAllT keyNodeEnv 22 (updateWorkflowContent 22 (mkFD (String.mk wfBoth)).content) ∧
    occSome keyNodeVersion (updateWorkflowContent 22 (mkFD (String.mk wfBoth)).content) ∧
    occSome keyNodeEnv (updateWorkflowContent 22 (mkFD (String.mk wfBoth)).content) ∧
    ((mkFD (String.mk wfBoth)).writeErr = false →
      (mkFD (String.mk wfBoth)).copyErr = false →
      lookupFile (updateGitHubWorkflow stC8wf ".github/workflows/ci.yml" 22
          ⟨false, false⟩).2 ".github/workflows/ci.yml" =
        some ⟨updateWorkflowContent 22 (mkFD (String.mk wfBoth)).content, false, false,
          false⟩) :=
  c8_workflowDualKey stC8wf ".github/workflows/ci.yml" (mkFD (String.mk wfBoth)) 22
    ⟨false, false⟩ rfl rfl rfl
    ⟨8, 16, ['2', '0'], by decide⟩
    ⟨36, 18, ['1', '8'], by decide⟩


end VersionSync
